import Mathlib

/-!
# SortRelation cursor (codegen/common/sort_relation.h)

A shallow embedding of the sorted relation cursor.  The cursor object is the
record `SortRelation`; every member function becomes a function on that record.

* The batch source `lazy_in_->GetNumRowsOfBatch(i)` is a function `len : Int → Int`
  held fixed during one call (`-1` is the sentinel for a batch that is not available).
* The key columns are a list of `IsEqualTo` functions.
* The loops `while (true)` and `while (remaining >= 0)` need not end, so every
  function that contains one takes a bound `fuel` on the number of loop tests and
  answers `none` when the bound is used up.  A call of the source returns a value
  exactly when some bound gives `some`.
* The signed integer fields and locals (`int`, `int32_t`, `int64_t`) are mathematical
  integers: signed overflow is undefined in the source, so the properties concern
  runs in which it does not occur.  The logical offset `offset_` is a `uint64_t`,
  whose arithmetic is modulo `2 ^ 64`; the model wraps it the same way, and a state
  of the source has `0 ≤ offset_ < 2 ^ 64`.
-/

namespace SortRel

/-- Modelled from the spec: `ArrayItemIndexS` (declared in
`codegen/arrow_compute/ext/array_item_index.h`, which is absent) is the physical
position `(batch_id, row_index)`; its constructor takes `array_id` first, then `id`. -/
structure ArrayItemIndexS where
  array_id : Int
  id : Int
deriving DecidableEq, Repr

/-- One key column: `col->IsEqualTo(array_id_a, id_a, array_id_b, id_b)`. -/
abbrev KeyColumn := Int → Int → Int → Int → Bool

/-- The mutable fields of `SortRelation`, with their source names.  `released` is
the log of the `ReleaseArray(array_id)` calls made so far, oldest first. -/
structure SortRelation where
  offset_ : Int
  offset_in_current_batch_ : Int
  requested_batches : Int
  range_cache_ : Int
  released : List Int
deriving DecidableEq, Repr

/-- The cursor right after construction (the default member initialisers). -/
def SortRelation.init : SortRelation :=
  { offset_ := 0, offset_in_current_batch_ := 0, requested_batches := 0,
    range_cache_ := -1, released := [] }

/-- `ReleaseArray(array_id)`: forwards the id to every key and payload column;
the call is recorded in the log. -/
def ReleaseArray (s : SortRelation) (array_id : Int) : SortRelation :=
  { s with released := s.released ++ [array_id] }

/-- The loop `for (int64_t i = requested_batches; i < batch_i; i++) ReleaseArray(i);`
run from `i` for `n` iterations (`n` is `batch_i - i`, or `0` when `batch_i ≤ i`). -/
def releaseFor (s : SortRelation) (i : Int) : Nat → SortRelation
  | 0 => s
  | n + 1 => releaseFor (ReleaseArray s i) (i + 1) n

/-- The `while (true)` loop of `Advance`, entered with `remaining` and `batch_i`. -/
def AdvanceLoop (len : Int → Int) (s : SortRelation) : Nat → Int → Int → Option SortRelation
  | 0, _, _ => none
  | fuel + 1, remaining, batch_i =>
    let current_batch_length := len batch_i
    if remaining ≤ current_batch_length then
      let s1 := releaseFor s s.requested_batches (batch_i - s.requested_batches).toNat
      some { s1 with requested_batches := batch_i, offset_in_current_batch_ := remaining - 1 }
    else
      AdvanceLoop len s fuel (remaining - current_batch_length) (batch_i + 1)

/-- `void Advance(int shift)`. -/
def Advance (len : Int → Int) (fuel : Nat) (s : SortRelation) (shift : Int) :
    Option SortRelation :=
  let batch_length := len s.requested_batches
  let batch_remaining := (batch_length - 1) - s.offset_in_current_batch_
  if shift ≤ batch_remaining then
    some { s with offset_in_current_batch_ := s.offset_in_current_batch_ + shift }
  else
    AdvanceLoop len s fuel (shift - batch_remaining) (s.requested_batches + 1)

/-- The `while (true)` loop of `GetItemIndexWithShift`. -/
def GetItemIndexLoop (len : Int → Int) : Nat → Int → Int → Option ArrayItemIndexS
  | 0, _, _ => none
  | fuel + 1, remaining, batch_i =>
    let current_batch_length := len batch_i
    if remaining ≤ current_batch_length then
      some ⟨batch_i, remaining - 1⟩
    else
      GetItemIndexLoop len fuel (remaining - current_batch_length) (batch_i + 1)

/-- `ArrayItemIndexS GetItemIndexWithShift(int shift)`. -/
def GetItemIndexWithShift (len : Int → Int) (fuel : Nat) (s : SortRelation) (shift : Int) :
    Option ArrayItemIndexS :=
  let batch_length := len s.requested_batches
  let batch_remaining := (batch_length - 1) - s.offset_in_current_batch_
  if shift ≤ batch_remaining then
    some ⟨s.requested_batches, s.offset_in_current_batch_ + shift⟩
  else
    GetItemIndexLoop len fuel (shift - batch_remaining) (s.requested_batches + 1)

/-- The loop `while (remaining >= 0)` of `CheckRangeBound`; leaving the loop
returns `true`. -/
def CheckRangeLoop (len : Int → Int) : Nat → Int → Int → Option Bool
  | 0, _, _ => none
  | fuel + 1, remaining, batch_i =>
    if remaining ≥ 0 then
      let current_batch_length := len batch_i
      if current_batch_length = -1 then some false
      else CheckRangeLoop len fuel (remaining - current_batch_length) (batch_i + 1)
    else some true

/-- `bool CheckRangeBound(int shift)`. -/
def CheckRangeBound (len : Int → Int) (fuel : Nat) (s : SortRelation) (shift : Int) :
    Option Bool :=
  let batch_length := len s.requested_batches
  if batch_length = -1 then some false
  else
    let batch_remaining := (batch_length - 1) - s.offset_in_current_batch_
    if shift ≤ batch_remaining then some true
    else CheckRangeLoop len fuel (shift - batch_remaining) (s.requested_batches + 1)

/-- `bool Next()`: the returned flag and the state after the call.  `offset_++` on the
`uint64_t` field wraps modulo `2 ^ 64`. -/
def Next (len : Int → Int) (fuel : Nat) (s : SortRelation) : Option (Bool × SortRelation) :=
  match CheckRangeBound len fuel s 1 with
  | none => none
  | some false => some (false, s)
  | some true =>
    match Advance len fuel s 1 with
    | none => none
    | some s1 =>
      some (true, { s1 with offset_ := (s1.offset_ + 1) % 2 ^ 64, range_cache_ := -1 })

/-- The loop over the key columns inside `GetSameKeyRange`:
`for (auto col : keys) if (!(is_same = col->IsEqualTo(..))) break;`
entered with `is_same == true`; the result is `is_same` after the loop. -/
def keyColumnsLoop (cur_idx cur_idx_plus_one : ArrayItemIndexS) : List KeyColumn → Bool
  | [] => true
  | col :: rest =>
    if !(col cur_idx.array_id cur_idx.id cur_idx_plus_one.array_id cur_idx_plus_one.id) then false
    else keyColumnsLoop cur_idx cur_idx_plus_one rest

/-- The loop `while (is_same)` of `GetSameKeyRange`, entered with `range`; the
result is `range` when the loop is left through `break`. -/
def SameKeyLoop (len : Int → Int) (keys : List KeyColumn) (fuel : Nat) (s : SortRelation) :
    Nat → Int → Option Int
  | 0, _ => none
  | n + 1, range =>
    match CheckRangeBound len fuel s (range + 1) with
    | none => none
    | some false => some range
    | some true =>
      match GetItemIndexWithShift len fuel s range,
            GetItemIndexWithShift len fuel s (range + 1) with
      | some cur_idx, some cur_idx_plus_one =>
        if keyColumnsLoop cur_idx cur_idx_plus_one keys then
          SameKeyLoop len keys fuel s n (range + 1)
        else some range
      | _, _ => none

/-- `int GetSameKeyRange()`: the returned value and the state after the call. -/
def GetSameKeyRange (len : Int → Int) (keys : List KeyColumn) (fuel : Nat) (s : SortRelation) :
    Option (Int × SortRelation) :=
  if s.range_cache_ ≠ -1 then some (s.range_cache_, s)
  else
    match CheckRangeBound len fuel s 0 with
    | none => none
    | some false => some (0, s)
    | some true =>
      match SameKeyLoop len keys fuel s fuel 0 with
      | none => none
      | some range => some (range + 1, { s with range_cache_ := range + 1 })

/-- `bool NextNewKey()`: the returned flag and the state after the call.
`offset_ += range` on the `uint64_t` field wraps modulo `2 ^ 64`. -/
def NextNewKey (len : Int → Int) (keys : List KeyColumn) (fuel : Nat) (s : SortRelation) :
    Option (Bool × SortRelation) :=
  match GetSameKeyRange len keys fuel s with
  | none => none
  | some (range, s0) =>
    match CheckRangeBound len fuel s0 range with
    | none => none
    | some false => some (false, s0)
    | some true =>
      match Advance len fuel s0 range with
      | none => none
      | some s1 =>
        some (true, { s1 with offset_ := (s1.offset_ + range) % 2 ^ 64, range_cache_ := -1 })

/-! ### Concrete relations used for evaluation -/

/-- The batch source of a relation whose batches hold the given key values:
batch `i` has the length of the `i`-th list, every other id reports `-1`. -/
def lenOf (batches : List (List Int)) (i : Int) : Int :=
  if i < 0 then -1
  else match batches.get? i.toNat with
    | some b => b.length
    | none => -1

/-- The key stored at a physical position of such a relation (`0` when absent). -/
def keyAt (batches : List (List Int)) (array_id id : Int) : Int :=
  ((batches.getD array_id.toNat []).getD id.toNat 0)

/-- The single key column of such a relation. -/
def keyColumnOf (batches : List (List Int)) : KeyColumn :=
  fun a i b j => keyAt batches a i == keyAt batches b j

/-- A batch source with a gap: batches 0 and 2 have two rows, batch 1 and every
other batch report `-1`. -/
def lenGap (i : Int) : Int :=
  if i = 0 then 2 else if i = 1 then -1 else if i = 2 then 2 else -1

/-- A batch source with eight batches of `2 ^ 62` rows each; every other id reports
`-1`. -/
def lenWide (i : Int) : Int :=
  if 0 ≤ i ∧ i < 8 then 4611686018427387904 else -1

/-- A key column in which every row has a key of its own: two positions hold equal keys
exactly when they are the same position. -/
def rowIdKey : KeyColumn :=
  fun a i b j => decide (a = b ∧ i = j)

/-- The cursor on row `r` of batch `q` of `lenWide`, as `Next()` calls from the
constructor leave it: the logical offset counts the rows before it and the batches
before `q` have been released. -/
def wideRow (q r : Nat) : SortRelation :=
  { offset_ := (q : Int) * 4611686018427387904 + r, offset_in_current_batch_ := r,
    requested_batches := q, range_cache_ := -1,
    released := (List.range q).map (fun i : Nat => (i : Int)) }

/-! ### Auxiliary definitions for the statements -/

/-- The number of rows in the `n` batches `b, b+1, ..., b+n-1`. -/
def sumLen (len : Int → Int) (b : Int) : Nat → Int
  | 0 => 0
  | n + 1 => len b + sumLen len (b + 1) n

/-- The state `Advance` leaves when its walk lands on the position `p`. -/
def landOn (s : SortRelation) (p : ArrayItemIndexS) : SortRelation :=
  { releaseFor s s.requested_batches (p.array_id - s.requested_batches).toNat with
    requested_batches := p.array_id, offset_in_current_batch_ := p.id }

/-- One cursor call of a run: `Advance(shift)` or `Next()`. -/
inductive Call where
  | advance (shift : Int)
  | next
deriving DecidableEq, Repr

/-- The number of rows a call moves the cursor. -/
def Call.shift : Call → Int
  | .advance k => k
  | .next => 1

/-- Runs the calls in order from `s`, each made only when `CheckRangeBound` of its
shift answers `true` (for `Next()` that test is the one `Next` makes itself).
The result is `none` when a guard answers `false` or the bound is used up. -/
def guardedRun (len : Int → Int) (fuel : Nat) : SortRelation → List Call → Option SortRelation
  | s, [] => some s
  | s, Call.advance k :: rest =>
    match CheckRangeBound len fuel s k with
    | some true =>
      match Advance len fuel s k with
      | some s1 => guardedRun len fuel s1 rest
      | none => none
    | _ => none
  | s, Call.next :: rest =>
    match Next len fuel s with
    | some (true, s1) => guardedRun len fuel s1 rest
    | _ => none

/-- The cursor `s` stands `N` rows after the start of the relation, and every
batch before the current one is available. -/
def AtRow (len : Int → Int) (s : SortRelation) (N : Int) : Prop :=
  0 ≤ s.requested_batches ∧ 0 ≤ s.offset_in_current_batch_ ∧
  (∀ i, 0 ≤ i → i < s.requested_batches → 0 ≤ len i) ∧
  sumLen len 0 s.requested_batches.toNat + s.offset_in_current_batch_ = N

/-- The states the cursor reaches from its initial state through `Next()`,
`NextNewKey()` and `GetSameKeyRange()` calls over a fixed batch source and fixed
key columns. -/
inductive Reachable (len : Int → Int) (keys : List KeyColumn) : SortRelation → Prop
  | init : Reachable len keys SortRelation.init
  | next {s s1 : SortRelation} {b : Bool} {fuel : Nat} :
      Reachable len keys s → Next len fuel s = some (b, s1) → Reachable len keys s1
  | nextNewKey {s s1 : SortRelation} {b : Bool} {fuel : Nat} :
      Reachable len keys s → NextNewKey len keys fuel s = some (b, s1) → Reachable len keys s1
  | getSameKeyRange {s s1 : SortRelation} {r : Int} {fuel : Nat} :
      Reachable len keys s → GetSameKeyRange len keys fuel s = some (r, s1) →
      Reachable len keys s1

/-- The range cache is `-1`, or it is the value that `GetSameKeyRange()` computes at
the current position when it starts with the cache at `-1`. -/
def CacheFresh (len : Int → Int) (keys : List KeyColumn) (s : SortRelation) : Prop :=
  s.range_cache_ = -1 ∨
  ∃ fuel, GetSameKeyRange len keys fuel { s with range_cache_ := -1 } = some (s.range_cache_, s)

/-- The sum of the absolute values of the lengths reported for the `n` batches
`b, ..., b+n-1`: a bound on every sum of lengths of consecutive batches from `b`. -/
def absLen (len : Int → Int) (b : Int) : Nat → Int
  | 0 => 0
  | n + 1 => |len b| + absLen len (b + 1) n

/-- One call of a run in which every move is made within `CheckRangeBound`:
`Next()` and `NextNewKey()` (which test `CheckRangeBound` themselves), or
`Advance(shift)` with `shift ≥ 0` made when `CheckRangeBound(shift)` answers `true`. -/
inductive GuardedStep (len : Int → Int) (keys : List KeyColumn) :
    SortRelation → SortRelation → Prop
  | next {s s1 : SortRelation} {b : Bool} {fuel : Nat} :
      Next len fuel s = some (b, s1) → GuardedStep len keys s s1
  | nextNewKey {s s1 : SortRelation} {b : Bool} {fuel : Nat} :
      NextNewKey len keys fuel s = some (b, s1) → GuardedStep len keys s s1
  | advance {s s1 : SortRelation} {shift : Int} {fuel : Nat} :
      0 ≤ shift → CheckRangeBound len fuel s shift = some true →
      Advance len fuel s shift = some s1 → GuardedStep len keys s s1

/-- The states reached from `s0` by finitely many such calls. -/
inductive GuardedReach (len : Int → Int) (keys : List KeyColumn) (s0 : SortRelation) :
    SortRelation → Prop
  | start : GuardedReach len keys s0 s0
  | step {s s1 : SortRelation} :
      GuardedReach len keys s0 s → GuardedStep len keys s s1 → GuardedReach len keys s0 s1

/-- What the guarded calls keep true of the cursor: the range cache is `-1` or `≥ 1`,
the cursor is on an existing row or still at `(0, 0)`, and every released batch id is
below the current batch. -/
def CursorOk (len : Int → Int) (s : SortRelation) : Prop :=
  (s.range_cache_ = -1 ∨ 1 ≤ s.range_cache_) ∧
  0 ≤ s.offset_in_current_batch_ ∧
  (s.offset_in_current_batch_ < len s.requested_batches ∨
    (s.requested_batches = 0 ∧ s.offset_in_current_batch_ = 0)) ∧
  ∀ id ∈ s.released, id < s.requested_batches

/-- One call `col->IsEqualTo(left.array_id, left.id, right.array_id, right.id)` made by
`GetSameKeyRange()`: the ordinal of the column in `sort_relation_key_list_` and the two
positions passed. -/
structure IsEqualToCall where
  column : Nat
  left : ArrayItemIndexS
  right : ArrayItemIndexS
deriving DecidableEq, Repr

/-- The loop of `keyColumnsLoop` together with the `IsEqualTo` calls it makes, in the
order it makes them; `j` is the ordinal of the first column of the list. -/
def keyColumnsCalls (cur_idx cur_idx_plus_one : ArrayItemIndexS) :
    Nat → List KeyColumn → Bool × List IsEqualToCall
  | _, [] => (true, [])
  | j, col :: rest =>
    if !(col cur_idx.array_id cur_idx.id cur_idx_plus_one.array_id cur_idx_plus_one.id) then
      (false, [⟨j, cur_idx, cur_idx_plus_one⟩])
    else
      ((keyColumnsCalls cur_idx cur_idx_plus_one (j + 1) rest).1,
        ⟨j, cur_idx, cur_idx_plus_one⟩ ::
          (keyColumnsCalls cur_idx cur_idx_plus_one (j + 1) rest).2)

/-- The loop of `SameKeyLoop` together with the `IsEqualTo` calls it makes. -/
def SameKeyCalls (len : Int → Int) (keys : List KeyColumn) (fuel : Nat) (s : SortRelation) :
    Nat → Int → Option (Int × List IsEqualToCall)
  | 0, _ => none
  | n + 1, range =>
    match CheckRangeBound len fuel s (range + 1) with
    | none => none
    | some false => some (range, [])
    | some true =>
      match GetItemIndexWithShift len fuel s range,
            GetItemIndexWithShift len fuel s (range + 1) with
      | some cur_idx, some cur_idx_plus_one =>
        if (keyColumnsCalls cur_idx cur_idx_plus_one 0 keys).1 then
          match SameKeyCalls len keys fuel s n (range + 1) with
          | none => none
          | some (v, calls) =>
            some (v, (keyColumnsCalls cur_idx cur_idx_plus_one 0 keys).2 ++ calls)
        else some (range, (keyColumnsCalls cur_idx cur_idx_plus_one 0 keys).2)
      | _, _ => none

/-- `GetSameKeyRange()` together with the `IsEqualTo` calls it makes: the returned
value, the state after the call, and the calls in order. -/
def GetSameKeyRangeCalls (len : Int → Int) (keys : List KeyColumn) (fuel : Nat)
    (s : SortRelation) : Option (Int × SortRelation × List IsEqualToCall) :=
  if s.range_cache_ ≠ -1 then some (s.range_cache_, s, [])
  else
    match CheckRangeBound len fuel s 0 with
    | none => none
    | some false => some (0, s, [])
    | some true =>
      match SameKeyCalls len keys fuel s fuel 0 with
      | none => none
      | some (range, calls) => some (range + 1, { s with range_cache_ := range + 1 }, calls)

/-- The loop of `CheckRangeBound` together with the batch ids it passes to
`GetNumRowsOfBatch`, in the order of the calls. -/
def CheckRangeLoopReads (len : Int → Int) : Nat → Int → Int → Option (Bool × List Int)
  | 0, _, _ => none
  | fuel + 1, remaining, batch_i =>
    if remaining ≥ 0 then
      let current_batch_length := len batch_i
      if current_batch_length = -1 then some (false, [batch_i])
      else
        match CheckRangeLoopReads len fuel (remaining - current_batch_length) (batch_i + 1) with
        | none => none
        | some (v, reads) => some (v, batch_i :: reads)
    else some (true, [])

/-- `CheckRangeBound(shift)` together with the batch ids it passes to
`GetNumRowsOfBatch`, in the order of the calls: the current batch first, then the
batches the loop inspects. -/
def CheckRangeBoundReads (len : Int → Int) (fuel : Nat) (s : SortRelation) (shift : Int) :
    Option (Bool × List Int) :=
  let batch_length := len s.requested_batches
  if batch_length = -1 then some (false, [s.requested_batches])
  else
    let batch_remaining := (batch_length - 1) - s.offset_in_current_batch_
    if shift ≤ batch_remaining then some (true, [s.requested_batches])
    else
      match CheckRangeLoopReads len fuel (shift - batch_remaining) (s.requested_batches + 1) with
      | none => none
      | some (v, reads) => some (v, s.requested_batches :: reads)

end SortRel

/-!
# UnsafeRowWriterAndReader (operators/unsafe_row_writer_and_reader.h)

The header declares the codec; the bodies of `Init`, `Write`, `HasNext` and `Next` are
in a file that is absent, so they are modelled from the specification.  A row buffer is
the list of its bytes.
-/

namespace UnsafeRow

/-- Modelled from the spec: the column types of a batch as the row layout distinguishes
them (`arrow/type.h` and the codec's `.cc` file are absent): a fixed-width type
of `width` bytes (primitive numeric, boolean, date, small decimal), a variable-length type
(string, binary, decimal wider than the slot), or a type the codec does not support. -/
inductive ColumnType where
  | fixed (width : Nat)
  | varlen
  | unsupported
deriving DecidableEq, Repr

/-- Modelled from the spec: one value of a column: null, the bit pattern of a
fixed-width value, or the bytes of a variable-length value. -/
inductive Cell where
  | null
  | fixed (v : Nat)
  | bytes (b : List Nat)
deriving DecidableEq, Repr

/-- Modelled from the spec: `arrow::RecordBatch` (absent): the number of rows, the
column types in declared order, and the columns, each the list of its values in row
order. -/
structure RecordBatch where
  num_rows : Nat
  schema : List ColumnType
  columns : List (List Cell)
deriving DecidableEq, Repr

/-- The value of column `col` in row `row`. -/
def RecordBatch.cell (rb : RecordBatch) (row col : Nat) : Cell :=
  (rb.columns.getD col []).getD row Cell.null

/-- The fields of `UnsafeRowWriterAndReader`, with their source names; a buffer is the
list of its bytes. -/
structure UnsafeRowWriterAndReader where
  buffers_ : List (List Nat)
  buffer_cursor_ : List Nat
  rb_ : RecordBatch
  nullBitsetWidthInBytes_ : Nat
  row_cursor_ : Nat
  num_cols_ : Nat
  num_rows_ : Nat
deriving DecidableEq, Repr

/-- The constructor `UnsafeRowWriterAndReader(rb, memory_pool)`: it stores the batch. -/
def UnsafeRowWriterAndReader.create (rb : RecordBatch) : UnsafeRowWriterAndReader :=
  { buffers_ := [], buffer_cursor_ := [], rb_ := rb, nullBitsetWidthInBytes_ := 0,
    row_cursor_ := 0, num_cols_ := 0, num_rows_ := 0 }

/-- `int64_t GetNumCols()`. -/
def GetNumCols (c : UnsafeRowWriterAndReader) : Nat := c.num_cols_

/-- Modelled from the spec: the eight bytes of a 64-bit word, low-order byte first
(the native order of the targets the engine supports). -/
def wordBytes (v : Nat) : List Nat :=
  [v % 256, v / 256 % 256, v / 256 ^ 2 % 256, v / 256 ^ 3 % 256,
   v / 256 ^ 4 % 256, v / 256 ^ 5 % 256, v / 256 ^ 6 % 256, v / 256 ^ 7 % 256]

/-- Modelled from the spec: the 64-bit word held by eight bytes, low-order byte first. -/
def bytesWord (b : List Nat) : Nat :=
  b.getD 0 0 + 256 * b.getD 1 0 + 256 ^ 2 * b.getD 2 0 + 256 ^ 3 * b.getD 3 0 +
  256 ^ 4 * b.getD 4 0 + 256 ^ 5 * b.getD 5 0 + 256 ^ 6 * b.getD 6 0 + 256 ^ 7 * b.getD 7 0

/-- Modelled from the spec: a length rounded up to the next multiple of 8 ("padded so
the next value starts at an 8-byte boundary"). -/
def roundUp8 (n : Nat) : Nat := (n + 7) / 8 * 8

/-- Modelled from the spec: "null-bitmap width = `ceil(num_columns / 64) * 8` bytes". -/
def nullBitsetWidth (num_cols : Nat) : Nat := (num_cols + 63) / 64 * 8

/-- Modelled from the spec: one row while `Write()` builds it: the 64-bit words of the
null bitmap, the 8-byte slots written so far, the variable-length region, and the
row's `buffer_cursor_` (the offset from the row start where the next variable-length
value goes). -/
structure RowBuffer where
  bitmap : List Nat
  slots : List Nat
  varRegion : List Nat
  cursor : Nat
deriving DecidableEq, Repr

/-- Modelled from the spec: "sets the corresponding bitmap bit": bit `j % 64` of word
`j / 64`. -/
def setNullAt (bitmap : List Nat) (j : Nat) : List Nat :=
  bitmap.set (j / 64) (bitmap.getD (j / 64) 0 ||| 1 <<< (j % 64))

/-- Modelled from the spec: `Write()` for column `j` of one row.  A null sets the bitmap
bit and leaves the slot zero; a fixed-width value goes into the slot in its native
width; a variable-length value is appended to the variable-length region, padded to a
multiple of 8 bytes, and the slot holds its offset from the row start in the upper 32
bits and its length in the lower 32 bits. -/
def writeCell (st : RowBuffer) (j : Nat) (ty : ColumnType) (c : Cell) : RowBuffer :=
  match ty, c with
  | ColumnType.fixed w, Cell.fixed v =>
    { st with slots := st.slots ++ [v % 2 ^ (8 * w)] }
  | ColumnType.varlen, Cell.bytes b =>
    { st with
      slots := st.slots ++ [(st.cursor % 2 ^ 32) * 2 ^ 32 + b.length % 2 ^ 32],
      varRegion := st.varRegion ++ b ++ List.replicate (roundUp8 b.length - b.length) 0,
      cursor := st.cursor + roundUp8 b.length }
  | _, _ =>
    { st with bitmap := setNullAt st.bitmap j, slots := st.slots ++ [0] }

/-- Modelled from the spec: the loop of `Write()` over the columns of one row, in
declared order, from column `j` on. -/
def writeCells (st : RowBuffer) (j : Nat) : List (ColumnType × Cell) → RowBuffer
  | [] => st
  | (ty, c) :: rest => writeCells (writeCell st j ty c) (j + 1) rest

/-- The columns of row `i` of a batch: type and value, in declared order. -/
def rowCells (rb : RecordBatch) (i : Nat) : List (ColumnType × Cell) :=
  (List.range rb.schema.length).map (fun j => (rb.schema.getD j ColumnType.unsupported, rb.cell i j))

/-- Modelled from the spec: `Write()` for row `i`: the null bitmap is cleared, the
cursor starts right after the fixed slots, then every column is written. -/
def writeRow (rb : RecordBatch) (i : Nat) : RowBuffer :=
  writeCells
    { bitmap := List.replicate (nullBitsetWidth rb.schema.length / 8) 0, slots := [],
      varRegion := [],
      cursor := nullBitsetWidth rb.schema.length + 8 * rb.schema.length }
    0 (rowCells rb i)

/-- Modelled from the spec: the bytes of a row:
`[null-bitmap][fixed-slot-0]...[fixed-slot-N-1][variable-length region]`. -/
def rowBytes (st : RowBuffer) : List Nat :=
  (st.bitmap ++ st.slots).flatMap wordBytes ++ st.varRegion

/-- Modelled from the spec: `arrow::Status Init()`: the column and row counts, the width
of the null bitmap, one buffer per row holding the fixed region, the cursor of each row
right after its fixed region; `none` when the schema has an unsupported type. -/
def Init (c : UnsafeRowWriterAndReader) : Option UnsafeRowWriterAndReader :=
  if c.rb_.schema.any (fun ty => ty == ColumnType.unsupported) then none
  else
    some { c with
      num_cols_ := c.rb_.schema.length,
      num_rows_ := c.rb_.num_rows,
      nullBitsetWidthInBytes_ := nullBitsetWidth c.rb_.schema.length,
      row_cursor_ := 0,
      buffers_ := List.replicate c.rb_.num_rows
        (List.replicate (nullBitsetWidth c.rb_.schema.length + 8 * c.rb_.schema.length) 0),
      buffer_cursor_ := List.replicate c.rb_.num_rows
        (nullBitsetWidth c.rb_.schema.length + 8 * c.rb_.schema.length) }

/-- Modelled from the spec: `arrow::Status Write()`: every row of the batch is encoded,
in row order, into its buffer; the pull sequence starts again at the first row. -/
def Write (c : UnsafeRowWriterAndReader) : UnsafeRowWriterAndReader :=
  { c with
    buffers_ := (List.range c.num_rows_).map (fun i => rowBytes (writeRow c.rb_ i)),
    buffer_cursor_ := (List.range c.num_rows_).map (fun i => (writeRow c.rb_ i).cursor),
    row_cursor_ := 0 }

/-- Modelled from the spec: `bool HasNext()`. -/
def HasNext (c : UnsafeRowWriterAndReader) : Bool := c.row_cursor_ < c.num_rows_

/-- Modelled from the spec: `arrow::Status Next(int64_t* length, buffer*)`: the byte
length and the buffer of the next row, and the codec after the call. -/
def Next (c : UnsafeRowWriterAndReader) : (Nat × List Nat) × UnsafeRowWriterAndReader :=
  ((c.buffer_cursor_.getD c.row_cursor_ 0, c.buffers_.getD c.row_cursor_ []),
    { c with row_cursor_ := c.row_cursor_ + 1 })

/-- The caller's loop `while (HasNext()) Next(&length, &buffer);`, run for at most
`fuel` rows: the rows pulled, in order. -/
def pullRows : Nat → UnsafeRowWriterAndReader → List (Nat × List Nat)
  | 0, _ => []
  | fuel + 1, c =>
    if HasNext c then (Next c).1 :: pullRows fuel (Next c).2 else []

/-- Modelled from the spec: the 64-bit word at byte offset `8 * k` of a row. -/
def readWord (row : List Nat) (k : Nat) : Nat :=
  bytesWord ((row.drop (8 * k)).take 8)

/-- Modelled from the spec: decoding column `j` of an encoded row against the documented
layout: the null bit, then the slot after the null bitmap, read in the native width
of a fixed-width type or as offset (upper 32 bits) and length (lower 32 bits) of the
bytes of a variable-length value. -/
def decodeCell (num_cols : Nat) (ty : ColumnType) (row : List Nat) (j : Nat) : Cell :=
  if (readWord row (j / 64)).testBit (j % 64) then Cell.null
  else
    match ty with
    | ColumnType.fixed w =>
      Cell.fixed (readWord row (nullBitsetWidth num_cols / 8 + j) % 2 ^ (8 * w))
    | ColumnType.varlen =>
      Cell.bytes
        ((row.drop (readWord row (nullBitsetWidth num_cols / 8 + j) / 2 ^ 32)).take
          (readWord row (nullBitsetWidth num_cols / 8 + j) % 2 ^ 32))
    | ColumnType.unsupported => Cell.null

/-- A value has the type of its column: a fixed-width value fits the width of its
type (1 to 8 bytes), a variable-length value is a list of bytes. -/
def cellFits : ColumnType → Cell → Prop
  | ColumnType.unsupported, _ => False
  | _, Cell.null => True
  | ColumnType.fixed w, Cell.fixed v => 1 ≤ w ∧ w ≤ 8 ∧ v < 2 ^ (8 * w)
  | ColumnType.varlen, Cell.bytes b => ∀ x ∈ b, x < 256
  | _, _ => False

/-- Whether a value has the type of its column can be computed. -/
instance cellFits.decide : (ty : ColumnType) → (c : Cell) → Decidable (cellFits ty c)
  | ColumnType.unsupported, Cell.null => inferInstanceAs (Decidable False)
  | ColumnType.unsupported, Cell.fixed _ => inferInstanceAs (Decidable False)
  | ColumnType.unsupported, Cell.bytes _ => inferInstanceAs (Decidable False)
  | ColumnType.fixed _, Cell.null => inferInstanceAs (Decidable True)
  | ColumnType.varlen, Cell.null => inferInstanceAs (Decidable True)
  | ColumnType.fixed w, Cell.fixed v =>
    inferInstanceAs (Decidable (1 ≤ w ∧ w ≤ 8 ∧ v < 2 ^ (8 * w)))
  | ColumnType.varlen, Cell.bytes b => inferInstanceAs (Decidable (∀ x ∈ b, x < 256))
  | ColumnType.fixed _, Cell.bytes _ => inferInstanceAs (Decidable False)
  | ColumnType.varlen, Cell.fixed _ => inferInstanceAs (Decidable False)

/-- A record batch of supported column types: every column has a supported type and
`num_rows` values of that type, and every encoded row is shorter than `2 ^ 32` bytes
(the layout stores offsets and lengths in 32 bits). -/
def Supported (rb : RecordBatch) : Prop :=
  (∀ ty ∈ rb.schema, ty ≠ ColumnType.unsupported) ∧
  rb.columns.length = rb.schema.length ∧
  (∀ j, j < rb.schema.length → (rb.columns.getD j []).length = rb.num_rows) ∧
  (∀ i, i < rb.num_rows → ∀ j, j < rb.schema.length →
    cellFits (rb.schema.getD j ColumnType.unsupported) (rb.cell i j)) ∧
  (∀ i, i < rb.num_rows → (writeRow rb i).cursor < 2 ^ 32)

/-- Whether a batch is supported can be computed. -/
instance Supported.decide (rb : RecordBatch) : Decidable (Supported rb) :=
  inferInstanceAs (Decidable (
    (∀ ty ∈ rb.schema, ty ≠ ColumnType.unsupported) ∧
    rb.columns.length = rb.schema.length ∧
    (∀ j, j < rb.schema.length → (rb.columns.getD j []).length = rb.num_rows) ∧
    (∀ i, i < rb.num_rows → ∀ j, j < rb.schema.length →
      cellFits (rb.schema.getD j ColumnType.unsupported) (rb.cell i j)) ∧
    (∀ i, i < rb.num_rows → (writeRow rb i).cursor < 2 ^ 32)))

/-- What the decoder needs of the slot of a written column: a fixed-width value is
the slot read in the width of the type; the bytes of a variable-length value lie in
the variable-length region at the offset and with the length the slot holds
(`fixedSize` is the size of the null bitmap and the slots). -/
def slotOk (fixedSize : Nat) (varRegion : List Nat) (ty : ColumnType) (c : Cell)
    (slot : Nat) : Prop :=
  match ty, c with
  | ColumnType.fixed w, Cell.fixed v => slot % 2 ^ (8 * w) = v
  | ColumnType.varlen, Cell.bytes b =>
    fixedSize ≤ slot / 2 ^ 32 ∧
    slot / 2 ^ 32 - fixedSize + slot % 2 ^ 32 ≤ varRegion.length ∧
    (varRegion.drop (slot / 2 ^ 32 - fixedSize)).take (slot % 2 ^ 32) = b
  | _, _ => True

/-- What holds of a row buffer when the columns `done` have been written: the bitmap
has `W` words and the bit of a column is set exactly when it is written and null, there
is one slot per written column and it is right for the decoder, and the cursor is the
end of the row, a multiple of 8. -/
def RowInv (fixedSize W : Nat) (done : List (ColumnType × Cell)) (st : RowBuffer) : Prop :=
  st.bitmap.length = W ∧ st.slots.length = done.length ∧
  st.cursor = fixedSize + st.varRegion.length ∧ st.varRegion.length % 8 = 0 ∧
  (∀ w ∈ st.bitmap, w < 2 ^ 64) ∧ (∀ w ∈ st.slots, w < 2 ^ 64) ∧
  (∀ j, j < 64 * W →
    ((st.bitmap.getD (j / 64) 0).testBit (j % 64) = true ↔
      ∃ ty, done[j]? = some (ty, Cell.null))) ∧
  (∀ j ty c, done[j]? = some (ty, c) →
    slotOk fixedSize st.varRegion ty c (st.slots.getD j 0))

/-- A batch with a 4-byte column, a string column and a 1-byte column, and three rows,
with a null in each column. -/
def sampleBatch : RecordBatch :=
  { num_rows := 3,
    schema := [ColumnType.fixed 4, ColumnType.varlen, ColumnType.fixed 1],
    columns :=
      [[Cell.fixed 7, Cell.null, Cell.fixed 4294967295],
       [Cell.bytes [104, 105], Cell.bytes [1, 2, 3, 4, 5, 6, 7, 8, 9], Cell.null],
       [Cell.null, Cell.fixed 1, Cell.fixed 0]] }

end UnsafeRow

namespace SortRel

/-! ### Sums of batch lengths -/

theorem sumLen_succ_right (len : Int → Int) (b : Int) (n : Nat) :
    sumLen len b (n + 1) = sumLen len b n + len (b + n) := by
  induction n generalizing b with
  | zero => simp [sumLen]
  | succ k ih =>
    have h1 : sumLen len b (k + 1 + 1) = len b + sumLen len (b + 1) (k + 1) := rfl
    have h2 : sumLen len b (k + 1) = len b + sumLen len (b + 1) k := rfl
    rw [h1, ih (b + 1), h2]
    have h3 : b + 1 + (k : Int) = b + ((k + 1 : Nat) : Int) := by push_cast; ring
    rw [h3]; ring

theorem sumLen_eq_sum (len : Int → Int) (n : Nat) :
    sumLen len 0 n = ∑ i in Finset.range n, len (i : Int) := by
  induction n with
  | zero => simp [sumLen]
  | succ k ih => rw [sumLen_succ_right, Finset.sum_range_succ, ih]; simp

theorem sumLen_nonneg (len : Int → Int) (b : Int) (n : Nat)
    (h : ∀ j : Nat, j < n → 0 ≤ len (b + j)) : 0 ≤ sumLen len b n := by
  induction n with
  | zero => simp [sumLen]
  | succ k ih =>
    rw [sumLen_succ_right]
    have h1 := ih (fun j hj => h j (by omega))
    have h2 := h k (by omega)
    omega

/-! ### More loop tests never change an answer -/

theorem GetItemIndexLoop_mono {len : Int → Int} {f f' : Nat} {r b : Int} {p : ArrayItemIndexS}
    (h : GetItemIndexLoop len f r b = some p) (hf : f ≤ f') :
    GetItemIndexLoop len f' r b = some p := by
  induction f generalizing f' r b with
  | zero => simp [GetItemIndexLoop] at h
  | succ n ih =>
    obtain ⟨m, rfl⟩ : ∃ m, f' = m + 1 := ⟨f' - 1, by omega⟩
    simp only [GetItemIndexLoop] at h ⊢
    split_ifs at h ⊢ with hc
    · exact h
    · exact ih h (by omega)

theorem CheckRangeLoop_mono {len : Int → Int} {f f' : Nat} {r b : Int} {v : Bool}
    (h : CheckRangeLoop len f r b = some v) (hf : f ≤ f') :
    CheckRangeLoop len f' r b = some v := by
  induction f generalizing f' r b with
  | zero => simp [CheckRangeLoop] at h
  | succ n ih =>
    obtain ⟨m, rfl⟩ : ∃ m, f' = m + 1 := ⟨f' - 1, by omega⟩
    simp only [CheckRangeLoop] at h ⊢
    split_ifs at h ⊢ with hc hd
    · exact h
    · exact ih h (by omega)
    · exact h

theorem AdvanceLoop_mono {len : Int → Int} {s s1 : SortRelation} {f f' : Nat} {r b : Int}
    (h : AdvanceLoop len s f r b = some s1) (hf : f ≤ f') :
    AdvanceLoop len s f' r b = some s1 := by
  induction f generalizing f' r b with
  | zero => simp [AdvanceLoop] at h
  | succ n ih =>
    obtain ⟨m, rfl⟩ : ∃ m, f' = m + 1 := ⟨f' - 1, by omega⟩
    simp only [AdvanceLoop] at h ⊢
    split_ifs at h ⊢ with hc
    · exact h
    · exact ih h (by omega)

theorem GetItemIndexWithShift_mono {len : Int → Int} {f f' : Nat} {s : SortRelation}
    {shift : Int} {p : ArrayItemIndexS}
    (h : GetItemIndexWithShift len f s shift = some p) (hf : f ≤ f') :
    GetItemIndexWithShift len f' s shift = some p := by
  simp only [GetItemIndexWithShift] at h ⊢
  split_ifs at h ⊢ with hc
  · exact h
  · exact GetItemIndexLoop_mono h hf

theorem CheckRangeBound_mono {len : Int → Int} {f f' : Nat} {s : SortRelation}
    {shift : Int} {v : Bool}
    (h : CheckRangeBound len f s shift = some v) (hf : f ≤ f') :
    CheckRangeBound len f' s shift = some v := by
  simp only [CheckRangeBound] at h ⊢
  split_ifs at h ⊢ with hc hd
  · exact h
  · exact h
  · exact CheckRangeLoop_mono h hf

theorem Advance_mono {len : Int → Int} {f f' : Nat} {s s1 : SortRelation} {shift : Int}
    (h : Advance len f s shift = some s1) (hf : f ≤ f') :
    Advance len f' s shift = some s1 := by
  simp only [Advance] at h ⊢
  split_ifs at h ⊢ with hc
  · exact h
  · exact AdvanceLoop_mono h hf

theorem CheckRangeBound_det {len : Int → Int} {f f' : Nat} {s : SortRelation}
    {shift : Int} {v v' : Bool}
    (h : CheckRangeBound len f s shift = some v) (h' : CheckRangeBound len f' s shift = some v') :
    v = v' := by
  rcases Nat.le_total f f' with hf | hf
  · have := CheckRangeBound_mono h hf
    rw [h'] at this; exact (Option.some.inj this).symm
  · have := CheckRangeBound_mono h' hf
    rw [h] at this; exact Option.some.inj this

theorem GetItemIndexWithShift_det {len : Int → Int} {f f' : Nat} {s : SortRelation}
    {shift : Int} {p p' : ArrayItemIndexS}
    (h : GetItemIndexWithShift len f s shift = some p)
    (h' : GetItemIndexWithShift len f' s shift = some p') : p = p' := by
  rcases Nat.le_total f f' with hf | hf
  · have := GetItemIndexWithShift_mono h hf
    rw [h'] at this; exact (Option.some.inj this).symm
  · have := GetItemIndexWithShift_mono h' hf
    rw [h] at this; exact Option.some.inj this

/-! ### The release loop -/

theorem releaseFor_released (s : SortRelation) (i : Int) (n : Nat) :
    (releaseFor s i n).released = s.released ++ (List.range n).map (fun j : Nat => i + j) := by
  induction n generalizing s i with
  | zero => simp [releaseFor]
  | succ k ih =>
    rw [releaseFor, ih, List.range_succ_eq_map]
    simp only [ReleaseArray, List.map_cons, List.map_map, List.append_assoc, List.singleton_append,
      Nat.cast_zero, add_zero]
    congr 2
    apply List.map_congr_left
    intro j _
    simp only [Function.comp_apply, Nat.succ_eq_add_one]
    push_cast; ring

theorem releaseFor_fields (s : SortRelation) (i : Int) (n : Nat) :
    (releaseFor s i n).offset_ = s.offset_ ∧
    (releaseFor s i n).offset_in_current_batch_ = s.offset_in_current_batch_ ∧
    (releaseFor s i n).requested_batches = s.requested_batches ∧
    (releaseFor s i n).range_cache_ = s.range_cache_ := by
  induction n generalizing s i with
  | zero => simp [releaseFor]
  | succ k ih =>
    rw [releaseFor]
    have := ih (ReleaseArray s i) (i + 1)
    simpa [ReleaseArray] using this

/-! ### The walking loops -/

theorem AdvanceLoop_eq (len : Int → Int) (s : SortRelation) (f : Nat) (r b : Int) :
    AdvanceLoop len s f r b = (GetItemIndexLoop len f r b).map (landOn s) := by
  induction f generalizing r b with
  | zero => simp [AdvanceLoop, GetItemIndexLoop]
  | succ n ih =>
    simp only [AdvanceLoop, GetItemIndexLoop]
    split_ifs with hc
    · simp [landOn]
    · exact ih _ _

theorem GetItemIndexLoop_spec {len : Int → Int} {f : Nat} {r b : Int} {p : ArrayItemIndexS}
    (h : GetItemIndexLoop len f r b = some p) (hr : 0 < r) :
    ∃ n : Nat, p.array_id = b + n ∧ 0 ≤ p.id ∧ p.id < len p.array_id ∧
      sumLen len b n + p.id + 1 = r ∧ ∀ j : Nat, j < n → sumLen len b (j + 1) < r := by
  induction f generalizing r b with
  | zero => simp [GetItemIndexLoop] at h
  | succ k ih =>
    simp only [GetItemIndexLoop] at h
    split_ifs at h with hc
    · cases h
      refine ⟨0, by simp, by simp; omega, by simp; omega, by simp [sumLen], ?_⟩
      intro j hj; omega
    · obtain ⟨n, h1, h2, h3, h4, h5⟩ := ih h (by omega)
      refine ⟨n + 1, by rw [h1]; push_cast; ring, h2, h3, ?_, ?_⟩
      · have : sumLen len b (n + 1) = len b + sumLen len (b + 1) n := rfl
        rw [this]; omega
      · intro j hj
        cases j with
        | zero => simp [sumLen]; omega
        | succ j =>
          have := h5 j (by omega)
          have e : sumLen len b (j + 1 + 1) = len b + sumLen len (b + 1) (j + 1) := rfl
          rw [e]; omega

theorem CheckRangeLoop_true {len : Int → Int} {f : Nat} {r b : Int}
    (h : CheckRangeLoop len f r b = some true) (hr : 0 < r) :
    ∃ p, GetItemIndexLoop len f r b = some p ∧
      ∀ i, b ≤ i → i ≤ p.array_id → len i ≠ -1 := by
  induction f generalizing r b with
  | zero => simp [CheckRangeLoop] at h
  | succ k ih =>
    simp only [CheckRangeLoop] at h
    rw [if_pos (by omega : r ≥ 0)] at h
    by_cases hd : len b = -1
    · simp [hd] at h
    rw [if_neg hd] at h
    simp only [GetItemIndexLoop]
    split_ifs with hc
    · refine ⟨_, rfl, ?_⟩
      intro i h1 h2
      have : i = b := by simp at h2; omega
      rw [this]; exact hd
    · obtain ⟨p, hp, hk⟩ := ih h (by omega)
      refine ⟨p, hp, ?_⟩
      intro i h1 h2
      by_cases hi : i = b
      · rw [hi]; exact hd
      · exact hk i (by omega) h2

theorem Advance_eq_map (len : Int → Int) (f : Nat) (s : SortRelation) (shift : Int) :
    Advance len f s shift = (GetItemIndexWithShift len f s shift).map (landOn s) := by
  simp only [Advance, GetItemIndexWithShift]
  split_ifs with hc
  · simp [landOn, releaseFor]
  · exact AdvanceLoop_eq len s f _ _

theorem landOn_fields (s : SortRelation) (p : ArrayItemIndexS) :
    (landOn s p).requested_batches = p.array_id ∧
    (landOn s p).offset_in_current_batch_ = p.id ∧
    (landOn s p).offset_ = s.offset_ ∧
    (landOn s p).range_cache_ = s.range_cache_ ∧
    (landOn s p).released = s.released ++
      (List.range (p.array_id - s.requested_batches).toNat).map
        (fun j : Nat => s.requested_batches + j) := by
  have h := releaseFor_fields s s.requested_batches (p.array_id - s.requested_batches).toNat
  have h2 := releaseFor_released s s.requested_batches (p.array_id - s.requested_batches).toNat
  exact ⟨rfl, rfl, h.1, h.2.2.2, h2⟩

/-- When `CheckRangeBound(shift)` answers `true`, `GetItemIndexWithShift(shift)` returns
within the same bound, every batch it reads is available, and the landing position
is `shift` rows after the current one. -/
theorem CheckRangeBound_true_item {len : Int → Int} {f : Nat} {s : SortRelation} {shift : Int}
    (h : CheckRangeBound len f s shift = some true) :
    ∃ p, GetItemIndexWithShift len f s shift = some p ∧
      (∀ i, s.requested_batches ≤ i → i ≤ p.array_id → len i ≠ -1) ∧
      p.id < len p.array_id ∧
      (0 ≤ s.offset_in_current_batch_ + shift → 0 ≤ p.id) ∧
      ∃ n : Nat, p.array_id = s.requested_batches + n ∧
        sumLen len s.requested_batches n + p.id = s.offset_in_current_batch_ + shift := by
  simp only [CheckRangeBound] at h
  by_cases h0 : len s.requested_batches = -1
  · simp [h0] at h
  rw [if_neg h0] at h
  simp only [GetItemIndexWithShift]
  by_cases hc : shift ≤ len s.requested_batches - 1 - s.offset_in_current_batch_
  · rw [if_pos hc]
    refine ⟨_, rfl, ?_, by simp; omega, by simp, 0, by simp, by simp [sumLen]⟩
    intro i h1 h2
    have : i = s.requested_batches := by simp at h2; omega
    rw [this]; exact h0
  · rw [if_neg hc] at h ⊢
    obtain ⟨p, hp, hk⟩ := CheckRangeLoop_true h (by omega)
    obtain ⟨n, h1, h2, h3, h4, _⟩ := GetItemIndexLoop_spec hp (by omega)
    refine ⟨p, hp, ?_, h3, fun _ => h2, n + 1, by rw [h1]; push_cast; ring, ?_⟩
    · intro i hi1 hi2
      by_cases hi : i = s.requested_batches
      · rw [hi]; exact h0
      · exact hk i (by omega) hi2
    · have : sumLen len s.requested_batches (n + 1)
          = len s.requested_batches + sumLen len (s.requested_batches + 1) n := rfl
      rw [this]; omega

/-! ### Logical position of the cursor -/

theorem sumLen_add (len : Int → Int) (b : Int) (m n : Nat) :
    sumLen len b (m + n) = sumLen len b m + sumLen len (b + m) n := by
  induction n with
  | zero => simp [sumLen]
  | succ k ih =>
    rw [← Nat.add_assoc, sumLen_succ_right, sumLen_succ_right, ih]
    have : b + ((m + k : Nat) : Int) = b + m + k := by push_cast; ring
    rw [this]; ring

theorem lenOf_ge (batches : List (List Int)) (i : Int) : -1 ≤ lenOf batches i := by
  unfold lenOf
  split_ifs
  · exact le_refl _
  · split
    · omega
    · exact le_refl _

/-- From a cursor `N` rows into the relation, a lookahead that `CheckRangeBound`
accepts lands on an existing row, `N + shift` rows into the relation. -/
theorem item_position {len : Int → Int} (hlen : ∀ i, -1 ≤ len i) {f : Nat} {s : SortRelation}
    {N shift : Int} (hs : AtRow len s N) (hshift : 0 ≤ shift)
    (h : CheckRangeBound len f s shift = some true) :
    ∃ p, GetItemIndexWithShift len f s shift = some p ∧
      s.requested_batches ≤ p.array_id ∧
      AtRow len (landOn s p) (N + shift) ∧ p.id < len p.array_id := by
  obtain ⟨hb, ho, hk, hN⟩ := hs
  obtain ⟨p, hp, hav, hlt, hge, n, hn, hsum⟩ := CheckRangeBound_true_item h
  refine ⟨p, hp, by omega, ⟨?_, ?_, ?_, ?_⟩, hlt⟩
  · rw [(landOn_fields s p).1]; omega
  · rw [(landOn_fields s p).2.1]; exact hge (by omega)
  · rw [(landOn_fields s p).1]
    intro i hi0 hi1
    by_cases hi : i < s.requested_batches
    · exact hk i hi0 hi
    · have h1 := hav i (by omega) (by omega)
      have h2 := hlen i
      omega
  · rw [(landOn_fields s p).1, (landOn_fields s p).2.1]
    have e : p.array_id.toNat = s.requested_batches.toNat + n := by omega
    have e2 : (0 : Int) + (s.requested_batches.toNat : Nat) = s.requested_batches := by omega
    rw [e, sumLen_add, e2]
    omega

theorem AtRow_congr {len : Int → Int} {s s1 : SortRelation} {N : Int}
    (h1 : s1.requested_batches = s.requested_batches)
    (h2 : s1.offset_in_current_batch_ = s.offset_in_current_batch_)
    (h : AtRow len s N) : AtRow len s1 N := by
  unfold AtRow at h ⊢
  rw [h1, h2]; exact h

theorem Next_true {len : Int → Int} {f : Nat} {s s1 : SortRelation}
    (h : Next len f s = some (true, s1)) :
    CheckRangeBound len f s 1 = some true ∧
    ∃ p, GetItemIndexWithShift len f s 1 = some p ∧
      s1 = { landOn s p with offset_ := (s.offset_ + 1) % 2 ^ 64, range_cache_ := -1 } := by
  unfold Next at h
  rcases hc : CheckRangeBound len f s 1 with _ | _ | _
  · simp [hc] at h
  · simp [hc] at h
  · refine ⟨rfl, ?_⟩
    simp only [hc] at h
    rw [Advance_eq_map] at h
    rcases hg : GetItemIndexWithShift len f s 1 with _ | p
    · simp [hg] at h
    · refine ⟨p, rfl, ?_⟩
      simp only [hg, Option.map_some] at h
      have h' := (Prod.mk.inj (Option.some.inj h)).2
      rw [← h', (landOn_fields s p).2.2.1]

/-- The position reached by a guarded run. -/
theorem guardedRun_AtRow {len : Int → Int} (hlen : ∀ i, -1 ≤ len i) (fuel : Nat) :
    ∀ (ops : List Call) (s s1 : SortRelation) (N : Int), AtRow len s N →
      (∀ c ∈ ops, 0 ≤ c.shift) → guardedRun len fuel s ops = some s1 →
      AtRow len s1 (N + (ops.map Call.shift).sum) ∧
      (ops ≠ [] ∨ s.offset_in_current_batch_ < len s.requested_batches →
        s1.offset_in_current_batch_ < len s1.requested_batches) := by
  intro ops
  induction ops with
  | nil =>
    intro s s1 N hs _ hrun
    simp only [guardedRun] at hrun
    cases hrun
    simp only [List.map_nil, List.sum_nil, add_zero]
    exact ⟨hs, fun h => h.resolve_left (by simp)⟩
  | cons c rest ih =>
    intro s s1 N hs hsh hrun
    have hc0 : 0 ≤ c.shift := hsh c (List.mem_cons_self _ _)
    have hrest : ∀ d ∈ rest, 0 ≤ d.shift := fun d hd => hsh d (List.mem_cons_of_mem _ hd)
    have key : ∃ s2, AtRow len s2 (N + c.shift) ∧
        s2.offset_in_current_batch_ < len s2.requested_batches ∧
        guardedRun len fuel s2 rest = some s1 := by
      cases c with
      | advance k =>
        simp only [guardedRun] at hrun
        rcases hc : CheckRangeBound len fuel s k with _ | _ | _
        · simp [hc] at hrun
        · simp [hc] at hrun
        · simp only [hc] at hrun
          have hk0 : (0 : Int) ≤ k := hc0
          obtain ⟨p, hp, _, hat, hlt⟩ := item_position hlen hs hk0 hc
          rw [Advance_eq_map, hp] at hrun
          refine ⟨landOn s p, hat, ?_, hrun⟩
          rw [(landOn_fields s p).1, (landOn_fields s p).2.1]; exact hlt
      | next =>
        simp only [guardedRun] at hrun
        rcases hn : Next len fuel s with _ | ⟨b, s2⟩
        · simp [hn] at hrun
        · cases b
          · simp [hn] at hrun
          · simp only [hn] at hrun
            obtain ⟨hc, p, hp, hs2⟩ := Next_true hn
            have h10 : (0 : Int) ≤ 1 := by omega
            obtain ⟨p1, hp1, _, hat, hlt⟩ := item_position hlen hs h10 hc
            have hpe : p1 = p := by
              have := hp1; rw [hp] at this; exact (Option.some.inj this).symm
            subst hpe
            refine ⟨s2, ?_, ?_, hrun⟩
            · exact AtRow_congr (by rw [hs2]) (by rw [hs2]) hat
            · rw [hs2]
              show (landOn s p1).offset_in_current_batch_ < len (landOn s p1).requested_batches
              rw [(landOn_fields s p1).1, (landOn_fields s p1).2.1]; exact hlt
    obtain ⟨s2, hat, hlt, hrun2⟩ := key
    obtain ⟨h1, h2⟩ := ih s2 s1 (N + c.shift) hat hrest hrun2
    refine ⟨?_, fun _ => h2 (Or.inr hlt)⟩
    simp only [List.map_cons, List.sum_cons]
    rw [← add_assoc]; exact h1

theorem CheckRangeBound_onRow (len : Int → Int) (f : Nat) (s : SortRelation)
    (h0 : 0 ≤ s.offset_in_current_batch_)
    (h1 : s.offset_in_current_batch_ < len s.requested_batches) :
    CheckRangeBound len f s 0 = some true := by
  simp only [CheckRangeBound]
  rw [if_neg (by omega), if_pos (by omega)]

theorem sumLen_step_le (len : Int → Int) (m n : Nat) (hmn : m < n)
    (h : ∀ i : Nat, i < n → 0 ≤ len (i : Int)) :
    sumLen len 0 m + len (m : Int) ≤ sumLen len 0 n := by
  obtain ⟨k, rfl⟩ : ∃ k, n = m + 1 + k := ⟨n - (m + 1), by omega⟩
  rw [sumLen_add, sumLen_succ_right]
  have := sumLen_nonneg len (0 + ((m + 1 : Nat) : Int)) k (fun j hj => by
    have := h (m + 1 + j) (by omega)
    have e : (0 : Int) + ((m + 1 : Nat) : Int) + (j : Int) = ((m + 1 + j : Nat) : Int) := by
      push_cast; ring
    rw [e]; exact this)
  simp only [zero_add] at this ⊢
  omega

/-- Two positions on existing rows, each with all earlier batches available, that are
the same number of rows into the relation are the same position. -/
theorem position_unique (len : Int → Int) (b1 r1 b2 r2 : Int)
    (hb1 : 0 ≤ b1) (hb2 : 0 ≤ b2) (hr1 : 0 ≤ r1) (hr2 : 0 ≤ r2)
    (hl1 : r1 < len b1) (hl2 : r2 < len b2)
    (hk1 : ∀ i, 0 ≤ i → i < b1 → 0 ≤ len i) (hk2 : ∀ i, 0 ≤ i → i < b2 → 0 ≤ len i)
    (he : sumLen len 0 b1.toNat + r1 = sumLen len 0 b2.toNat + r2) :
    b1 = b2 ∧ r1 = r2 := by
  rcases lt_trichotomy b1 b2 with h | h | h
  · exfalso
    have := sumLen_step_le len b1.toNat b2.toNat (by omega)
      (fun i hi => hk2 i (by omega) (by omega))
    have e : ((b1.toNat : Nat) : Int) = b1 := by omega
    rw [e] at this
    omega
  · subst h
    exact ⟨rfl, by omega⟩
  · exfalso
    have := sumLen_step_le len b2.toNat b1.toNat (by omega)
      (fun i hi => hk1 i (by omega) (by omega))
    have e : ((b2.toNat : Nat) : Int) = b2 := by omega
    rw [e] at this
    omega

theorem GetItemIndexLoop_absent (fuel : Nat) (r b : Int) (hr : 0 < r) :
    GetItemIndexLoop (fun _ => -1) fuel r b = none := by
  induction fuel generalizing r b with
  | zero => rfl
  | succ k ih =>
    simp only [GetItemIndexLoop]
    rw [if_neg (by omega)]
    exact ih _ _ (by omega)

theorem GetItemIndexWithShift_batch_ge {len : Int → Int} {f : Nat} {s : SortRelation}
    {shift : Int} {p : ArrayItemIndexS} (h : GetItemIndexWithShift len f s shift = some p) :
    s.requested_batches ≤ p.array_id := by
  simp only [GetItemIndexWithShift] at h
  split_ifs at h with hc
  · cases h; exact le_refl _
  · obtain ⟨n, hn, _⟩ := GetItemIndexLoop_spec h (by omega)
    omega

theorem SameKeyLoop_ge {len : Int → Int} {keys : List KeyColumn} {f : Nat} {s : SortRelation}
    {n : Nat} {r0 r : Int} (h : SameKeyLoop len keys f s n r0 = some r) : r0 ≤ r := by
  induction n generalizing r0 with
  | zero => simp [SameKeyLoop] at h
  | succ k ih =>
    simp only [SameKeyLoop] at h
    split at h
    · exact Option.noConfusion h
    · cases h; exact le_refl _
    · split at h
      · split_ifs at h
        · have := ih h; omega
        · cases h; exact le_refl _
      · exact Option.noConfusion h

/-! ### The scan of `GetSameKeyRange` -/

theorem keyColumnsLoop_true (p q : ArrayItemIndexS) (keys : List KeyColumn) :
    keyColumnsLoop p q keys = true ↔
      ∀ col ∈ keys, col p.array_id p.id q.array_id q.id = true := by
  induction keys with
  | nil => simp [keyColumnsLoop]
  | cons c rest ih =>
    simp only [keyColumnsLoop, List.mem_cons, forall_eq_or_imp]
    cases hc : c p.array_id p.id q.array_id q.id
    · simp
    · simpa using ih

theorem keyColumnsLoop_false (p q : ArrayItemIndexS) (keys : List KeyColumn) :
    keyColumnsLoop p q keys = false ↔
      ∃ col ∈ keys, col p.array_id p.id q.array_id q.id = false := by
  rw [← Bool.not_eq_true, keyColumnsLoop_true]
  push_neg
  constructor
  · rintro ⟨c, hc, h⟩; exact ⟨c, hc, by simpa using h⟩
  · rintro ⟨c, hc, h⟩; exact ⟨c, hc, by simp [h]⟩

theorem SameKeyLoop_mono {len : Int → Int} {keys : List KeyColumn} {f f' n n' : Nat}
    {s : SortRelation} {r0 r : Int}
    (h : SameKeyLoop len keys f s n r0 = some r) (hf : f ≤ f') (hn : n ≤ n') :
    SameKeyLoop len keys f' s n' r0 = some r := by
  induction n generalizing n' r0 with
  | zero => simp [SameKeyLoop] at h
  | succ k ih =>
    obtain ⟨m, rfl⟩ : ∃ m, n' = m + 1 := ⟨n' - 1, by omega⟩
    simp only [SameKeyLoop] at h ⊢
    rcases hc : CheckRangeBound len f s (r0 + 1) with _ | _ | _
    · simp [hc] at h
    · rw [CheckRangeBound_mono hc hf]
      simp only [hc] at h
      exact h
    · rw [CheckRangeBound_mono hc hf]
      simp only [hc] at h
      rcases hg1 : GetItemIndexWithShift len f s r0 with _ | p
      · simp [hg1] at h
      · rcases hg2 : GetItemIndexWithShift len f s (r0 + 1) with _ | q
        · simp [hg1, hg2] at h
        · rw [GetItemIndexWithShift_mono hg1 hf, GetItemIndexWithShift_mono hg2 hf]
          simp only [hg1, hg2] at h ⊢
          split_ifs at h ⊢ with hk
          · exact ih h (by omega)
          · exact h

/-- What the scan has established when it stops at `r`. -/
theorem SameKeyLoop_spec {len : Int → Int} {keys : List KeyColumn} {f n : Nat}
    {s : SortRelation} {r0 r : Int} (h : SameKeyLoop len keys f s n r0 = some r) :
    (∀ i, r0 ≤ i → i < r → CheckRangeBound len f s (i + 1) = some true ∧
      ∃ p q, GetItemIndexWithShift len f s i = some p ∧
        GetItemIndexWithShift len f s (i + 1) = some q ∧ keyColumnsLoop p q keys = true) ∧
    (CheckRangeBound len f s (r + 1) = some false ∨
      (CheckRangeBound len f s (r + 1) = some true ∧
        ∃ p q, GetItemIndexWithShift len f s r = some p ∧
          GetItemIndexWithShift len f s (r + 1) = some q ∧ keyColumnsLoop p q keys = false)) := by
  induction n generalizing r0 with
  | zero => simp [SameKeyLoop] at h
  | succ k ih =>
    simp only [SameKeyLoop] at h
    rcases hc : CheckRangeBound len f s (r0 + 1) with _ | _ | _
    · simp [hc] at h
    · simp only [hc] at h
      cases h
      exact ⟨fun i h1 h2 => by omega, Or.inl hc⟩
    · simp only [hc] at h
      rcases hg1 : GetItemIndexWithShift len f s r0 with _ | p
      · simp [hg1] at h
      · rcases hg2 : GetItemIndexWithShift len f s (r0 + 1) with _ | q
        · simp [hg1, hg2] at h
        · simp only [hg1, hg2] at h
          by_cases hk : keyColumnsLoop p q keys = true
          · rw [if_pos hk] at h
            obtain ⟨h1, h2⟩ := ih h
            refine ⟨?_, h2⟩
            intro i hi1 hi2
            by_cases hi : i = r0
            · subst hi; exact ⟨hc, p, q, hg1, hg2, hk⟩
            · exact h1 i (by omega) hi2
          · rw [if_neg hk] at h
            cases h
            refine ⟨fun i h1 h2 => by omega, Or.inr ⟨hc, p, q, hg1, hg2, by simpa using hk⟩⟩

theorem GetSameKeyRange_mono {len : Int → Int} {keys : List KeyColumn} {f f' : Nat}
    {s : SortRelation} {v : Int × SortRelation}
    (h : GetSameKeyRange len keys f s = some v) (hf : f ≤ f') :
    GetSameKeyRange len keys f' s = some v := by
  unfold GetSameKeyRange at h ⊢
  split_ifs at h ⊢ with hc
  · exact h
  · rcases hb : CheckRangeBound len f s 0 with _ | _ | _
    · simp [hb] at h
    · rw [CheckRangeBound_mono hb hf]; simp only [hb] at h; exact h
    · rw [CheckRangeBound_mono hb hf]; simp only [hb] at h
      rcases hl : SameKeyLoop len keys f s f 0 with _ | range
      · simp [hl] at h
      · rw [SameKeyLoop_mono hl hf hf]; simp only [hl] at h; exact h

theorem GetSameKeyRange_det {len : Int → Int} {keys : List KeyColumn} {f f' : Nat}
    {s : SortRelation} {v v' : Int × SortRelation}
    (h : GetSameKeyRange len keys f s = some v) (h' : GetSameKeyRange len keys f' s = some v') :
    v = v' := by
  rcases Nat.le_total f f' with hf | hf
  · have := GetSameKeyRange_mono h hf
    rw [h'] at this; exact (Option.some.inj this).symm
  · have := GetSameKeyRange_mono h' hf
    rw [h] at this; exact Option.some.inj this

/-! ### Only the position fields matter to the lookahead -/

theorem CheckRangeBound_congr (len : Int → Int) (f : Nat) (s s1 : SortRelation) (k : Int)
    (h1 : s1.requested_batches = s.requested_batches)
    (h2 : s1.offset_in_current_batch_ = s.offset_in_current_batch_) :
    CheckRangeBound len f s1 k = CheckRangeBound len f s k := by
  simp only [CheckRangeBound, h1, h2]

theorem GetItemIndexWithShift_congr (len : Int → Int) (f : Nat) (s s1 : SortRelation) (k : Int)
    (h1 : s1.requested_batches = s.requested_batches)
    (h2 : s1.offset_in_current_batch_ = s.offset_in_current_batch_) :
    GetItemIndexWithShift len f s1 k = GetItemIndexWithShift len f s k := by
  simp only [GetItemIndexWithShift, h1, h2]

theorem SameKeyLoop_congr (len : Int → Int) (keys : List KeyColumn) (f : Nat)
    (s s1 : SortRelation)
    (h1 : s1.requested_batches = s.requested_batches)
    (h2 : s1.offset_in_current_batch_ = s.offset_in_current_batch_) (n : Nat) (r0 : Int) :
    SameKeyLoop len keys f s1 n r0 = SameKeyLoop len keys f s n r0 := by
  induction n generalizing r0 with
  | zero => rfl
  | succ k ih =>
    simp only [SameKeyLoop, CheckRangeBound_congr len f s s1 _ h1 h2,
      GetItemIndexWithShift_congr len f s s1 _ h1 h2, ih]

/-! ### The range cache -/

theorem GetSameKeyRange_frame {len : Int → Int} {keys : List KeyColumn} {f : Nat}
    {s s1 : SortRelation} {r : Int} (h : GetSameKeyRange len keys f s = some (r, s1)) :
    s1.requested_batches = s.requested_batches ∧
    s1.offset_in_current_batch_ = s.offset_in_current_batch_ ∧
    s1.offset_ = s.offset_ ∧ s1.released = s.released := by
  unfold GetSameKeyRange at h
  split_ifs at h with hc
  · cases h; exact ⟨rfl, rfl, rfl, rfl⟩
  · rcases hb : CheckRangeBound len f s 0 with _ | _ | _
    · simp [hb] at h
    · simp only [hb] at h; cases h; exact ⟨rfl, rfl, rfl, rfl⟩
    · simp only [hb] at h
      rcases hl : SameKeyLoop len keys f s f 0 with _ | range
      · simp [hl] at h
      · simp only [hl] at h; cases h; exact ⟨rfl, rfl, rfl, rfl⟩

/-- A second call right after a call returns the same value and changes nothing. -/
theorem GetSameKeyRange_again {len : Int → Int} {keys : List KeyColumn} {f : Nat}
    {s s1 : SortRelation} {r : Int} (h : GetSameKeyRange len keys f s = some (r, s1)) :
    GetSameKeyRange len keys f s1 = some (r, s1) := by
  have h0 := h
  unfold GetSameKeyRange at h
  split_ifs at h with hc
  · cases h; exact h0
  · rcases hb : CheckRangeBound len f s 0 with _ | _ | _
    · simp [hb] at h
    · simp only [hb] at h; cases h; exact h0
    · simp only [hb] at h
      rcases hl : SameKeyLoop len keys f s f 0 with _ | range
      · simp [hl] at h
      · simp only [hl] at h
        have hge := SameKeyLoop_ge hl
        cases h
        unfold GetSameKeyRange
        rw [if_pos]
        show range + 1 ≠ -1
        omega

theorem GetSameKeyRange_cacheFresh {len : Int → Int} {keys : List KeyColumn} {f : Nat}
    {s s1 : SortRelation} {r : Int} (hs : CacheFresh len keys s)
    (h : GetSameKeyRange len keys f s = some (r, s1)) : CacheFresh len keys s1 := by
  have h0 := h
  unfold GetSameKeyRange at h
  split_ifs at h with hc
  · cases h; exact hs
  · rcases hb : CheckRangeBound len f s 0 with _ | _ | _
    · simp [hb] at h
    · simp only [hb] at h; cases h; exact hs
    · simp only [hb] at h
      rcases hl : SameKeyLoop len keys f s f 0 with _ | range
      · simp [hl] at h
      · simp only [hl] at h
        cases h
        right
        refine ⟨f, ?_⟩
        have hc' : s.range_cache_ = -1 := by simpa using hc
        have e : ({ ({ s with range_cache_ := range + 1 } : SortRelation) with
            range_cache_ := -1 } : SortRelation) = s := by
          cases s; simp at hc' ⊢; exact hc'.symm
        rw [e]; exact h0

theorem Reachable_cacheFresh {len : Int → Int} {keys : List KeyColumn} {s : SortRelation}
    (h : Reachable len keys s) : CacheFresh len keys s := by
  induction h with
  | init => exact Or.inl rfl
  | @next s s1 b fuel _ hn ih =>
    cases b
    · unfold Next at hn
      rcases hc : CheckRangeBound len fuel s 1 with _ | _ | _
      · simp [hc] at hn
      · simp only [hc] at hn; cases hn; exact ih
      · simp only [hc] at hn
        rcases ha : Advance len fuel s 1 with _ | s2
        · simp [ha] at hn
        · simp [ha] at hn
    · obtain ⟨_, p, _, hs1⟩ := Next_true hn
      left; rw [hs1]
  | @nextNewKey s s1 b fuel _ hn ih =>
    unfold NextNewKey at hn
    rcases hg : GetSameKeyRange len keys fuel s with _ | ⟨range, s0⟩
    · simp [hg] at hn
    · simp only [hg] at hn
      rcases hc : CheckRangeBound len fuel s0 range with _ | _ | _
      · simp [hc] at hn
      · simp only [hc] at hn; cases hn
        exact GetSameKeyRange_cacheFresh ih hg
      · simp only [hc] at hn
        rcases ha : Advance len fuel s0 range with _ | s2
        · simp [ha] at hn
        · simp only [ha] at hn; cases hn; left; rfl
  | @getSameKeyRange s s1 r fuel _ hg ih => exact GetSameKeyRange_cacheFresh ih hg

/-- With a fresh cache, the value `GetSameKeyRange()` returns is `0` (no row here) or one
more than the result of a scan from the current position. -/
theorem GetSameKeyRange_scan {len : Int → Int} {keys : List KeyColumn} {f : Nat}
    {s s1 : SortRelation} {r : Int} (hs : CacheFresh len keys s)
    (h : GetSameKeyRange len keys f s = some (r, s1)) :
    (r = 0 ∧ CheckRangeBound len f s 0 = some false) ∨
    (1 ≤ r ∧ ∃ f', f ≤ f' ∧ SameKeyLoop len keys f' s f' 0 = some (r - 1)) := by
  have fresh : ∀ (g : Nat) (t t1 : SortRelation) (v : Int), t.range_cache_ = -1 →
      GetSameKeyRange len keys g t = some (v, t1) →
      (v = 0 ∧ t1 = t ∧ CheckRangeBound len g t 0 = some false) ∨
      (1 ≤ v ∧ SameKeyLoop len keys g t g 0 = some (v - 1)) := by
    intro g t t1 v ht hg
    unfold GetSameKeyRange at hg
    rw [if_neg (by simp [ht])] at hg
    rcases hb : CheckRangeBound len g t 0 with _ | _ | _
    · simp [hb] at hg
    · simp only [hb] at hg; cases hg; exact Or.inl ⟨rfl, rfl, rfl⟩
    · simp only [hb] at hg
      rcases hl : SameKeyLoop len keys g t g 0 with _ | range
      · simp [hl] at hg
      · simp only [hl] at hg
        have hge := SameKeyLoop_ge hl
        cases hg
        exact Or.inr ⟨by omega, by simp⟩
  by_cases hc : s.range_cache_ = -1
  · rcases fresh f s s1 r hc h with ⟨h1, _, h3⟩ | ⟨h1, h2⟩
    · exact Or.inl ⟨h1, h3⟩
    · exact Or.inr ⟨h1, f, le_refl _, h2⟩
  · have hr : r = s.range_cache_ := by
      unfold GetSameKeyRange at h
      rw [if_pos hc] at h
      exact ((Prod.mk.inj (Option.some.inj h)).1).symm
    obtain ⟨g, hg⟩ := hs.resolve_left hc
    rcases fresh g _ _ _ rfl hg with ⟨h1, h2, _⟩ | ⟨h1, h2⟩
    · exfalso
      have : s.range_cache_ = -1 := by rw [h2]
      exact hc this
    · right
      rw [hr]
      refine ⟨h1, max f g, le_max_left _ _, ?_⟩
      have e : SameKeyLoop len keys g { s with range_cache_ := -1 } g 0
          = SameKeyLoop len keys g s g 0 :=
        SameKeyLoop_congr len keys g s { s with range_cache_ := -1 } rfl rfl g 0
      rw [e] at h2
      exact SameKeyLoop_mono h2 (le_max_right _ _) (le_max_right _ _)

/-! ### Termination when some later batch is absent -/

theorem absLen_nonneg (len : Int → Int) (b : Int) (n : Nat) : 0 ≤ absLen len b n := by
  induction n generalizing b with
  | zero => simp [absLen]
  | succ k ih =>
    have := ih (b + 1)
    have := abs_nonneg (len b)
    simp only [absLen]; omega

theorem CheckRangeLoop_returns (len : Int → Int) (d : Nat) (b r : Int)
    (hd : len (b + d) = -1) : ∃ v, CheckRangeLoop len (d + 1) r b = some v := by
  induction d generalizing b r with
  | zero =>
    simp only [CheckRangeLoop]
    have hb : len b = -1 := by simpa using hd
    split_ifs
    · exact ⟨false, rfl⟩
    · exact ⟨true, rfl⟩
  | succ k ih =>
    have step : CheckRangeLoop len (k + 1 + 1) r b
        = if r ≥ 0 then
            (if len b = -1 then some false else CheckRangeLoop len (k + 1) (r - len b) (b + 1))
          else some true := rfl
    rw [step]
    split_ifs
    · exact ⟨false, rfl⟩
    · exact ih (b + 1) _ (by rw [← hd]; congr 1; push_cast; ring)
    · exact ⟨true, rfl⟩

theorem CheckRangeLoop_large (len : Int → Int) (d : Nat) (b r : Int)
    (hd : len (b + d) = -1) (hr : absLen len b d ≤ r) :
    CheckRangeLoop len (d + 1) r b = some false := by
  induction d generalizing b r with
  | zero =>
    have hb : len b = -1 := by simpa using hd
    simp only [absLen] at hr
    simp only [CheckRangeLoop]
    rw [if_pos hr, if_pos hb]
  | succ k ih =>
    have h0 := absLen_nonneg len (b + 1) k
    have h1 := abs_nonneg (len b)
    have h2 := le_abs_self (len b)
    simp only [absLen] at hr
    have step : CheckRangeLoop len (k + 1 + 1) r b
        = if r ≥ 0 then
            (if len b = -1 then some false else CheckRangeLoop len (k + 1) (r - len b) (b + 1))
          else some true := rfl
    rw [step, if_pos (by omega)]
    split_ifs
    · rfl
    · exact ih (b + 1) _ (by rw [← hd]; congr 1; push_cast; ring) (by omega)

theorem CheckRangeBound_returns (len : Int → Int) (d : Nat) (s : SortRelation) (k : Int)
    (hd : len (s.requested_batches + 1 + d) = -1) :
    ∃ v, CheckRangeBound len (d + 1) s k = some v := by
  simp only [CheckRangeBound]
  split_ifs
  · exact ⟨false, rfl⟩
  · exact ⟨true, rfl⟩
  · exact CheckRangeLoop_returns len d _ _ hd

theorem CheckRangeBound_large (len : Int → Int) (d : Nat) (s : SortRelation) (k : Int)
    (hd : len (s.requested_batches + 1 + d) = -1)
    (hk : len s.requested_batches - 1 - s.offset_in_current_batch_
      + absLen len (s.requested_batches + 1) d + 1 ≤ k) :
    CheckRangeBound len (d + 1) s k = some false := by
  have h0 := absLen_nonneg len (s.requested_batches + 1) d
  simp only [CheckRangeBound]
  split_ifs with h1 h2
  · rfl
  · exfalso; omega
  · exact CheckRangeLoop_large len d _ _ hd (by omega)

theorem SameKeyLoop_returns (len : Int → Int) (keys : List KeyColumn) (d : Nat)
    (s : SortRelation) (hd : len (s.requested_batches + 1 + d) = -1) (K : Int)
    (hK : ∀ k, K ≤ k → CheckRangeBound len (d + 1) s k = some false) :
    ∀ (m : Nat) (range : Int), K ≤ range + 1 + m →
      CheckRangeBound len (d + 1) s range = some true →
      ∃ v, SameKeyLoop len keys (d + 1) s (m + 1) range = some v := by
  intro m
  induction m with
  | zero =>
    intro range h1 _
    rw [SameKeyLoop, hK (range + 1) (by simpa using h1)]
    exact ⟨range, rfl⟩
  | succ j ih =>
    intro range h1 h2
    rw [SameKeyLoop]
    obtain ⟨v, hv⟩ := CheckRangeBound_returns len d s (range + 1) hd
    cases v
    · rw [hv]; exact ⟨range, rfl⟩
    · obtain ⟨p, hp, _⟩ := CheckRangeBound_true_item h2
      obtain ⟨q, hq, _⟩ := CheckRangeBound_true_item hv
      simp only [hv, hp, hq]
      split_ifs
      · exact ih (range + 1) (by push_cast at h1 ⊢; omega) hv
      · exact ⟨range, rfl⟩

/-- `GetSameKeyRange()` returns whenever some batch after the current one is absent. -/
theorem GetSameKeyRange_returns (len : Int → Int) (keys : List KeyColumn) (s : SortRelation)
    (e : Int) (he : s.requested_batches < e) (hlen : len e = -1) :
    ∃ fuel v, GetSameKeyRange len keys fuel s = some v := by
  obtain ⟨d, hd⟩ : ∃ d : Nat, e = s.requested_batches + 1 + d :=
    ⟨(e - s.requested_batches - 1).toNat, by omega⟩
  rw [hd] at hlen
  by_cases hc : s.range_cache_ ≠ -1
  · exact ⟨0, (s.range_cache_, s), by rw [GetSameKeyRange, if_pos hc]⟩
  · obtain ⟨v, hv⟩ := CheckRangeBound_returns len d s 0 hlen
    cases v
    · refine ⟨d + 1, (0, s), ?_⟩
      rw [GetSameKeyRange, if_neg hc, hv]
    · let K : Int := len s.requested_batches - 1 - s.offset_in_current_batch_
        + absLen len (s.requested_batches + 1) d + 1
      obtain ⟨r, hr⟩ := SameKeyLoop_returns len keys d s hlen K
        (fun k hk => CheckRangeBound_large len d s k hlen hk) K.toNat 0 (by omega) hv
      have hr2 := SameKeyLoop_mono hr (Nat.le_max_left (d + 1) (K.toNat + 1))
        (Nat.le_max_right (d + 1) (K.toNat + 1))
      refine ⟨max (d + 1) (K.toNat + 1), (r + 1, { s with range_cache_ := r + 1 }), ?_⟩
      rw [GetSameKeyRange, if_neg hc,
        CheckRangeBound_mono hv (Nat.le_max_left (d + 1) (K.toNat + 1)), hr2]

/-! ### Lookahead to a row that exists -/

/-- The walk lands within `n + 1` loop tests when the `n + 1` batches from `b` are
available and hold at least `r` rows. -/
theorem GetItemIndexLoop_lands (len : Int → Int) (n : Nat) (r b : Int) (hr : 0 < r)
    (hn : r ≤ sumLen len b (n + 1)) (hk : ∀ j : Nat, j ≤ n → 0 ≤ len (b + j)) :
    ∃ p, GetItemIndexLoop len (n + 1) r b = some p ∧ p.array_id ≤ b + n := by
  induction n generalizing r b with
  | zero =>
    simp only [sumLen] at hn
    simp only [GetItemIndexLoop]
    rw [if_pos (by omega)]
    exact ⟨_, rfl, by simp⟩
  | succ k ih =>
    have step : GetItemIndexLoop len (k + 1 + 1) r b
        = if r ≤ len b then some ⟨b, r - 1⟩
          else GetItemIndexLoop len (k + 1) (r - len b) (b + 1) := rfl
    rw [step]
    split_ifs with hc
    · exact ⟨_, rfl, by simp; omega⟩
    · have e : sumLen len b (k + 1 + 1) = len b + sumLen len (b + 1) (k + 1) := rfl
      obtain ⟨p, hp, hle⟩ := ih (r - len b) (b + 1) (by omega) (by omega) (fun j hj => by
        have := hk (j + 1) (by omega)
        have e2 : b + ((j + 1 : Nat) : Int) = b + 1 + j := by push_cast; ring
        rw [e2] at this; exact this)
      exact ⟨p, hp, by push_cast; omega⟩

/-- When the relation has a row, `GetItemIndexWithShift(0)` at the initial cursor
returns the position of its first row. -/
theorem first_row {len : Int → Int} (b : Nat) (hb : 1 ≤ len b)
    (hk : ∀ i : Nat, i < b → 0 ≤ len (i : Int)) :
    ∃ fuel p, GetItemIndexWithShift len fuel SortRelation.init 0 = some p ∧
      0 ≤ p.array_id ∧ 0 ≤ p.id ∧ p.id < len p.array_id ∧
      (∀ i, 0 ≤ i → i < p.array_id → 0 ≤ len i) ∧
      sumLen len 0 p.array_id.toNat + p.id = 0 := by
  by_cases h0 : 1 ≤ len 0
  · refine ⟨0, ⟨0, 0⟩, ?_, le_refl _, le_refl _, by simpa using h0, ?_, by simp [sumLen]⟩
    · simp only [GetItemIndexWithShift, SortRelation.init]
      rw [if_pos (by omega)]; rfl
    · intro i h1 h2; simp at h2; omega
  · obtain ⟨m, rfl⟩ : ∃ m, b = m + 1 := by
      cases b with
      | zero => exact absurd hb (by simpa using h0)
      | succ m => exact ⟨m, rfl⟩
    have hz : len 0 = 0 := by
      have := hk 0 (by omega)
      simp only [Nat.cast_zero] at this
      omega
    have hsum : (1 : Int) ≤ sumLen len 1 (m + 1) := by
      rw [sumLen_succ_right]
      have := sumLen_nonneg len 1 m (fun j hj => by
        have := hk (1 + j) (by omega)
        push_cast at this; exact this)
      have e : (1 : Int) + (m : Int) = ((m + 1 : Nat) : Int) := by push_cast; ring
      rw [e]; omega
    obtain ⟨p, hp, hle⟩ := GetItemIndexLoop_lands len m 1 1 (by omega) hsum (fun j hj => by
      by_cases hjm : j = m
      · subst hjm
        have e : (1 : Int) + (j : Int) = ((j + 1 : Nat) : Int) := by push_cast; ring
        rw [e]; omega
      · have := hk (1 + j) (by omega)
        push_cast at this; exact this)
    obtain ⟨n, h1, h2, h3, h4, _⟩ := GetItemIndexLoop_spec hp (by omega)
    refine ⟨m + 1, p, ?_, by omega, h2, h3, ?_, ?_⟩
    · simp only [GetItemIndexWithShift, SortRelation.init]
      rw [if_neg (by omega), hz]
      exact hp
    · intro i hi0 hi1
      have := hk i.toNat (by omega)
      have e : ((i.toNat : Nat) : Int) = i := by omega
      rw [e] at this; exact this
    · have e : p.array_id.toNat = 1 + n := by omega
      rw [e, sumLen_add]
      have e1 : sumLen len 0 1 = len 0 := by simp [sumLen]
      have e2 : (0 : Int) + ((1 : Nat) : Int) = 1 := by simp
      rw [e1, e2, hz]
      omega

/-! ### Comparing walks -/

theorem CheckRangeLoop_le {len : Int → Int} {f : Nat} {r r1 b : Int}
    (h : CheckRangeLoop len f r b = some true) (hr : r1 ≤ r) :
    CheckRangeLoop len f r1 b = some true := by
  induction f generalizing r r1 b with
  | zero => simp [CheckRangeLoop] at h
  | succ k ih =>
    simp only [CheckRangeLoop] at h ⊢
    by_cases h1 : r1 ≥ 0
    · rw [if_pos h1]
      rw [if_pos (by omega : r ≥ 0)] at h
      by_cases hd : len b = -1
      · simp [hd] at h
      · rw [if_neg hd] at h ⊢
        exact ih h (by omega)
    · rw [if_neg h1]

theorem CheckRangeLoop_false {len : Int → Int} {f : Nat} {r b : Int}
    (h : CheckRangeLoop len f r b = some false) :
    ∃ n : Nat, len (b + n) = -1 ∧ ∀ j : Nat, j < n → len (b + j) ≠ -1 := by
  induction f generalizing r b with
  | zero => simp [CheckRangeLoop] at h
  | succ k ih =>
    simp only [CheckRangeLoop] at h
    by_cases h1 : r ≥ 0
    · rw [if_pos h1] at h
      by_cases hd : len b = -1
      · exact ⟨0, by simpa using hd, fun j hj => by omega⟩
      · rw [if_neg hd] at h
        obtain ⟨n, hn, hk⟩ := ih h
        refine ⟨n + 1, by rw [← hn]; congr 1; push_cast; ring, ?_⟩
        intro j hj
        cases j with
        | zero => simpa using hd
        | succ j =>
          have := hk j (by omega)
          have e : b + ((j + 1 : Nat) : Int) = b + 1 + j := by push_cast; ring
          rw [e]; exact this
    · rw [if_neg h1] at h
      simp at h

/-- A walk for `r + c` rows (`c ≥ 0`) passes the landing position of the walk for `r`
rows, and goes on from there as a lookahead of `c` rows. -/
theorem GetItemIndexLoop_add {len : Int → Int} {f : Nat} {r b c : Int} {p : ArrayItemIndexS}
    (hc : 0 ≤ c) (h : GetItemIndexLoop len f (r + c) b = some p) :
    ∃ q, GetItemIndexLoop len f r b = some q ∧
      ∀ s : SortRelation, s.requested_batches = q.array_id →
        s.offset_in_current_batch_ = q.id → GetItemIndexWithShift len f s c = some p := by
  induction f generalizing r b with
  | zero => simp [GetItemIndexLoop] at h
  | succ k ih =>
    simp only [GetItemIndexLoop] at h ⊢
    by_cases h1 : r + c ≤ len b
    · rw [if_pos h1] at h
      rw [if_pos (by omega : r ≤ len b)]
      refine ⟨_, rfl, ?_⟩
      intro s hs1 hs2
      simp only [GetItemIndexWithShift, hs1, hs2]
      rw [if_pos (by omega), ← Option.some.inj h]
      congr 2; ring
    · rw [if_neg h1] at h
      by_cases h2 : r ≤ len b
      · rw [if_pos h2]
        refine ⟨_, rfl, ?_⟩
        intro s hs1 hs2
        simp only [GetItemIndexWithShift, hs1, hs2]
        rw [if_neg (by omega)]
        have e : c - (len b - 1 - (r - 1)) = r + c - len b := by ring
        rw [e]
        exact GetItemIndexLoop_mono h (Nat.le_succ k)
      · rw [if_neg h2]
        have e : r + c - len b = (r - len b) + c := by ring
        rw [e] at h
        obtain ⟨q, hq, hs⟩ := ih h
        exact ⟨q, hq, fun s hs1 hs2 => GetItemIndexWithShift_mono (hs s hs1 hs2) (Nat.le_succ k)⟩

/-- A lookahead of `a + b` rows (`b ≥ 0`) that returns is the lookahead of `b` rows from
the landing position of the lookahead of `a` rows. -/
theorem GetItemIndexWithShift_add {len : Int → Int} {f : Nat} {s : SortRelation} {a b : Int}
    {p : ArrayItemIndexS} (hb : 0 ≤ b) (h : GetItemIndexWithShift len f s (a + b) = some p) :
    ∃ q, GetItemIndexWithShift len f s a = some q ∧
      GetItemIndexWithShift len f (landOn s q) b = some p := by
  simp only [GetItemIndexWithShift] at h
  by_cases h1 : a + b ≤ len s.requested_batches - 1 - s.offset_in_current_batch_
  · rw [if_pos h1] at h
    refine ⟨⟨s.requested_batches, s.offset_in_current_batch_ + a⟩, ?_, ?_⟩
    · simp only [GetItemIndexWithShift]
      rw [if_pos (by omega)]
    · simp only [GetItemIndexWithShift, (landOn_fields s _).1, (landOn_fields s _).2.1]
      rw [if_pos (by omega), ← Option.some.inj h]
      congr 2; ring
  · rw [if_neg h1] at h
    by_cases h2 : a ≤ len s.requested_batches - 1 - s.offset_in_current_batch_
    · refine ⟨⟨s.requested_batches, s.offset_in_current_batch_ + a⟩, ?_, ?_⟩
      · simp only [GetItemIndexWithShift]
        rw [if_pos h2]
      · simp only [GetItemIndexWithShift, (landOn_fields s _).1, (landOn_fields s _).2.1]
        rw [if_neg (by omega), ← h]
        congr 1; ring
    · have e : a + b - (len s.requested_batches - 1 - s.offset_in_current_batch_)
          = (a - (len s.requested_batches - 1 - s.offset_in_current_batch_)) + b := by ring
      rw [e] at h
      obtain ⟨q, hq, hs⟩ := GetItemIndexLoop_add hb h
      refine ⟨q, ?_, hs (landOn s q) (landOn_fields s q).1 (landOn_fields s q).2.1⟩
      simp only [GetItemIndexWithShift]
      rw [if_neg h2]; exact hq

/-! ### The calls of `IsEqualTo` -/

theorem keyColumnsCalls_fst (p q : ArrayItemIndexS) (j : Nat) (keys : List KeyColumn) :
    (keyColumnsCalls p q j keys).1 = keyColumnsLoop p q keys := by
  induction keys generalizing j with
  | nil => rfl
  | cons c rest ih =>
    simp only [keyColumnsCalls, keyColumnsLoop]
    split_ifs
    · rfl
    · exact ih (j + 1)

theorem SameKeyCalls_fst (len : Int → Int) (keys : List KeyColumn) (f : Nat) (s : SortRelation)
    (n : Nat) (r0 : Int) :
    (SameKeyCalls len keys f s n r0).map Prod.fst = SameKeyLoop len keys f s n r0 := by
  induction n generalizing r0 with
  | zero => rfl
  | succ k ih =>
    simp only [SameKeyCalls, SameKeyLoop]
    rcases CheckRangeBound len f s (r0 + 1) with _ | _ | _
    · rfl
    · rfl
    · rcases GetItemIndexWithShift len f s r0 with _ | p
      · rfl
      · rcases GetItemIndexWithShift len f s (r0 + 1) with _ | q
        · rfl
        · simp only [keyColumnsCalls_fst]
          split_ifs
          · rw [← ih (r0 + 1)]
            rcases SameKeyCalls len keys f s k (r0 + 1) with _ | ⟨v, calls⟩
            · rfl
            · rfl
          · rfl

theorem GetSameKeyRangeCalls_fst (len : Int → Int) (keys : List KeyColumn) (f : Nat)
    (s : SortRelation) :
    (GetSameKeyRangeCalls len keys f s).map (fun x => (x.1, x.2.1))
      = GetSameKeyRange len keys f s := by
  simp only [GetSameKeyRangeCalls, GetSameKeyRange]
  split_ifs
  · rfl
  · rcases CheckRangeBound len f s 0 with _ | _ | _
    · rfl
    · rfl
    · simp only
      rw [← SameKeyCalls_fst]
      rcases SameKeyCalls len keys f s f 0 with _ | ⟨v, calls⟩
      · rfl
      · rfl

/-! ### Runs made within `CheckRangeBound` -/

theorem GetItemIndexWithShift_lex {len : Int → Int} {f : Nat} {s : SortRelation} {k : Int}
    {p : ArrayItemIndexS} (h : GetItemIndexWithShift len f s k = some p) (hk : 0 ≤ k) :
    s.requested_batches < p.array_id ∨
    (s.requested_batches = p.array_id ∧ s.offset_in_current_batch_ ≤ p.id) := by
  simp only [GetItemIndexWithShift] at h
  split_ifs at h with hc
  · cases h
    exact Or.inr ⟨rfl, by simp; omega⟩
  · obtain ⟨n, hn, _⟩ := GetItemIndexLoop_spec h (by omega)
    left; omega

theorem GetSameKeyRange_value {len : Int → Int} {keys : List KeyColumn} {f : Nat}
    {s s1 : SortRelation} {r : Int} (hcache : s.range_cache_ = -1 ∨ 1 ≤ s.range_cache_)
    (h : GetSameKeyRange len keys f s = some (r, s1)) :
    0 ≤ r ∧ (s1.range_cache_ = -1 ∨ 1 ≤ s1.range_cache_) := by
  unfold GetSameKeyRange at h
  by_cases hc1 : s.range_cache_ = -1
  · rw [if_neg (by simp [hc1])] at h
    rcases hc : CheckRangeBound len f s 0 with _ | _ | _
    · simp [hc] at h
    · simp only [hc] at h
      obtain ⟨e1, e2⟩ := Prod.mk.inj (Option.some.inj h)
      subst e1 e2
      exact ⟨le_refl _, Or.inl hc1⟩
    · simp only [hc] at h
      rcases hl : SameKeyLoop len keys f s f 0 with _ | range
      · simp [hl] at h
      · simp only [hl] at h
        obtain ⟨e1, e2⟩ := Prod.mk.inj (Option.some.inj h)
        have := SameKeyLoop_ge hl
        subst e1 e2
        exact ⟨by omega, Or.inr (by simp; omega)⟩
  · rw [if_pos hc1] at h
    obtain ⟨e1, e2⟩ := Prod.mk.inj (Option.some.inj h)
    subst e1 e2
    have h1 : 1 ≤ s.range_cache_ := hcache.resolve_left hc1
    exact ⟨by omega, Or.inr h1⟩

/-- A move made within `CheckRangeBound` from a good cursor lands on an existing row, not
before the old position, and releases only batches below the new one. -/
theorem move_CursorOk {len : Int → Int} {f : Nat} {s s1 : SortRelation} {k : Int}
    {p : ArrayItemIndexS} (hs : CursorOk len s) (hk : 0 ≤ k)
    (hc : CheckRangeBound len f s k = some true)
    (hp : GetItemIndexWithShift len f s k = some p)
    (h1 : s1.requested_batches = p.array_id) (h2 : s1.offset_in_current_batch_ = p.id)
    (h3 : s1.released = (landOn s p).released)
    (h4 : s1.range_cache_ = -1 ∨ 1 ≤ s1.range_cache_) :
    CursorOk len s1 ∧
    (s.requested_batches < s1.requested_batches ∨
      (s.requested_batches = s1.requested_batches ∧
        s.offset_in_current_batch_ ≤ s1.offset_in_current_batch_)) := by
  obtain ⟨_, ho, _, hrel⟩ := hs
  obtain ⟨q, hq, _, hlt, hge, _⟩ := CheckRangeBound_true_item hc
  have hqp : q = p := by rw [hp] at hq; exact (Option.some.inj hq).symm
  subst hqp
  have hbge := GetItemIndexWithShift_batch_ge hp
  refine ⟨⟨h4, ?_, ?_, ?_⟩, ?_⟩
  · rw [h2]; exact hge (by omega)
  · left; rw [h1, h2]; exact hlt
  · rw [h3, (landOn_fields s q).2.2.2.2, h1]
    intro id hid
    rcases List.mem_append.1 hid with hm | hm
    · have := hrel id hm; omega
    · obtain ⟨j, hj, rfl⟩ := List.mem_map.1 hm
      have := List.mem_range.1 hj
      omega
  · rw [h1, h2]; exact GetItemIndexWithShift_lex hp hk

theorem GuardedStep_CursorOk {len : Int → Int} {keys : List KeyColumn} {s s1 : SortRelation}
    (hs : CursorOk len s) (h : GuardedStep len keys s s1) :
    CursorOk len s1 ∧
    (s.requested_batches < s1.requested_batches ∨
      (s.requested_batches = s1.requested_batches ∧
        s.offset_in_current_batch_ ≤ s1.offset_in_current_batch_)) := by
  cases h with
  | @next b fuel hn =>
    cases b
    · unfold Next at hn
      rcases hc : CheckRangeBound len fuel s 1 with _ | _ | _
      · simp [hc] at hn
      · simp only [hc] at hn; cases hn
        exact ⟨hs, Or.inr ⟨rfl, le_refl _⟩⟩
      · simp only [hc] at hn
        rcases ha : Advance len fuel s 1 with _ | s2
        · simp [ha] at hn
        · simp [ha] at hn
    · obtain ⟨hc, p, hp, hs1⟩ := Next_true hn
      exact move_CursorOk hs (by omega) hc hp (by subst hs1; rfl) (by subst hs1; rfl)
        (by subst hs1; rfl) (Or.inl (by subst hs1; rfl))
  | @nextNewKey b fuel hn =>
    unfold NextNewKey at hn
    rcases hg : GetSameKeyRange len keys fuel s with _ | ⟨range, s0⟩
    · simp [hg] at hn
    · simp only [hg] at hn
      obtain ⟨f1, f2, _, f4⟩ := GetSameKeyRange_frame hg
      obtain ⟨hr0, hcache0⟩ := GetSameKeyRange_value hs.1 hg
      have hs0 : CursorOk len s0 := by
        obtain ⟨_, a2, a3, a4⟩ := hs
        refine ⟨hcache0, by rw [f2]; exact a2, by rw [f1, f2]; exact a3, ?_⟩
        rw [f4, f1]; exact a4
      rcases hc : CheckRangeBound len fuel s0 range with _ | _ | _
      · simp [hc] at hn
      · simp only [hc] at hn; cases hn
        exact ⟨hs0, Or.inr ⟨f1.symm, by rw [f2]⟩⟩
      · simp only [hc] at hn
        rw [Advance_eq_map] at hn
        rcases hp : GetItemIndexWithShift len fuel s0 range with _ | p
        · simp [hp] at hn
        · simp only [hp] at hn
          obtain ⟨_, e2⟩ := Prod.mk.inj (Option.some.inj hn)
          have := @move_CursorOk len fuel s0 s1 range p hs0 hr0 hc hp (by subst e2; rfl)
            (by subst e2; rfl) (by subst e2; rfl) (Or.inl (by subst e2; rfl))
          rw [f1, f2] at this
          exact this
  | @advance shift fuel h0 hc ha =>
    rw [Advance_eq_map] at ha
    rcases hp : GetItemIndexWithShift len fuel s shift with _ | p
    · simp [hp] at ha
    · simp only [hp] at ha
      have e2 : landOn s p = s1 := Option.some.inj ha
      subst e2
      exact move_CursorOk hs h0 hc hp (landOn_fields s p).1 (landOn_fields s p).2.1 rfl
        (by rw [(landOn_fields s p).2.2.2.1]; exact hs.1)

theorem GuardedReach_CursorOk {len : Int → Int} {keys : List KeyColumn} {s0 s : SortRelation}
    (hs : CursorOk len s0) (h : GuardedReach len keys s0 s) :
    CursorOk len s ∧
    (s0.requested_batches < s.requested_batches ∨
      (s0.requested_batches = s.requested_batches ∧
        s0.offset_in_current_batch_ ≤ s.offset_in_current_batch_)) := by
  induction h with
  | start => exact ⟨hs, Or.inr ⟨rfl, le_refl _⟩⟩
  | step _ hstep ih =>
    obtain ⟨h1, h2⟩ := ih
    obtain ⟨h3, h4⟩ := GuardedStep_CursorOk h1 hstep
    refine ⟨h3, ?_⟩
    omega

theorem CursorOk_init (len : Int → Int) : CursorOk len SortRelation.init :=
  ⟨Or.inl rfl, le_refl _, Or.inr ⟨rfl, rfl⟩, fun id hid => by simp [SortRelation.init] at hid⟩

/-! ### The order of the `IsEqualTo` calls -/

/-- For one pair of rows the columns are consulted in list order, up to and including
the first column that differs. -/
theorem keyColumnsCalls_spec (p q : ArrayItemIndexS) (j : Nat) (keys : List KeyColumn) :
    ∃ k, k ≤ keys.length ∧
      (keyColumnsCalls p q j keys).2
        = (List.range k).map (fun i => (⟨j + i, p, q⟩ : IsEqualToCall)) ∧
      (∀ i col, i + 1 < k → keys.get? i = some col →
        col p.array_id p.id q.array_id q.id = true) ∧
      (keyColumnsLoop p q keys = false →
        1 ≤ k ∧ ∃ col, keys.get? (k - 1) = some col ∧
          col p.array_id p.id q.array_id q.id = false) ∧
      (keyColumnsLoop p q keys = true → k = keys.length) := by
  induction keys generalizing j with
  | nil =>
    refine ⟨0, le_refl _, rfl, fun i col hi => by omega, ?_, fun _ => rfl⟩
    intro h; simp [keyColumnsLoop] at h
  | cons c rest ih =>
    by_cases hc : c p.array_id p.id q.array_id q.id = true
    · obtain ⟨k, h1, h2, h3, h4, h5⟩ := ih (j + 1)
      refine ⟨k + 1, by simp; omega, ?_, ?_, ?_, ?_⟩
      · simp only [keyColumnsCalls, hc, Bool.not_true, Bool.false_eq_true, if_false]
        rw [h2, List.range_succ_eq_map]
        simp only [List.map_cons, List.map_map, add_zero]
        congr 1
        apply List.map_congr_left
        intro i _
        simp only [Function.comp_apply, Nat.succ_eq_add_one]
        congr 1; omega
      · intro i col hi hget
        cases i with
        | zero => simp at hget; rw [← hget]; exact hc
        | succ i => exact h3 i col (by omega) (by simpa using hget)
      · intro hf
        simp only [keyColumnsLoop, hc, Bool.not_true, Bool.false_eq_true, if_false] at hf
        obtain ⟨hk, col, hget, hcol⟩ := h4 hf
        refine ⟨by omega, col, ?_, hcol⟩
        obtain ⟨m, rfl⟩ : ∃ m, k = m + 1 := ⟨k - 1, by omega⟩
        simpa using hget
      · intro ht
        simp only [keyColumnsLoop, hc, Bool.not_true, Bool.false_eq_true, if_false] at ht
        simp [h5 ht]
    · have hc' : c p.array_id p.id q.array_id q.id = false := by simpa using hc
      refine ⟨1, by simp, ?_, fun i col hi => by omega, ?_, ?_⟩
      · simp [keyColumnsCalls, hc', List.range_succ]
      · intro _
        exact ⟨le_refl _, c, by simp, hc'⟩
      · intro ht
        simp [keyColumnsLoop, hc'] at ht

/-- The calls of the scan are the calls for the pairs of rows at shifts
`(r0, r0+1), (r0+1, r0+2), ...` in this order; the last pair is the one that differs,
unless the scan ends because `CheckRangeBound` fails. -/
theorem SameKeyCalls_spec {len : Int → Int} {keys : List KeyColumn} {f n : Nat}
    {s : SortRelation} {r0 r : Int} {calls : List IsEqualToCall}
    (h : SameKeyCalls len keys f s n r0 = some (r, calls)) :
    ∃ pairs : List (ArrayItemIndexS × ArrayItemIndexS),
      calls = pairs.flatMap (fun pq => (keyColumnsCalls pq.1 pq.2 0 keys).2) ∧
      (∀ (i : Nat) (pq : ArrayItemIndexS × ArrayItemIndexS), pairs.get? i = some pq →
        GetItemIndexWithShift len f s (r0 + i) = some pq.1 ∧
        GetItemIndexWithShift len f s (r0 + i + 1) = some pq.2) ∧
      ((CheckRangeBound len f s (r + 1) = some false ∧ r0 + pairs.length = r) ∨
        (CheckRangeBound len f s (r + 1) = some true ∧ r0 + pairs.length = r + 1)) := by
  induction n generalizing r0 calls with
  | zero => simp [SameKeyCalls] at h
  | succ k ih =>
    simp only [SameKeyCalls] at h
    rcases hc : CheckRangeBound len f s (r0 + 1) with _ | _ | _
    · simp [hc] at h
    · simp only [hc] at h
      obtain ⟨e1, e2⟩ := Prod.mk.inj (Option.some.inj h)
      subst e1 e2
      exact ⟨[], rfl, fun i pq hi => by simp at hi, Or.inl ⟨hc, by simp⟩⟩
    · simp only [hc] at h
      rcases hg1 : GetItemIndexWithShift len f s r0 with _ | p
      · simp [hg1] at h
      · rcases hg2 : GetItemIndexWithShift len f s (r0 + 1) with _ | q
        · simp [hg1, hg2] at h
        · simp only [hg1, hg2] at h
          by_cases hk : (keyColumnsCalls p q 0 keys).1 = true
          · rw [if_pos hk] at h
            rcases hrec : SameKeyCalls len keys f s k (r0 + 1) with _ | ⟨v, calls1⟩
            · simp [hrec] at h
            · simp only [hrec] at h
              obtain ⟨e1, e2⟩ := Prod.mk.inj (Option.some.inj h)
              subst e1 e2
              obtain ⟨pairs, h1, h2, h3⟩ := ih hrec
              refine ⟨(p, q) :: pairs, by simp [h1], ?_, ?_⟩
              · intro i pq hi
                cases i with
                | zero =>
                  simp at hi; subst hi
                  simp only [Nat.cast_zero, add_zero]
                  exact ⟨hg1, hg2⟩
                | succ i =>
                  have := h2 i pq (by simpa using hi)
                  have e : r0 + ((i + 1 : Nat) : Int) = r0 + 1 + i := by push_cast; ring
                  rw [e]; exact this
              · simp only [List.length_cons]
                push_cast
                rcases h3 with ⟨a, b⟩ | ⟨a, b⟩
                · exact Or.inl ⟨a, by omega⟩
                · exact Or.inr ⟨a, by omega⟩
          · rw [if_neg hk] at h
            obtain ⟨e1, e2⟩ := Prod.mk.inj (Option.some.inj h)
            subst e1 e2
            refine ⟨[(p, q)], by simp, ?_, Or.inr ⟨hc, by simp⟩⟩
            intro i pq hi
            cases i with
            | zero =>
              simp at hi; subst hi
              simp only [Nat.cast_zero, add_zero]
              exact ⟨hg1, hg2⟩
            | succ i => simp at hi

/-- Every `IsEqualTo` call of the scan compares the rows at two consecutive
shifts `i` and `i + 1`, on a column of the key list. -/
theorem SameKeyCalls_positions {len : Int → Int} {keys : List KeyColumn} {f n : Nat}
    {s : SortRelation} {r0 r : Int} {calls : List IsEqualToCall}
    (h : SameKeyCalls len keys f s n r0 = some (r, calls)) :
    ∀ c ∈ calls, ∃ i : Nat,
      GetItemIndexWithShift len f s (r0 + i) = some c.left ∧
      GetItemIndexWithShift len f s (r0 + i + 1) = some c.right ∧
      c.column < keys.length := by
  obtain ⟨pairs, h1, h2, _⟩ := SameKeyCalls_spec h
  intro c hc
  rw [h1] at hc
  obtain ⟨pq, hpq, hcpq⟩ := List.mem_flatMap.1 hc
  obtain ⟨i, hi⟩ := List.get?_of_mem hpq
  obtain ⟨k, hk, hcalls, _⟩ := keyColumnsCalls_spec pq.1 pq.2 0 keys
  rw [hcalls] at hcpq
  obtain ⟨j, hj, rfl⟩ := List.mem_map.1 hcpq
  have := List.mem_range.1 hj
  exact ⟨i, (h2 i pq hi).1, (h2 i pq hi).2, by simp; omega⟩

/-! ### The batches `CheckRangeBound` inspects -/

theorem CheckRangeLoopReads_fst (len : Int → Int) (f : Nat) (r b : Int) :
    (CheckRangeLoopReads len f r b).map Prod.fst = CheckRangeLoop len f r b := by
  induction f generalizing r b with
  | zero => rfl
  | succ k ih =>
    simp only [CheckRangeLoopReads, CheckRangeLoop]
    split_ifs
    · rfl
    · rw [← ih]
      rcases CheckRangeLoopReads len k (r - len b) (b + 1) with _ | ⟨v, reads⟩
      · rfl
      · rfl
    · rfl

theorem CheckRangeBoundReads_fst (len : Int → Int) (f : Nat) (s : SortRelation) (shift : Int) :
    (CheckRangeBoundReads len f s shift).map Prod.fst = CheckRangeBound len f s shift := by
  simp only [CheckRangeBoundReads, CheckRangeBound]
  split_ifs
  · rfl
  · rfl
  · rw [← CheckRangeLoopReads_fst]
    rcases CheckRangeLoopReads len f _ (s.requested_batches + 1) with _ | ⟨v, reads⟩
    · rfl
    · rfl

theorem range_map_shift (b : Int) (m : Nat) :
    b :: (List.range m).map (fun j : Nat => b + 1 + (j : Int))
      = (List.range (m + 1)).map (fun j : Nat => b + (j : Int)) := by
  rw [List.range_succ_eq_map, List.map_cons, List.map_map]
  congr 1
  · simp
  · apply List.map_congr_left
    intro j _
    simp only [Function.comp]
    push_cast
    ring

/-- The loop of `CheckRangeBound`, when the batch `b + d` is absent: it reads the `m`
batches `b, ..., b + m - 1` in this order, `remaining` is non-negative before each
read, no read but the last returns `-1`; it answers `true` when `remaining` has become
negative without any read returning `-1`, and `false` when the last read returned
`-1`. -/
theorem CheckRangeLoopReads_spec (len : Int → Int) (d : Nat) (b r : Int)
    (hd : len (b + d) = -1) :
    ∃ (v : Bool) (m : Nat), m ≤ d + 1 ∧
      CheckRangeLoopReads len (d + 1) r b
        = some (v, (List.range m).map (fun j : Nat => b + (j : Int))) ∧
      (∀ j : Nat, j < m → sumLen len b j ≤ r) ∧
      (∀ j : Nat, j + 1 < m → len (b + j) ≠ -1) ∧
      (v = true → (∀ j : Nat, j < m → len (b + j) ≠ -1) ∧ r < sumLen len b m) ∧
      (v = false → ∃ k : Nat, m = k + 1 ∧ len (b + k) = -1) := by
  induction d generalizing b r with
  | zero =>
    have hb : len b = -1 := by simpa using hd
    by_cases h1 : r ≥ 0
    · refine ⟨false, 1, le_refl _, ?_, ?_, ?_, ?_, ?_⟩
      · simp [CheckRangeLoopReads, h1, hb, List.range_succ]
      · intro j hj
        have : j = 0 := by omega
        subst this
        simpa [sumLen] using h1
      · intro j hj; omega
      · intro h; cases h
      · intro _; exact ⟨0, rfl, by simpa using hb⟩
    · refine ⟨true, 0, by omega, ?_, ?_, ?_, ?_, ?_⟩
      · simp [CheckRangeLoopReads, h1]
      · intro j hj; omega
      · intro j hj; omega
      · intro _
        refine ⟨fun j hj => by omega, ?_⟩
        simp only [sumLen]; omega
      · intro h; cases h
  | succ k ih =>
    have step : CheckRangeLoopReads len (k + 1 + 1) r b
        = if r ≥ 0 then
            (if len b = -1 then some (false, [b])
             else
              match CheckRangeLoopReads len (k + 1) (r - len b) (b + 1) with
              | none => none
              | some (v, reads) => some (v, b :: reads))
          else some (true, []) := rfl
    by_cases h1 : r ≥ 0
    · by_cases hb : len b = -1
      · refine ⟨false, 1, by omega, ?_, ?_, ?_, ?_, ?_⟩
        · rw [step, if_pos h1, if_pos hb]; simp [List.range_succ]
        · intro j hj
          have : j = 0 := by omega
          subst this
          simpa [sumLen] using h1
        · intro j hj; omega
        · intro h; cases h
        · intro _; exact ⟨0, rfl, by simpa using hb⟩
      · obtain ⟨v, m, hm, hrun, hrem, hmid, htrue, hfalse⟩ :=
          ih (b + 1) (r - len b) (by rw [← hd]; congr 1; push_cast; ring)
        refine ⟨v, m + 1, by omega, ?_, ?_, ?_, ?_, ?_⟩
        · rw [step, if_pos h1, if_neg hb, hrun]
          simp only
          rw [range_map_shift]
        · intro j hj
          cases j with
          | zero => simpa [sumLen] using h1
          | succ j =>
            have := hrem j (by omega)
            simp only [sumLen]; omega
        · intro j hj
          cases j with
          | zero => simpa using hb
          | succ j =>
            have := hmid j (by omega)
            have e : b + ((j + 1 : Nat) : Int) = b + 1 + j := by push_cast; ring
            rw [e]; exact this
        · intro hv
          obtain ⟨h2, h3⟩ := htrue hv
          refine ⟨?_, ?_⟩
          · intro j hj
            cases j with
            | zero => simpa using hb
            | succ j =>
              have := h2 j (by omega)
              have e : b + ((j + 1 : Nat) : Int) = b + 1 + j := by push_cast; ring
              rw [e]; exact this
          · simp only [sumLen]; omega
        · intro hv
          obtain ⟨k1, hk1, hk2⟩ := hfalse hv
          refine ⟨k1 + 1, by omega, ?_⟩
          have e : b + ((k1 + 1 : Nat) : Int) = b + 1 + k1 := by push_cast; ring
          rw [e]; exact hk2
    · refine ⟨true, 0, by omega, ?_, ?_, ?_, ?_, ?_⟩
      · rw [step, if_neg h1]; simp
      · intro j hj; omega
      · intro j hj; omega
      · intro _
        refine ⟨fun j hj => by omega, ?_⟩
        simp only [sumLen]; omega
      · intro h; cases h

/-! ### The logical offset -/

/-- In every state reached from the constructor the logical offset is a value of its
type `uint64_t`. -/
theorem Reachable_offset {len : Int → Int} {keys : List KeyColumn} {s : SortRelation}
    (h : Reachable len keys s) : 0 ≤ s.offset_ ∧ s.offset_ < 2 ^ 64 := by
  induction h with
  | init => exact ⟨le_refl _, by decide⟩
  | @next s s1 b fuel _ hn ih =>
    cases b
    · unfold Next at hn
      rcases hc : CheckRangeBound len fuel s 1 with _ | _ | _
      · simp [hc] at hn
      · simp only [hc] at hn; cases hn; exact ih
      · simp only [hc] at hn
        rcases ha : Advance len fuel s 1 with _ | s2
        · simp [ha] at hn
        · simp [ha] at hn
    · obtain ⟨_, p, _, hs1⟩ := Next_true hn
      rw [hs1]
      exact ⟨Int.emod_nonneg _ (by decide), Int.emod_lt_of_pos _ (by decide)⟩
  | @nextNewKey s s1 b fuel _ hn ih =>
    unfold NextNewKey at hn
    rcases hg : GetSameKeyRange len keys fuel s with _ | ⟨range, s0⟩
    · simp [hg] at hn
    · simp only [hg] at hn
      obtain ⟨_, _, f3, _⟩ := GetSameKeyRange_frame hg
      rcases hc : CheckRangeBound len fuel s0 range with _ | _ | _
      · simp [hc] at hn
      · simp only [hc] at hn; cases hn
        rw [f3]; exact ih
      · simp only [hc] at hn
        rcases ha : Advance len fuel s0 range with _ | s2
        · simp [ha] at hn
        · simp only [ha] at hn; cases hn
          exact ⟨Int.emod_nonneg _ (by decide), Int.emod_lt_of_pos _ (by decide)⟩
  | @getSameKeyRange s s1 r fuel _ hg ih =>
    rw [(GetSameKeyRange_frame hg).2.2.1]; exact ih

/-! ### A run that consumes `2 ^ 64 - 1` rows -/

theorem lenWide_eq (q : Nat) (hq : q < 8) : lenWide (q : Int) = 4611686018427387904 := by
  unfold lenWide
  rw [if_pos]
  omega

theorem lenWide_succ (q : Nat) (hq : q + 1 < 8) :
    lenWide ((q : Int) + 1) = 4611686018427387904 := by
  unfold lenWide
  rw [if_pos]
  omega

theorem wideRow_step (q r : Nat) (hq : q < 4) (hr : r + 1 < 4611686018427387904) :
    Next lenWide 2 (wideRow q r) = some (true, wideRow q (r + 1)) := by
  have hl := lenWide_eq q (by omega)
  have hc : CheckRangeBound lenWide 2 (wideRow q r) 1 = some true := by
    simp only [CheckRangeBound, wideRow, hl]
    rw [if_neg (by decide), if_pos (by omega)]
  have ha : Advance lenWide 2 (wideRow q r) 1
      = some { wideRow q r with offset_in_current_batch_ := (r : Int) + 1 } := by
    simp only [Advance, wideRow, hl]
    rw [if_pos (by omega)]
  simp only [Next, hc, ha]
  simp only [wideRow, Option.some.injEq, Prod.mk.injEq, true_and, SortRelation.mk.injEq,
    and_true]
  refine ⟨?_, by push_cast; ring⟩
  rw [Int.emod_eq_of_lt (by positivity) (by norm_num; omega)]
  push_cast; ring

theorem wideRow_cross (q : Nat) (hq : q + 1 < 4) :
    Next lenWide 2 (wideRow q 4611686018427387903) = some (true, wideRow (q + 1) 0) := by
  have hl := lenWide_eq q (by omega)
  have hl1 := lenWide_succ q (by omega)
  have hc : CheckRangeBound lenWide 2 (wideRow q 4611686018427387903) 1 = some true := by
    simp only [CheckRangeBound, wideRow, hl]
    rw [if_neg (by decide), if_neg (by norm_num)]
    simp only [CheckRangeLoop, hl1]
    norm_num
  have ha : Advance lenWide 2 (wideRow q 4611686018427387903) 1
      = some { ReleaseArray (wideRow q 4611686018427387903) q with
          requested_batches := (q : Int) + 1, offset_in_current_batch_ := 0 } := by
    simp only [Advance, wideRow, hl]
    rw [if_neg (by norm_num)]
    simp only [AdvanceLoop, hl1]
    norm_num [releaseFor]
  simp only [Next, hc, ha]
  simp only [wideRow, ReleaseArray, Option.some.injEq, Prod.mk.injEq, true_and,
    SortRelation.mk.injEq, and_true]
  refine ⟨?_, by norm_num, by norm_num, ?_⟩
  · rw [Int.emod_eq_of_lt (by positivity) (by norm_num; omega)]
    push_cast; ring
  · rw [List.range_succ, List.map_append]
    rfl

/-- Every row of the first four batches of `lenWide` is reached from the constructor by
`Next()` calls alone. -/
theorem Reachable_wideRow (keys : List KeyColumn) (q r : Nat) (hq : q < 4)
    (hr : r < 4611686018427387904) : Reachable lenWide keys (wideRow q r) := by
  have inner : ∀ q : Nat, q < 4 → Reachable lenWide keys (wideRow q 0) →
      ∀ r : Nat, r < 4611686018427387904 → Reachable lenWide keys (wideRow q r) := by
    intro q hq h0 r
    induction r with
    | zero => intro _; exact h0
    | succ k ih =>
      intro hk
      exact Reachable.next (ih (by omega)) (wideRow_step q k hq hk)
  have outer : ∀ q : Nat, q < 4 → Reachable lenWide keys (wideRow q 0) := by
    intro q
    induction q with
    | zero =>
      intro _
      have e : wideRow 0 0 = SortRelation.init := by decide
      rw [e]; exact Reachable.init
    | succ k ih =>
      intro hk
      exact Reachable.next (inner k (by omega) (ih (by omega)) 4611686018427387903 (by omega))
        (wideRow_cross k hk)
  exact inner q hq (outer q hq) r hr

/-! ## The claims -/

/-- C1, as stated, fails.  With no batch available (`len i = -1` for every `i`)
the empty sequence of calls is a guarded run from the initial cursor, yet
`GetItemIndexWithShift(0)` never returns.  And with the batch lengths `2, -1, 2`
after one `Next()` (so `N = 1`, the code answers `(0, 1)`) the two different pairs
`(0, 1)` and `(2, 0)` both satisfy `0 ≤ row < len(batch_id)` and
`len(0) + ... + len(batch_id - 1) + row = N`. -/
theorem guardedRun_position_counterexample :
    (guardedRun (fun _ => -1) 5 SortRelation.init [] = some SortRelation.init ∧
      ¬ ∃ fuel p, GetItemIndexWithShift (fun _ => -1) fuel SortRelation.init 0 = some p) ∧
    (guardedRun lenGap 5 SortRelation.init [Call.next]
        = some { SortRelation.init with offset_ := 1, offset_in_current_batch_ := 1 } ∧
      GetItemIndexWithShift lenGap 5
        { SortRelation.init with offset_ := 1, offset_in_current_batch_ := 1 } 0 = some ⟨0, 1⟩ ∧
      ((0 : Int) ≤ 1 ∧ 1 < lenGap 0 ∧ (∑ i in Finset.range 0, lenGap (i : Int)) + 1 = 1) ∧
      ((0 : Int) ≤ 0 ∧ 0 < lenGap 2 ∧ (∑ i in Finset.range 2, lenGap (i : Int)) + 0 = 1)) := by
  refine ⟨⟨rfl, ?_⟩, by decide, by decide, by decide, by decide⟩
  rintro ⟨fuel, p, h⟩
  simp only [GetItemIndexWithShift, SortRelation.init] at h
  rw [if_neg (by omega)] at h
  rw [GetItemIndexLoop_absent fuel _ _ (by omega)] at h
  exact Option.noConfusion h

/-- C1 (amended).  For every oracle `len` with values `≥ -1` and every sequence of
`Advance(shift)` (`shift ≥ 0`) and `Next()` calls run from the initial cursor, each
made only when `CheckRangeBound` of its shift is true: if the sequence is not empty,
or the relation has a row (some batch has a row and no batch before it reports `-1`),
then `GetItemIndexWithShift(0)` right after the sequence returns a pair
`(batch_id, row)` with `0 ≤ batch_id`, `0 ≤ row < len(batch_id)` and
`len(0) + ... + len(batch_id - 1) + row = N`, where `N` is the total number of rows
advanced; and it is the only such pair all of whose earlier batches are available. -/
theorem guardedRun_position (len : Int → Int) (hlen : ∀ i, -1 ≤ len i) (fuel : Nat)
    (ops : List Call) (hshift : ∀ c ∈ ops, 0 ≤ c.shift) (s : SortRelation)
    (hrun : guardedRun len fuel SortRelation.init ops = some s)
    (hne : ops ≠ [] ∨ ∃ b : Nat, 1 ≤ len b ∧ ∀ i : Nat, i < b → len (i : Int) ≠ -1) :
    ∃ fuel1 p, GetItemIndexWithShift len fuel1 s 0 = some p ∧
      0 ≤ p.array_id ∧ 0 ≤ p.id ∧ p.id < len p.array_id ∧
      (∑ i in Finset.range p.array_id.toNat, len (i : Int)) + p.id
        = (ops.map Call.shift).sum ∧
      ∀ b r : Int, 0 ≤ b → 0 ≤ r → r < len b → (∀ i, 0 ≤ i → i < b → len i ≠ -1) →
        (∑ i in Finset.range b.toNat, len (i : Int)) + r = (ops.map Call.shift).sum →
        b = p.array_id ∧ r = p.id := by
  have hinit : AtRow len SortRelation.init 0 := by
    refine ⟨le_refl _, le_refl _, ?_, ?_⟩
    · intro i h0 h1; exact absurd h1 (by simp [SortRelation.init]; omega)
    · simp [SortRelation.init, sumLen]
  obtain ⟨hat, hon⟩ := guardedRun_AtRow hlen fuel ops _ s 0 hinit hshift hrun
  rw [zero_add] at hat
  have key : ∃ fuel1 p, GetItemIndexWithShift len fuel1 s 0 = some p ∧
      0 ≤ p.array_id ∧ 0 ≤ p.id ∧ p.id < len p.array_id ∧
      (∀ i, 0 ≤ i → i < p.array_id → 0 ≤ len i) ∧
      sumLen len 0 p.array_id.toNat + p.id = (ops.map Call.shift).sum := by
    by_cases hops : ops = []
    · subst hops
      simp only [guardedRun] at hrun
      cases hrun
      obtain ⟨b, hb, hk⟩ := hne.resolve_left (by simp)
      exact first_row b hb (fun i hi => by
        have := hk i hi
        have := hlen i
        omega)
    · have hcrb := CheckRangeBound_onRow len fuel s hat.2.1 (hon (Or.inl hops))
      obtain ⟨p, hp, _, hat2, hlt⟩ := item_position hlen hat (le_refl 0) hcrb
      obtain ⟨a1, a2, a3, a4⟩ := hat2
      rw [(landOn_fields s p).1] at a1 a3 a4
      rw [(landOn_fields s p).2.1] at a2 a4
      rw [add_zero] at a4
      exact ⟨fuel, p, hp, a1, a2, hlt, a3, a4⟩
  obtain ⟨fuel1, p, hp, a1, a2, hlt, a3, a4⟩ := key
  refine ⟨fuel1, p, hp, a1, a2, hlt, by rw [← sumLen_eq_sum]; exact a4, ?_⟩
  intro b r hb hr hl hk hsum
  rw [← sumLen_eq_sum] at hsum
  have hk2 : ∀ i, 0 ≤ i → i < b → 0 ≤ len i := by
    intro i h0 h1
    have := hk i h0 h1
    have := hlen i
    omega
  exact position_unique len b r p.array_id p.id hb a1 hr a2 hl hlt hk2 a3 (by rw [hsum, a4])

/-- Witness of C1 (amended): keys `[1,1,2]`, `[2,2,3]`; `Next`, `Advance(2)`, `Next`
move four rows, to row `1` of batch `1`. -/
theorem guardedRun_position_witness :
    ∃ fuel1 p, GetItemIndexWithShift (lenOf [[1, 1, 2], [2, 2, 3]]) fuel1
        { SortRelation.init with
          offset_ := 2, offset_in_current_batch_ := 1, requested_batches := 1,
          released := [0] } 0 = some p ∧
      0 ≤ p.array_id ∧ 0 ≤ p.id ∧ p.id < lenOf [[1, 1, 2], [2, 2, 3]] p.array_id ∧
      (∑ i in Finset.range p.array_id.toNat, lenOf [[1, 1, 2], [2, 2, 3]] (i : Int)) + p.id
        = ([Call.next, Call.advance 2, Call.next].map Call.shift).sum ∧
      ∀ b r : Int, 0 ≤ b → 0 ≤ r → r < lenOf [[1, 1, 2], [2, 2, 3]] b →
        (∀ i, 0 ≤ i → i < b → lenOf [[1, 1, 2], [2, 2, 3]] i ≠ -1) →
        (∑ i in Finset.range b.toNat, lenOf [[1, 1, 2], [2, 2, 3]] (i : Int)) + r
          = ([Call.next, Call.advance 2, Call.next].map Call.shift).sum →
        b = p.array_id ∧ r = p.id :=
  guardedRun_position (lenOf [[1, 1, 2], [2, 2, 3]]) (lenOf_ge _) 5
    [Call.next, Call.advance 2, Call.next] (by decide) _ (by decide) (Or.inl (by decide))

/-- C2.  For every cursor state with `offset_in_current_batch_ ≥ 0`, every oracle and
every `shift ≥ 0`: if `CheckRangeBound(shift)` returns `true` then
`GetItemIndexWithShift(shift)` returns (within the same number of loop tests) a pair
`(batch_id, row)` with `batch_id ≥ requested_batches`, `0 ≤ row < len(batch_id)`, and
no batch id from `requested_batches` through `batch_id` reports `-1`. -/
theorem CheckRangeBound_guards_lookahead (len : Int → Int) (fuel : Nat) (s : SortRelation)
    (shift : Int) (hoff : 0 ≤ s.offset_in_current_batch_) (hshift : 0 ≤ shift)
    (h : CheckRangeBound len fuel s shift = some true) :
    ∃ p, GetItemIndexWithShift len fuel s shift = some p ∧
      s.requested_batches ≤ p.array_id ∧ 0 ≤ p.id ∧ p.id < len p.array_id ∧
      ∀ i, s.requested_batches ≤ i → i ≤ p.array_id → len i ≠ -1 := by
  obtain ⟨p, hp, hav, hlt, hge, n, hn, _⟩ := CheckRangeBound_true_item h
  exact ⟨p, hp, by omega, hge (by omega), hlt, hav⟩

/-- Witness of C2: batches of 3 and 3 rows, cursor on row 2 of batch 0, `shift = 2`. -/
theorem CheckRangeBound_guards_lookahead_witness :
    ∃ p, GetItemIndexWithShift (lenOf [[1, 1, 2], [2, 2, 3]]) 5
        { SortRelation.init with offset_in_current_batch_ := 2 } 2 = some p ∧
      (0 : Int) ≤ p.array_id ∧ 0 ≤ p.id ∧ p.id < lenOf [[1, 1, 2], [2, 2, 3]] p.array_id ∧
      ∀ i, (0 : Int) ≤ i → i ≤ p.array_id → lenOf [[1, 1, 2], [2, 2, 3]] i ≠ -1 :=
  CheckRangeBound_guards_lookahead (lenOf [[1, 1, 2], [2, 2, 3]]) 5
    { SortRelation.init with offset_in_current_batch_ := 2 } 2 (by decide) (by decide)
    (by decide)

/-- C3, the code at the failing input.  Batches of 3 rows and 1 row, every later
batch absent, cursor on the last row of batch 0.  The next row exists: it is row 0
of batch 1, the last row of that batch, and `GetItemIndexWithShift(1)` finds it.
Yet `CheckRangeBound(1)` answers `false` and `Next()` returns `false` without
moving, because the loop `while (remaining >= 0)` goes on to read batch 2 when
`remaining` has reached `0`.  Inside the current batch the last row is accepted:
from row 1 of batch 0, `CheckRangeBound(1)` is `true`. -/
theorem CheckRangeBound_boundary_failing_input (fuel : Nat) :
    GetItemIndexWithShift (lenOf [[1, 1, 1], [1]]) (fuel + 1)
        { SortRelation.init with offset_in_current_batch_ := 2 } 1 = some ⟨1, 0⟩ ∧
    CheckRangeBound (lenOf [[1, 1, 1], [1]]) (fuel + 2)
        { SortRelation.init with offset_in_current_batch_ := 2 } 1 = some false ∧
    Next (lenOf [[1, 1, 1], [1]]) (fuel + 2)
        { SortRelation.init with offset_in_current_batch_ := 2 }
      = some (false, { SortRelation.init with offset_in_current_batch_ := 2 }) ∧
    CheckRangeBound (lenOf [[1, 1, 1], [1]]) fuel
        { SortRelation.init with offset_in_current_batch_ := 1 } 1 = some true := by
  have h2 : CheckRangeBound (lenOf [[1, 1, 1], [1]]) (fuel + 2)
      { SortRelation.init with offset_in_current_batch_ := 2 } 1 = some false := by
    simp [CheckRangeBound, CheckRangeLoop, lenOf, SortRelation.init]
  refine ⟨?_, h2, ?_, ?_⟩
  · simp [GetItemIndexWithShift, GetItemIndexLoop, lenOf, SortRelation.init]
  · simp only [Next, h2]
  · simp [CheckRangeBound, lenOf, SortRelation.init]

/-- C4, the code at the failing input.  Two rows with the same key `1`, split as
batch0 = `[1]`, batch1 = `[1]`: at offset 0 the run of equal keys has length 2, but
`GetSameKeyRange()` returns 1, because `CheckRangeBound(1)` answers `false` for the
last row of the last batch (the defect of C3).  The same two rows in one batch give 2.
On the relation of the claim, batch0 = `[1,1,2]`, batch1 = `[2,2,3]`, the values are
2 at offset 0, 3 at offset 2 and 1 at offset 5. -/
theorem GetSameKeyRange_failing_input (fuel : Nat) :
    (GetSameKeyRange (lenOf [[1], [1]]) [keyColumnOf [[1], [1]]] (fuel + 2)
        SortRelation.init).map Prod.fst = some 1 ∧
    (GetSameKeyRange (lenOf [[1, 1]]) [keyColumnOf [[1, 1]]] (fuel + 2)
        SortRelation.init).map Prod.fst = some 2 ∧
    (GetSameKeyRange (lenOf [[1, 1, 2], [2, 2, 3]]) [keyColumnOf [[1, 1, 2], [2, 2, 3]]] 5
        SortRelation.init).map Prod.fst = some 2 ∧
    (GetSameKeyRange (lenOf [[1, 1, 2], [2, 2, 3]]) [keyColumnOf [[1, 1, 2], [2, 2, 3]]] 5
        { SortRelation.init with offset_ := 2, offset_in_current_batch_ := 2 }).map Prod.fst
      = some 3 ∧
    (GetSameKeyRange (lenOf [[1, 1, 2], [2, 2, 3]]) [keyColumnOf [[1, 1, 2], [2, 2, 3]]] 5
        { SortRelation.init with
          offset_ := 5, requested_batches := 1, offset_in_current_batch_ := 2 }).map Prod.fst
      = some 1 := by
  refine ⟨?_, ?_, by decide, by decide, by decide⟩
  · simp [GetSameKeyRange, SameKeyLoop, CheckRangeBound, CheckRangeLoop, lenOf,
      SortRelation.init]
  · simp [GetSameKeyRange, SameKeyLoop, CheckRangeBound, CheckRangeLoop, lenOf,
      GetItemIndexWithShift, keyColumnsLoop, keyColumnOf, keyAt, SortRelation.init]

/-- C5, as stated, fails.  The logical offset `offset_` is a `uint64_t`.  In the state
with `offset_ = 2 ^ 64 - 1` on the first of two rows, `Next()` returns `true` and the
logical offset is `0` afterwards: it has not increased by 1. -/
theorem Next_postcondition_counterexample :
    Next (lenOf [[1, 1]]) 5 { SortRelation.init with offset_ := 18446744073709551615 }
      = some (true, { SortRelation.init with offset_ := 0, offset_in_current_batch_ := 1 }) ∧
    (0 : Int) ≠ 18446744073709551615 + 1 := by
  decide

/-- C5 (amended).  `Next()` returns `true` exactly when `CheckRangeBound(1)` is true in
the pre-state.  When it returns `false` the state is unchanged (no field changes and
nothing is released).  When `CheckRangeBound(1)` is true, `Next()` returns `true`,
the logical offset has grown by 1 modulo `2 ^ 64` (by exactly 1 from every value of
its type below `2 ^ 64 - 1`, and from `2 ^ 64 - 1` to `0`), the range cache is `-1`, and
`(requested_batches, offset_in_current_batch_)` is the pair that
`GetItemIndexWithShift(1)` returns in the pre-state. -/
theorem Next_postcondition (len : Int → Int) (fuel : Nat) (s : SortRelation) :
    (∀ b s1, Next len fuel s = some (b, s1) → CheckRangeBound len fuel s 1 = some b) ∧
    (∀ s1, Next len fuel s = some (false, s1) → s1 = s) ∧
    (CheckRangeBound len fuel s 1 = some false → Next len fuel s = some (false, s)) ∧
    (CheckRangeBound len fuel s 1 = some true →
      ∃ p s1, GetItemIndexWithShift len fuel s 1 = some p ∧
        Next len fuel s = some (true, s1) ∧
        s1.requested_batches = p.array_id ∧ s1.offset_in_current_batch_ = p.id ∧
        s1.offset_ = (s.offset_ + 1) % 2 ^ 64 ∧
        (0 ≤ s.offset_ → s.offset_ + 1 < 2 ^ 64 → s1.offset_ = s.offset_ + 1) ∧
        (s.offset_ = 2 ^ 64 - 1 → s1.offset_ = 0) ∧
        s1.range_cache_ = -1) := by
  refine ⟨?_, ?_, ?_, ?_⟩
  · intro b s1 h
    unfold Next at h
    rcases hc : CheckRangeBound len fuel s 1 with _ | _ | _
    · simp [hc] at h
    · simp only [hc] at h
      rw [← (Prod.mk.inj (Option.some.inj h)).1]
    · simp only [hc] at h
      rcases ha : Advance len fuel s 1 with _ | s2
      · simp [ha] at h
      · simp only [ha] at h
        rw [← (Prod.mk.inj (Option.some.inj h)).1]
  · intro s1 h
    unfold Next at h
    rcases hc : CheckRangeBound len fuel s 1 with _ | _ | _
    · simp [hc] at h
    · simp only [hc] at h
      exact (Prod.mk.inj (Option.some.inj h)).2.symm
    · simp only [hc] at h
      rcases ha : Advance len fuel s 1 with _ | s2
      · simp [ha] at h
      · simp [ha] at h
  · intro hc
    simp only [Next, hc]
  · intro hc
    obtain ⟨p, hp, _⟩ := CheckRangeBound_true_item hc
    have hoff : ((landOn s p).offset_ + 1) % 2 ^ 64 = (s.offset_ + 1) % 2 ^ 64 := by
      rw [(landOn_fields s p).2.2.1]
    refine ⟨p,
      { landOn s p with offset_ := ((landOn s p).offset_ + 1) % 2 ^ 64, range_cache_ := -1 },
      hp, ?_, rfl, rfl, hoff, ?_, ?_, rfl⟩
    · simp only [Next, hc, Advance_eq_map, hp]
      rfl
    · intro h0 h1
      show ((landOn s p).offset_ + 1) % 2 ^ 64 = s.offset_ + 1
      rw [hoff]
      exact Int.emod_eq_of_lt (by omega) h1
    · intro h0
      show ((landOn s p).offset_ + 1) % 2 ^ 64 = 0
      rw [hoff, h0]
      decide

/-- Witness of C5 (amended): batches of 3 and 1 rows and a third batch of 2 rows, cursor
on the last row of batch 0; `Next()` moves to row 0 of batch 1 and releases batch 0. -/
theorem Next_postcondition_witness :
    ∃ p s1, GetItemIndexWithShift (lenOf [[1, 1, 1], [1], [2, 2]]) 5
        { SortRelation.init with offset_ := 2, offset_in_current_batch_ := 2 } 1 = some p ∧
      Next (lenOf [[1, 1, 1], [1], [2, 2]]) 5
        { SortRelation.init with offset_ := 2, offset_in_current_batch_ := 2 } = some (true, s1) ∧
      s1.requested_batches = p.array_id ∧ s1.offset_in_current_batch_ = p.id ∧
      s1.offset_ = (2 + 1) % 2 ^ 64 ∧
      ((0 : Int) ≤ 2 → (2 : Int) + 1 < 2 ^ 64 → s1.offset_ = 2 + 1) ∧
      ((2 : Int) = 2 ^ 64 - 1 → s1.offset_ = 0) ∧
      s1.range_cache_ = -1 :=
  (Next_postcondition (lenOf [[1, 1, 1], [1], [2, 2]]) 5
    { SortRelation.init with offset_ := 2, offset_in_current_batch_ := 2 }).2.2.2 (by decide)

/-- C7.  Whenever `Advance(shift)` returns, `requested_batches` has not decreased; if
it is unchanged nothing was appended to the log of `ReleaseArray` calls; and if it
moved from `b` to `b1` the log has grown by exactly `b, b+1, ..., b1-1`, in this
order, each once. -/
theorem Advance_release_log (len : Int → Int) (fuel : Nat) (s s1 : SortRelation) (shift : Int)
    (h : Advance len fuel s shift = some s1) :
    s.requested_batches ≤ s1.requested_batches ∧
    (s1.requested_batches = s.requested_batches → s1.released = s.released) ∧
    s1.released = s.released ++
      (List.range (s1.requested_batches - s.requested_batches).toNat).map
        (fun j : Nat => s.requested_batches + j) := by
  rw [Advance_eq_map] at h
  rcases hg : GetItemIndexWithShift len fuel s shift with _ | p
  · simp [hg] at h
  · simp only [hg, Option.map_some] at h
    have hs1 : s1 = landOn s p := (Option.some.inj h).symm
    have hge := GetItemIndexWithShift_batch_ge hg
    have hf := landOn_fields s p
    subst hs1
    rw [hf.1]
    refine ⟨hge, ?_, hf.2.2.2.2⟩
    intro he
    rw [hf.2.2.2.2, he]
    simp

/-- Witness of C7: batches of 3, 0 and 1 rows, cursor on the last row of batch 0;
`Advance(1)` moves to batch 2 and releases batches 0 and 1. -/
theorem Advance_release_log_witness :
    (0 : Int) ≤ 2 ∧
    ((2 : Int) = 0 → [0, 1] = ([] : List Int)) ∧
    [0, 1] = ([] : List Int) ++
      (List.range ((2 : Int) - 0).toNat).map (fun j : Nat => (0 : Int) + j) :=
  Advance_release_log (lenOf [[1, 1, 1], [], [1]]) 5
    { SortRelation.init with offset_in_current_batch_ := 2 }
    { SortRelation.init with requested_batches := 2, released := [0, 1] } 1 (by decide)

/-- C8, as stated, fails for `Advance`.  Keys `[1,1,2]` in one batch: at the start
`GetSameKeyRange()` returns 2 and caches it; `Advance(1)` then moves the cursor to
row 1 and leaves the range cache at 2, so the next `GetSameKeyRange()` answers 2
from the cache, while a computation at row 1 gives 1. -/
theorem range_cache_counterexample :
    GetSameKeyRange (lenOf [[1, 1, 2]]) [keyColumnOf [[1, 1, 2]]] 5 SortRelation.init
      = some (2, { SortRelation.init with range_cache_ := 2 }) ∧
    Advance (lenOf [[1, 1, 2]]) 5 { SortRelation.init with range_cache_ := 2 } 1
      = some { SortRelation.init with range_cache_ := 2, offset_in_current_batch_ := 1 } ∧
    GetSameKeyRange (lenOf [[1, 1, 2]]) [keyColumnOf [[1, 1, 2]]] 5
        { SortRelation.init with range_cache_ := 2, offset_in_current_batch_ := 1 }
      = some (2, { SortRelation.init with range_cache_ := 2, offset_in_current_batch_ := 1 }) ∧
    GetSameKeyRange (lenOf [[1, 1, 2]]) [keyColumnOf [[1, 1, 2]]] 5
        { SortRelation.init with range_cache_ := -1, offset_in_current_batch_ := 1 }
      = some (1, { SortRelation.init with range_cache_ := 1, offset_in_current_batch_ := 1 }) := by
  decide

/-- C8 (amended).  After a `Next()` that returns `true` and after a `NextNewKey()` that
returns `true` the range cache equals `-1`; `Advance(shift)` itself leaves the range
cache (and the logical offset) as they were.  In a state whose range cache is `-1`,
`GetSameKeyRange()` does not answer from a cached value: it returns `0` when
`CheckRangeBound(0)` fails and otherwise one more than the result of its scan from
the current position. -/
theorem range_cache_after_move (len : Int → Int) (keys : List KeyColumn) (fuel : Nat)
    (s : SortRelation) :
    (∀ s1, Next len fuel s = some (true, s1) → s1.range_cache_ = -1) ∧
    (∀ s1, NextNewKey len keys fuel s = some (true, s1) → s1.range_cache_ = -1) ∧
    (∀ shift s1, Advance len fuel s shift = some s1 →
      s1.range_cache_ = s.range_cache_ ∧ s1.offset_ = s.offset_) ∧
    (∀ s1 r s2, s1.range_cache_ = -1 → GetSameKeyRange len keys fuel s1 = some (r, s2) →
      (r = 0 ∧ CheckRangeBound len fuel s1 0 = some false) ∨
      ∃ range, SameKeyLoop len keys fuel s1 fuel 0 = some range ∧ r = range + 1) := by
  refine ⟨?_, ?_, ?_, ?_⟩
  · intro s1 h
    obtain ⟨_, p, _, hs1⟩ := Next_true h
    rw [hs1]
  · intro s1 h
    unfold NextNewKey at h
    rcases hg : GetSameKeyRange len keys fuel s with _ | ⟨range, s0⟩
    · simp [hg] at h
    · simp only [hg] at h
      rcases hc : CheckRangeBound len fuel s0 range with _ | _ | _
      · simp [hc] at h
      · simp [hc] at h
      · simp only [hc] at h
        rcases ha : Advance len fuel s0 range with _ | s2
        · simp [ha] at h
        · simp only [ha] at h
          rw [← (Prod.mk.inj (Option.some.inj h)).2]
  · intro shift s1 h
    rw [Advance_eq_map] at h
    rcases hg : GetItemIndexWithShift len fuel s shift with _ | p
    · simp [hg] at h
    · simp only [hg] at h
      have hs1 : s1 = landOn s p := (Option.some.inj h).symm
      rw [hs1]
      exact ⟨(landOn_fields s p).2.2.2.1, (landOn_fields s p).2.2.1⟩
  · intro s1 r s2 hcache h
    unfold GetSameKeyRange at h
    rw [if_neg (by simp [hcache])] at h
    rcases hc : CheckRangeBound len fuel s1 0 with _ | _ | _
    · simp [hc] at h
    · simp only [hc] at h
      left
      exact ⟨((Prod.mk.inj (Option.some.inj h)).1).symm, rfl⟩
    · simp only [hc] at h
      rcases hl : SameKeyLoop len keys fuel s1 fuel 0 with _ | range
      · simp [hl] at h
      · simp only [hl] at h
        right
        exact ⟨range, rfl, ((Prod.mk.inj (Option.some.inj h)).1).symm⟩

/-- An instance of C8 (amended): keys `[1,1,2]` with the value 2 in the range cache;
a `Next()` that returns `true` leaves the cache at `-1`. -/
theorem range_cache_after_move_witness :
    ({ SortRelation.init with offset_ := 1, offset_in_current_batch_ := 1 } :
      SortRelation).range_cache_ = -1 :=
  (range_cache_after_move (lenOf [[1, 1, 2]]) [keyColumnOf [[1, 1, 2]]] 5
    { SortRelation.init with range_cache_ := 2 }).1
    { SortRelation.init with offset_ := 1, offset_in_current_batch_ := 1 } (by decide)

/-- C9, as stated, fails.  With no batch available, `GetSameKeyRange()` at the initial
cursor returns 0: the guard `if (!CheckRangeBound(0)) return 0;`. -/
theorem GetSameKeyRange_ge_one_counterexample :
    ∃ r s1, GetSameKeyRange (fun _ => -1) [] 5 SortRelation.init = some (r, s1) ∧ r < 1 :=
  ⟨0, SortRelation.init, by decide, by decide⟩

/-- C9 (amended).  From a cursor state whose range cache is `-1` or holds a value
`≥ 1`: `GetSameKeyRange()` returns whenever some batch after the current one is absent,
and the value it returns is `≥ 1`, except when the cache is `-1` and
`CheckRangeBound(0)` is false: then it returns `0` and leaves the state unchanged.
In particular it is `≥ 1` whenever `CheckRangeBound(0)` is true.  The range cache
after the call is again `-1` or `≥ 1`. -/
theorem GetSameKeyRange_ge_one (len : Int → Int) (keys : List KeyColumn) (s : SortRelation)
    (hcache : s.range_cache_ = -1 ∨ 1 ≤ s.range_cache_) :
    (∀ e, s.requested_batches < e → len e = -1 →
      ∃ fuel r s1, GetSameKeyRange len keys fuel s = some (r, s1)) ∧
    (∀ fuel r s1, GetSameKeyRange len keys fuel s = some (r, s1) →
      (1 ≤ r ∨ (r = 0 ∧ s.range_cache_ = -1 ∧ CheckRangeBound len fuel s 0 = some false ∧
        s1 = s)) ∧
      (CheckRangeBound len fuel s 0 = some true → 1 ≤ r) ∧
      (s1.range_cache_ = -1 ∨ 1 ≤ s1.range_cache_)) := by
  refine ⟨?_, ?_⟩
  · intro e he hlen
    obtain ⟨fuel, v, hv⟩ := GetSameKeyRange_returns len keys s e he hlen
    exact ⟨fuel, v.1, v.2, hv⟩
  intro fuel r s1 h
  unfold GetSameKeyRange at h
  by_cases hc1 : s.range_cache_ = -1
  · rw [if_neg (by simp [hc1])] at h
    rcases hc : CheckRangeBound len fuel s 0 with _ | _ | _
    · simp [hc] at h
    · simp only [hc] at h
      obtain ⟨e1, e2⟩ := Prod.mk.inj (Option.some.inj h)
      subst e1 e2
      exact ⟨Or.inr ⟨rfl, hc1, rfl, rfl⟩, fun h => by simp at h, Or.inl hc1⟩
    · simp only [hc] at h
      rcases hl : SameKeyLoop len keys fuel s fuel 0 with _ | range
      · simp [hl] at h
      · simp only [hl] at h
        obtain ⟨e1, e2⟩ := Prod.mk.inj (Option.some.inj h)
        have := SameKeyLoop_ge hl
        subst e1 e2
        exact ⟨Or.inl (by omega), fun _ => by omega, Or.inr (by simp; omega)⟩
  · rw [if_pos hc1] at h
    obtain ⟨e1, e2⟩ := Prod.mk.inj (Option.some.inj h)
    subst e1 e2
    have h1 : 1 ≤ s.range_cache_ := hcache.resolve_left hc1
    exact ⟨Or.inl h1, fun _ => h1, Or.inr h1⟩

/-- Witness of C9 (amended): keys `[1,1,2]`, `[2,2,3]`, cursor on row 2 of batch 0;
batch 2 is absent, the call returns 3 and caches it. -/
theorem GetSameKeyRange_ge_one_witness :
    (∃ fuel r s1, GetSameKeyRange (lenOf [[1, 1, 2], [2, 2, 3]])
      [keyColumnOf [[1, 1, 2], [2, 2, 3]]] fuel
      { SortRelation.init with offset_in_current_batch_ := 2 } = some (r, s1)) ∧
    (GetSameKeyRange (lenOf [[1, 1, 2], [2, 2, 3]]) [keyColumnOf [[1, 1, 2], [2, 2, 3]]] 5
      { SortRelation.init with offset_in_current_batch_ := 2 }
      = some (3, { SortRelation.init with offset_in_current_batch_ := 2, range_cache_ := 3 })) ∧
    (CheckRangeBound (lenOf [[1, 1, 2], [2, 2, 3]]) 5
        { SortRelation.init with offset_in_current_batch_ := 2 } 0 = some true → (1 : Int) ≤ 3) :=
  ⟨(GetSameKeyRange_ge_one (lenOf [[1, 1, 2], [2, 2, 3]]) [keyColumnOf [[1, 1, 2], [2, 2, 3]]]
      { SortRelation.init with offset_in_current_batch_ := 2 } (Or.inl (by decide))).1 2
      (by decide) (by decide),
    by decide,
    ((GetSameKeyRange_ge_one (lenOf [[1, 1, 2], [2, 2, 3]]) [keyColumnOf [[1, 1, 2], [2, 2, 3]]]
      { SortRelation.init with offset_in_current_batch_ := 2 } (Or.inl (by decide))).2 5 3
      { SortRelation.init with offset_in_current_batch_ := 2, range_cache_ := 3 }
      (by decide)).2.1⟩

/-- C6, as stated, fails.  Over eight batches of `2 ^ 62` rows with pairwise different
keys, `2 ^ 64 - 1` calls of `Next()` leave the cursor on the last row of batch 3 with
the logical offset at `2 ^ 64 - 1`.  There `GetSameKeyRange()` yields 1 and
`NextNewKey()` returns `true`, and the logical offset, a `uint64_t`, is `0`
afterwards: it has not increased by 1. -/
theorem NextNewKey_postcondition_counterexample :
    Reachable lenWide [rowIdKey] (wideRow 3 4611686018427387903) ∧
    (wideRow 3 4611686018427387903).offset_ = 18446744073709551615 ∧
    GetSameKeyRange lenWide [rowIdKey] 5 (wideRow 3 4611686018427387903)
      = some (1, { wideRow 3 4611686018427387903 with range_cache_ := 1 }) ∧
    NextNewKey lenWide [rowIdKey] 5 (wideRow 3 4611686018427387903)
      = some (true, { SortRelation.init with
          offset_ := 0, requested_batches := 4, released := [0, 1, 2, 3] }) ∧
    (0 : Int) ≠ 18446744073709551615 + 1 :=
  ⟨Reachable_wideRow [rowIdKey] 3 4611686018427387903 (by decide) (by decide),
    by decide, by decide, by decide, by decide⟩

/-- C6 (amended).  In a state reachable from the initial state by `Next`, `NextNewKey` and
`GetSameKeyRange` calls, let `r` be the value `GetSameKeyRange()` yields.  If
`NextNewKey()` returns `false`, then `requested_batches`, `offset_in_current_batch_`
and the logical offset are unchanged and nothing is released.  If it returns `true`,
then `r ≥ 1`, the cursor is at the pair `GetItemIndexWithShift(r)` of the pre-state,
the logical offset has grown by `r` (as a `uint64_t`: modulo `2 ^ 64`, hence by exactly
`r` whenever the offset before the call plus `r` is below `2 ^ 64`), the range cache is
`-1`, every row at a shift `1 ≤ i < r` is equal on every key column to the row at shift
`i - 1`, and the row at shift `r` (the new current row) differs from the row at shift
`r - 1` on some key column. -/
theorem NextNewKey_postcondition (len : Int → Int) (keys : List KeyColumn) (fuel : Nat)
    (s s0 s1 : SortRelation) (r : Int) (b : Bool)
    (hreach : Reachable len keys s)
    (hr : GetSameKeyRange len keys fuel s = some (r, s0))
    (h : NextNewKey len keys fuel s = some (b, s1)) :
    (b = false →
      s1.requested_batches = s.requested_batches ∧
      s1.offset_in_current_batch_ = s.offset_in_current_batch_ ∧
      s1.offset_ = s.offset_ ∧ s1.released = s.released) ∧
    (b = true →
      1 ≤ r ∧ s1.offset_ = (s.offset_ + r) % 2 ^ 64 ∧
      (s.offset_ + r < 2 ^ 64 → s1.offset_ = s.offset_ + r) ∧ s1.range_cache_ = -1 ∧
      ∃ fuel1, fuel ≤ fuel1 ∧
        (∃ p, GetItemIndexWithShift len fuel s r = some p ∧
          s1.requested_batches = p.array_id ∧ s1.offset_in_current_batch_ = p.id) ∧
        (∀ i, 1 ≤ i → i < r →
          ∃ p q, GetItemIndexWithShift len fuel1 s (i - 1) = some p ∧
            GetItemIndexWithShift len fuel1 s i = some q ∧
            ∀ col ∈ keys, col p.array_id p.id q.array_id q.id = true) ∧
        ∃ p q, GetItemIndexWithShift len fuel1 s (r - 1) = some p ∧
          GetItemIndexWithShift len fuel1 s r = some q ∧
          s1.requested_batches = q.array_id ∧ s1.offset_in_current_batch_ = q.id ∧
          ∃ col ∈ keys, col p.array_id p.id q.array_id q.id = false) := by
  obtain ⟨f1, f2, f3, f4⟩ := GetSameKeyRange_frame hr
  have hoffs := (Reachable_offset hreach).1
  have hscan := GetSameKeyRange_scan (Reachable_cacheFresh hreach) hr
  unfold NextNewKey at h
  simp only [hr] at h
  have hcc := CheckRangeBound_congr len fuel s s0 r f1 f2
  have hgc := GetItemIndexWithShift_congr len fuel s s0 r f1 f2
  rcases hc : CheckRangeBound len fuel s0 r with _ | _ | _
  · simp [hc] at h
  · simp only [hc] at h
    obtain ⟨e1, e2⟩ := Prod.mk.inj (Option.some.inj h)
    subst e1 e2
    exact ⟨fun _ => ⟨f1, f2, f3, f4⟩, fun hb => by simp at hb⟩
  · simp only [hc] at h
    rw [Advance_eq_map] at h
    rcases hg : GetItemIndexWithShift len fuel s0 r with _ | p
    · simp [hg] at h
    · simp only [hg] at h
      obtain ⟨e1, e2⟩ := Prod.mk.inj (Option.some.inj h)
      subst e1
      refine ⟨fun hb => by simp at hb, fun _ => ?_⟩
      have hpos : s1.requested_batches = p.array_id ∧ s1.offset_in_current_batch_ = p.id := by
        rw [← e2]; exact ⟨rfl, rfl⟩
      have hoff : s1.offset_ = (s.offset_ + r) % 2 ^ 64 := by
        rw [← e2]
        show ((landOn s0 p).offset_ + r) % 2 ^ 64 = (s.offset_ + r) % 2 ^ 64
        rw [(landOn_fields s0 p).2.2.1, f3]
      have hcache : s1.range_cache_ = -1 := by rw [← e2]
      rw [hcc] at hc
      rw [hgc] at hg
      rcases hscan with ⟨hr0, hfalse⟩ | ⟨hr1, g, hfg, hloop⟩
      · exfalso
        rw [hr0] at hc
        rw [hfalse] at hc
        simp at hc
      · obtain ⟨hrows, hexit⟩ := SameKeyLoop_spec hloop
        refine ⟨hr1, hoff, fun hlt => by rw [hoff]; exact Int.emod_eq_of_lt (by omega) hlt,
          hcache, g, hfg, ⟨p, hg, hpos⟩, ?_, ?_⟩
        · intro i hi1 hi2
          obtain ⟨_, p1, q1, hp1, hq1, hk⟩ := hrows (i - 1) (by omega) (by omega)
          rw [show i - 1 + 1 = i by ring] at hq1
          exact ⟨p1, q1, hp1, hq1, (keyColumnsLoop_true p1 q1 keys).1 hk⟩
        · rw [show r - 1 + 1 = r by ring] at hexit
          rcases hexit with hf | ⟨_, p1, q1, hp1, hq1, hk⟩
          · exfalso
            have := CheckRangeBound_det hc hf
            simp at this
          · have hq : p = q1 := GetItemIndexWithShift_det hg hq1
            subst hq
            exact ⟨p1, p, hp1, hq1, hpos.1, hpos.2, (keyColumnsLoop_false p1 p keys).1 hk⟩

/-- Witness of C6: keys `[1,1,2]`, `[2,2,3]`, at the start: `GetSameKeyRange()` yields 2
and `NextNewKey()` moves to row 2 of batch 0, the first row with key 2. -/
theorem NextNewKey_postcondition_witness :
    GetSameKeyRange (lenOf [[1, 1, 2], [2, 2, 3]]) [keyColumnOf [[1, 1, 2], [2, 2, 3]]] 5
        SortRelation.init = some (2, { SortRelation.init with range_cache_ := 2 }) ∧
    NextNewKey (lenOf [[1, 1, 2], [2, 2, 3]]) [keyColumnOf [[1, 1, 2], [2, 2, 3]]] 5
        SortRelation.init
      = some (true, { SortRelation.init with offset_ := 2, offset_in_current_batch_ := 2 }) ∧
    (true = true →
      (1 : Int) ≤ 2 ∧
      ({ SortRelation.init with offset_ := 2, offset_in_current_batch_ := 2 } : SortRelation).offset_
        = (SortRelation.init.offset_ + 2) % 2 ^ 64 ∧
      (SortRelation.init.offset_ + 2 < 2 ^ 64 →
        ({ SortRelation.init with offset_ := 2, offset_in_current_batch_ := 2 } :
          SortRelation).offset_ = SortRelation.init.offset_ + 2) ∧
      ({ SortRelation.init with offset_ := 2, offset_in_current_batch_ := 2 } :
        SortRelation).range_cache_ = -1 ∧
      ∃ fuel1, 5 ≤ fuel1 ∧
        (∃ p, GetItemIndexWithShift (lenOf [[1, 1, 2], [2, 2, 3]]) 5 SortRelation.init 2 = some p ∧
          ({ SortRelation.init with offset_ := 2, offset_in_current_batch_ := 2 } :
            SortRelation).requested_batches = p.array_id ∧
          ({ SortRelation.init with offset_ := 2, offset_in_current_batch_ := 2 } :
            SortRelation).offset_in_current_batch_ = p.id) ∧
        (∀ i, 1 ≤ i → i < (2 : Int) →
          ∃ p q, GetItemIndexWithShift (lenOf [[1, 1, 2], [2, 2, 3]]) fuel1 SortRelation.init
              (i - 1) = some p ∧
            GetItemIndexWithShift (lenOf [[1, 1, 2], [2, 2, 3]]) fuel1 SortRelation.init i
              = some q ∧
            ∀ col ∈ [keyColumnOf [[1, 1, 2], [2, 2, 3]]],
              col p.array_id p.id q.array_id q.id = true) ∧
        ∃ p q, GetItemIndexWithShift (lenOf [[1, 1, 2], [2, 2, 3]]) fuel1 SortRelation.init
            (2 - 1) = some p ∧
          GetItemIndexWithShift (lenOf [[1, 1, 2], [2, 2, 3]]) fuel1 SortRelation.init 2
            = some q ∧
          ({ SortRelation.init with offset_ := 2, offset_in_current_batch_ := 2 } :
            SortRelation).requested_batches = q.array_id ∧
          ({ SortRelation.init with offset_ := 2, offset_in_current_batch_ := 2 } :
            SortRelation).offset_in_current_batch_ = q.id ∧
          ∃ col ∈ [keyColumnOf [[1, 1, 2], [2, 2, 3]]],
            col p.array_id p.id q.array_id q.id = false) :=
  ⟨by decide, by decide,
    (NextNewKey_postcondition (lenOf [[1, 1, 2], [2, 2, 3]])
      [keyColumnOf [[1, 1, 2], [2, 2, 3]]] 5 SortRelation.init
      { SortRelation.init with range_cache_ := 2 }
      { SortRelation.init with offset_ := 2, offset_in_current_batch_ := 2 } 2 true
      Reachable.init (by decide) (by decide)).2⟩

/-- C10.  For every cursor state, batch source and key columns: when a call of
`GetSameKeyRange()` returns `r`, a second call made right after it (no cursor movement
in between) returns `r` again and leaves the state unchanged.  And in every state
reachable by `Next`, `NextNewKey` and `GetSameKeyRange` calls, a range cache that is
not `-1` equals the value that `GetSameKeyRange()` computes at the current position
when it starts with the cache at `-1`. -/
theorem GetSameKeyRange_cache_correct (len : Int → Int) (keys : List KeyColumn) :
    (∀ (s s1 : SortRelation) (fuel : Nat) (r : Int),
      GetSameKeyRange len keys fuel s = some (r, s1) →
      (∀ fuel1, fuel ≤ fuel1 → GetSameKeyRange len keys fuel1 s1 = some (r, s1)) ∧
      (∀ fuel1 r1 s2, GetSameKeyRange len keys fuel1 s1 = some (r1, s2) → r1 = r ∧ s2 = s1)) ∧
    (∀ s : SortRelation, Reachable len keys s → s.range_cache_ ≠ -1 →
      (∃ fuel, GetSameKeyRange len keys fuel { s with range_cache_ := -1 }
        = some (s.range_cache_, s)) ∧
      (∀ fuel r s1, GetSameKeyRange len keys fuel { s with range_cache_ := -1 } = some (r, s1) →
        r = s.range_cache_)) := by
  refine ⟨?_, ?_⟩
  · intro s s1 fuel r h
    have h2 := GetSameKeyRange_again h
    refine ⟨fun fuel1 hf => GetSameKeyRange_mono h2 hf, ?_⟩
    intro fuel1 r1 s2 h3
    have := GetSameKeyRange_det h3 h2
    exact ⟨(Prod.mk.inj this).1, (Prod.mk.inj this).2⟩
  · intro s hreach hc
    obtain ⟨g, hg⟩ := (Reachable_cacheFresh hreach).resolve_left hc
    refine ⟨⟨g, hg⟩, ?_⟩
    intro fuel r s1 h
    exact (Prod.mk.inj (GetSameKeyRange_det h hg)).1

/-- An instance of C10: keys `[1,1,2]`, `[2,2,3]`, cursor on row 2 of batch 0 after two
`Next()` calls; the first call returns 3 and caches it, the second returns 3 again. -/
theorem GetSameKeyRange_cache_correct_witness :
    (∀ fuel1, 5 ≤ fuel1 →
      GetSameKeyRange (lenOf [[1, 1, 2], [2, 2, 3]]) [keyColumnOf [[1, 1, 2], [2, 2, 3]]] fuel1
        { SortRelation.init with offset_ := 2, offset_in_current_batch_ := 2, range_cache_ := 3 }
      = some (3, { SortRelation.init with
          offset_ := 2, offset_in_current_batch_ := 2, range_cache_ := 3 })) ∧
    (∀ fuel1 r1 s2,
      GetSameKeyRange (lenOf [[1, 1, 2], [2, 2, 3]]) [keyColumnOf [[1, 1, 2], [2, 2, 3]]] fuel1
        { SortRelation.init with offset_ := 2, offset_in_current_batch_ := 2, range_cache_ := 3 }
        = some (r1, s2) →
      r1 = 3 ∧ s2 = { SortRelation.init with
          offset_ := 2, offset_in_current_batch_ := 2, range_cache_ := 3 }) :=
  (GetSameKeyRange_cache_correct (lenOf [[1, 1, 2], [2, 2, 3]])
    [keyColumnOf [[1, 1, 2], [2, 2, 3]]]).1
    { SortRelation.init with offset_ := 2, offset_in_current_batch_ := 2 }
    { SortRelation.init with offset_ := 2, offset_in_current_batch_ := 2, range_cache_ := 3 }
    5 3 (by decide)

/-- C14.  Whenever `GetItemIndexWithShift(shift)` returns a pair in some state,
`Advance(shift)` returns too (within the same number of loop tests), leaves
`(requested_batches, offset_in_current_batch_)` equal to that pair, and changes neither
the logical offset nor the range cache.  Conversely `Advance(shift)` returns only if
`GetItemIndexWithShift(shift)` does. -/
theorem Advance_walks_like_lookahead (len : Int → Int) (fuel : Nat) (s : SortRelation)
    (shift : Int) (p : ArrayItemIndexS)
    (h : GetItemIndexWithShift len fuel s shift = some p) :
    (∃ s1, Advance len fuel s shift = some s1 ∧
      s1.requested_batches = p.array_id ∧ s1.offset_in_current_batch_ = p.id ∧
      s1.offset_ = s.offset_ ∧ s1.range_cache_ = s.range_cache_) ∧
    (∀ fuel1 s1, Advance len fuel1 s shift = some s1 →
      ∃ q, GetItemIndexWithShift len fuel1 s shift = some q) := by
  refine ⟨⟨landOn s p, ?_, (landOn_fields s p).1, (landOn_fields s p).2.1,
    (landOn_fields s p).2.2.1, (landOn_fields s p).2.2.2.1⟩, ?_⟩
  · rw [Advance_eq_map, h]; rfl
  · intro fuel1 s1 h1
    rw [Advance_eq_map] at h1
    rcases hg : GetItemIndexWithShift len fuel1 s shift with _ | q
    · simp [hg] at h1
    · exact ⟨q, rfl⟩

/-- Witness of C14: batches of 3, 0 and 1 rows, cursor on the last row of batch 0 with
the value 7 in the range cache; the lookahead of one row lands on `(2, 0)`. -/
theorem Advance_walks_like_lookahead_witness :
    (∃ s1, Advance (lenOf [[1, 1, 1], [], [1]]) 5
        { SortRelation.init with offset_in_current_batch_ := 2, range_cache_ := 7 } 1 = some s1 ∧
      s1.requested_batches = 2 ∧ s1.offset_in_current_batch_ = 0 ∧
      s1.offset_ = 0 ∧ s1.range_cache_ = 7) ∧
    (∀ fuel1 s1, Advance (lenOf [[1, 1, 1], [], [1]]) fuel1
        { SortRelation.init with offset_in_current_batch_ := 2, range_cache_ := 7 } 1 = some s1 →
      ∃ q, GetItemIndexWithShift (lenOf [[1, 1, 1], [], [1]]) fuel1
        { SortRelation.init with offset_in_current_batch_ := 2, range_cache_ := 7 } 1 = some q) :=
  Advance_walks_like_lookahead (lenOf [[1, 1, 1], [], [1]]) 5
    { SortRelation.init with offset_in_current_batch_ := 2, range_cache_ := 7 } 1 ⟨2, 0⟩
    (by decide)

/-- C16.  When some batch id greater than `requested_batches` reports `-1`,
`CheckRangeBound(shift)` returns, for every cursor state and every shift, and every run
of it returns the same answer `v`.  It passes to `GetNumRowsOfBatch` the batch ids
`requested_batches, ..., requested_batches + k` in this order and no others, none of
them after the batch reporting `-1`; no read before the last returns `-1`.  It answers
`false` exactly when its last read returned `-1`, so it returns at the first `-1` it
reads and answers `false` for no other reason.  And it answers `true` exactly when the
current batch is available and either `shift` does not exceed the rows left in it, or
the rows of some run of available batches after it exceed what is left of the
shift. -/
theorem CheckRangeBound_never_blocks (len : Int → Int) (s : SortRelation) (shift : Int)
    (e : Int) (he : s.requested_batches < e) (hlen : len e = -1) :
    ∃ (fuel : Nat) (v : Bool) (k : Nat),
      CheckRangeBound len fuel s shift = some v ∧
      (∀ fuel1 v1, CheckRangeBound len fuel1 s shift = some v1 → v1 = v) ∧
      CheckRangeBoundReads len fuel s shift
        = some (v, (List.range (k + 1)).map (fun j : Nat => s.requested_batches + (j : Int))) ∧
      s.requested_batches + k ≤ e ∧
      (∀ j : Nat, j < k → len (s.requested_batches + j) ≠ -1) ∧
      (v = false ↔ len (s.requested_batches + k) = -1) ∧
      (v = true ↔
        len s.requested_batches ≠ -1 ∧
        (shift ≤ len s.requested_batches - 1 - s.offset_in_current_batch_ ∨
          ∃ n : Nat,
            shift - (len s.requested_batches - 1 - s.offset_in_current_batch_)
              < sumLen len (s.requested_batches + 1) n ∧
            ∀ j : Nat, j < n → len (s.requested_batches + 1 + j) ≠ -1)) := by
  obtain ⟨d, hd⟩ : ∃ d : Nat, e = s.requested_batches + 1 + d :=
    ⟨(e - s.requested_batches - 1).toNat, by omega⟩
  rw [hd] at hlen
  have hdet : ∀ (v : Bool), CheckRangeBound len (d + 1) s shift = some v →
      ∀ fuel1 v1, CheckRangeBound len fuel1 s shift = some v1 → v1 = v :=
    fun v hv fuel1 v1 h1 => CheckRangeBound_det h1 hv
  have hfst := CheckRangeBoundReads_fst len (d + 1) s shift
  by_cases h0 : len s.requested_batches = -1
  · have hrun : CheckRangeBoundReads len (d + 1) s shift
        = some (false, (List.range (0 + 1)).map
            (fun j : Nat => s.requested_batches + (j : Int))) := by
      simp [CheckRangeBoundReads, h0, List.range_succ]
    have hv : CheckRangeBound len (d + 1) s shift = some false := by
      rw [← hfst, hrun]; rfl
    refine ⟨d + 1, false, 0, hv, hdet _ hv, hrun, by omega, fun j hj => by omega, ?_, ?_⟩
    · simp [h0]
    · simp [h0]
  · by_cases hc : shift ≤ len s.requested_batches - 1 - s.offset_in_current_batch_
    · have hrun : CheckRangeBoundReads len (d + 1) s shift
          = some (true, (List.range (0 + 1)).map
              (fun j : Nat => s.requested_batches + (j : Int))) := by
        simp [CheckRangeBoundReads, h0, hc, List.range_succ]
      have hv : CheckRangeBound len (d + 1) s shift = some true := by
        rw [← hfst, hrun]; rfl
      refine ⟨d + 1, true, 0, hv, hdet _ hv, hrun, by omega, fun j hj => by omega, ?_, ?_⟩
      · simp [h0]
      · simp only [true_iff]
        exact ⟨h0, Or.inl hc⟩
    · obtain ⟨v, m, hm, hloop, hrem, hmid, htrue, hfalse⟩ :=
        CheckRangeLoopReads_spec len d (s.requested_batches + 1)
          (shift - (len s.requested_batches - 1 - s.offset_in_current_batch_)) hlen
      have hrun : CheckRangeBoundReads len (d + 1) s shift
          = some (v, (List.range (m + 1)).map
              (fun j : Nat => s.requested_batches + (j : Int))) := by
        simp only [CheckRangeBoundReads, if_neg h0, if_neg hc, hloop]
        rw [range_map_shift]
      have hv : CheckRangeBound len (d + 1) s shift = some v := by
        rw [← hfst, hrun]; rfl
      have hbefore : ∀ j : Nat, j < m → len (s.requested_batches + j) ≠ -1 := by
        intro j hj
        cases j with
        | zero => simpa using h0
        | succ j =>
          have := hmid j (by omega)
          have e1 : s.requested_batches + ((j + 1 : Nat) : Int)
              = s.requested_batches + 1 + j := by push_cast; ring
          rw [e1]; exact this
      refine ⟨d + 1, v, m, hv, hdet _ hv, hrun, by omega, hbefore, ?_, ?_⟩
      · constructor
        · intro hvf
          obtain ⟨k1, hk1, hk2⟩ := hfalse hvf
          have e1 : s.requested_batches + (m : Int) = s.requested_batches + 1 + k1 := by
            rw [hk1]; push_cast; ring
          rw [e1]; exact hk2
        · intro hlast
          cases v with
          | false => rfl
          | true =>
            exfalso
            obtain ⟨h2, _⟩ := htrue rfl
            cases m with
            | zero => exact h0 (by simpa using hlast)
            | succ m1 =>
              have := h2 m1 (by omega)
              have e1 : s.requested_batches + ((m1 + 1 : Nat) : Int)
                  = s.requested_batches + 1 + m1 := by push_cast; ring
              rw [e1] at hlast
              exact this hlast
      · constructor
        · intro hvt
          obtain ⟨h2, h3⟩ := htrue hvt
          exact ⟨h0, Or.inr ⟨m, h3, h2⟩⟩
        · rintro ⟨_, hor⟩
          rcases hor with hor | ⟨n, hn1, hn2⟩
          · exact absurd hor hc
          · cases v with
            | true => rfl
            | false =>
              exfalso
              obtain ⟨k1, hk1, hk2⟩ := hfalse rfl
              have hnk : n ≤ k1 := by
                by_contra hlt
                exact hn2 k1 (by omega) hk2
              have := hrem n (by omega)
              omega

/-- Witness of C16: batches of 3 rows and 1 row, batch 2 absent, cursor on the last row
of batch 0; `CheckRangeBound(5)` reads the batches 0, 1, 2 and answers `false` on
reading batch 2. -/
theorem CheckRangeBound_never_blocks_witness :
    ((0 : Int) < 2 ∧ lenOf [[1, 1, 1], [1]] 2 = -1) ∧
    CheckRangeBoundReads (lenOf [[1, 1, 1], [1]]) 5
      { SortRelation.init with offset_in_current_batch_ := 2 } 5 = some (false, [0, 1, 2]) ∧
    ∃ (fuel : Nat) (v : Bool) (k : Nat),
      CheckRangeBound (lenOf [[1, 1, 1], [1]]) fuel
        { SortRelation.init with offset_in_current_batch_ := 2 } 5 = some v ∧
      (∀ fuel1 v1, CheckRangeBound (lenOf [[1, 1, 1], [1]]) fuel1
        { SortRelation.init with offset_in_current_batch_ := 2 } 5 = some v1 → v1 = v) ∧
      CheckRangeBoundReads (lenOf [[1, 1, 1], [1]]) fuel
        { SortRelation.init with offset_in_current_batch_ := 2 } 5
        = some (v, (List.range (k + 1)).map (fun j : Nat => (0 : Int) + (j : Int))) ∧
      (0 : Int) + k ≤ 2 ∧
      (∀ j : Nat, j < k → lenOf [[1, 1, 1], [1]] (0 + j) ≠ -1) ∧
      (v = false ↔ lenOf [[1, 1, 1], [1]] (0 + k) = -1) ∧
      (v = true ↔
        lenOf [[1, 1, 1], [1]] 0 ≠ -1 ∧
        ((5 : Int) ≤ lenOf [[1, 1, 1], [1]] 0 - 1 - 2 ∨
          ∃ n : Nat,
            5 - (lenOf [[1, 1, 1], [1]] 0 - 1 - 2) < sumLen (lenOf [[1, 1, 1], [1]]) (0 + 1) n ∧
            ∀ j : Nat, j < n → lenOf [[1, 1, 1], [1]] (0 + 1 + j) ≠ -1)) :=
  ⟨by decide, by decide,
    CheckRangeBound_never_blocks (lenOf [[1, 1, 1], [1]])
      { SortRelation.init with offset_in_current_batch_ := 2 } 5 2 (by decide) (by decide)⟩

/-- C17.  For every cursor state, oracle, `a` and `b ≥ 0` (in particular `a, b ≥ 0`)
with `CheckRangeBound(a + b)` true: `GetItemIndexWithShift(a + b)` returns a pair `p`; `Advance(a)` returns, and in
the state after it `GetItemIndexWithShift(b)` returns the same pair `p`; and
`Advance(a)` followed by `Advance(b)` leaves the same
`(requested_batches, offset_in_current_batch_)`, namely `p`, as a single
`Advance(a + b)`. -/
theorem shifts_compose (len : Int → Int) (fuel : Nat) (s : SortRelation) (a b : Int)
    (hb : 0 ≤ b) (h : CheckRangeBound len fuel s (a + b) = some true) :
    ∃ p s1 s2 s3, GetItemIndexWithShift len fuel s (a + b) = some p ∧
      Advance len fuel s a = some s1 ∧
      GetItemIndexWithShift len fuel s1 b = some p ∧
      Advance len fuel s1 b = some s2 ∧
      Advance len fuel s (a + b) = some s3 ∧
      s2.requested_batches = p.array_id ∧ s2.offset_in_current_batch_ = p.id ∧
      s3.requested_batches = p.array_id ∧ s3.offset_in_current_batch_ = p.id := by
  obtain ⟨p, hp, _⟩ := CheckRangeBound_true_item h
  obtain ⟨q, hq, hqp⟩ := GetItemIndexWithShift_add hb hp
  refine ⟨p, landOn s q, landOn (landOn s q) p, landOn s p, hp, ?_, hqp, ?_, ?_,
    (landOn_fields _ p).1, (landOn_fields _ p).2.1, (landOn_fields _ p).1,
    (landOn_fields _ p).2.1⟩
  · rw [Advance_eq_map, hq]; rfl
  · rw [Advance_eq_map, hqp]; rfl
  · rw [Advance_eq_map, hp]; rfl

/-- Witness of C17: batches of 3, 0 and 3 rows, cursor on row 1 of batch 0, `a = 2` and
`b = 1`: both ways end on row 1 of batch 2. -/
theorem shifts_compose_witness :
    ∃ p s1 s2 s3, GetItemIndexWithShift (lenOf [[1, 1, 2], [], [2, 2, 3]]) 5
        { SortRelation.init with offset_in_current_batch_ := 1 } (2 + 1) = some p ∧
      Advance (lenOf [[1, 1, 2], [], [2, 2, 3]]) 5
        { SortRelation.init with offset_in_current_batch_ := 1 } 2 = some s1 ∧
      GetItemIndexWithShift (lenOf [[1, 1, 2], [], [2, 2, 3]]) 5 s1 1 = some p ∧
      Advance (lenOf [[1, 1, 2], [], [2, 2, 3]]) 5 s1 1 = some s2 ∧
      Advance (lenOf [[1, 1, 2], [], [2, 2, 3]]) 5
        { SortRelation.init with offset_in_current_batch_ := 1 } (2 + 1) = some s3 ∧
      s2.requested_batches = p.array_id ∧ s2.offset_in_current_batch_ = p.id ∧
      s3.requested_batches = p.array_id ∧ s3.offset_in_current_batch_ = p.id :=
  shifts_compose (lenOf [[1, 1, 2], [], [2, 2, 3]]) 5
    { SortRelation.init with offset_in_current_batch_ := 1 } 2 1 (by decide) (by decide)

/-- C18.  For every cursor state and oracle: if `CheckRangeBound(k)` is true and
`k1 ≤ k` then `CheckRangeBound(k1)` is true (within the same number of loop tests).
Hence once `CheckRangeBound(k1)` is false, it is true for no larger shift. -/
theorem CheckRangeBound_downward_closed (len : Int → Int) (fuel : Nat) (s : SortRelation)
    (k k1 : Int) (hk : k1 ≤ k) :
    (CheckRangeBound len fuel s k = some true → CheckRangeBound len fuel s k1 = some true) ∧
    (CheckRangeBound len fuel s k1 = some false →
      ∀ fuel1, CheckRangeBound len fuel1 s k ≠ some true) := by
  have down : ∀ f, CheckRangeBound len f s k = some true →
      CheckRangeBound len f s k1 = some true := by
    intro f h
    simp only [CheckRangeBound] at h ⊢
    by_cases h0 : len s.requested_batches = -1
    · simp [h0] at h
    · rw [if_neg h0] at h ⊢
      by_cases hc1 : k1 ≤ len s.requested_batches - 1 - s.offset_in_current_batch_
      · rw [if_pos hc1]
      · rw [if_neg hc1]
        rw [if_neg (by omega)] at h
        exact CheckRangeLoop_le h (by omega)
  refine ⟨down fuel, ?_⟩
  intro hf fuel1 ht
  have := CheckRangeBound_det (down fuel1 ht) hf
  simp at this

/-- Witness of C18: batches of 3 and 3 rows; from the first row `CheckRangeBound(4)` is
true, hence so is `CheckRangeBound(2)`. -/
theorem CheckRangeBound_downward_closed_witness :
    CheckRangeBound (lenOf [[1, 1, 2], [2, 2, 3]]) 5 SortRelation.init 2 = some true :=
  (CheckRangeBound_downward_closed (lenOf [[1, 1, 2], [2, 2, 3]]) 5 SortRelation.init 4 2
    (by decide)).1 (by decide)

/-- C11, as stated, fails.  With an empty batch 0 and a batch 1 of one row, batch 1 has
row data, the initial state is reachable (by no call at all), and in it
`offset_in_current_batch_ = 0` is not below `len(requested_batches) = 0`. -/
theorem position_invariant_counterexample :
    GuardedReach (lenOf [[], [7]]) [] SortRelation.init SortRelation.init ∧
    1 ≤ lenOf [[], [7]] 1 ∧
    ¬ (0 ≤ SortRelation.init.offset_in_current_batch_ ∧
      SortRelation.init.offset_in_current_batch_
        < lenOf [[], [7]] SortRelation.init.requested_batches) :=
  ⟨GuardedReach.start, by decide, by decide⟩

/-- C11 (amended).  In every state reachable from the initial state by `Next()`,
`NextNewKey()` and `Advance(shift ≥ 0)` calls, each made only when `CheckRangeBound`
of its shift is true, `0 ≤ offset_in_current_batch_ < len(requested_batches)` holds,
unless the cursor is still at its initial position (batch 0, offset 0) and batch 0
reports no row. -/
theorem position_invariant (len : Int → Int) (keys : List KeyColumn) (s : SortRelation)
    (h : GuardedReach len keys SortRelation.init s) :
    (0 ≤ s.offset_in_current_batch_ ∧ s.offset_in_current_batch_ < len s.requested_batches) ∨
    (s.requested_batches = 0 ∧ s.offset_in_current_batch_ = 0 ∧ len 0 ≤ 0) := by
  obtain ⟨⟨_, h2, h3, _⟩, _⟩ := GuardedReach_CursorOk (CursorOk_init len) h
  rcases h3 with h3 | ⟨a, b⟩
  · exact Or.inl ⟨h2, h3⟩
  · by_cases hl : s.offset_in_current_batch_ < len s.requested_batches
    · exact Or.inl ⟨h2, hl⟩
    · right
      rw [a, b] at hl
      exact ⟨a, b, by omega⟩

/-- Witness of C11 (amended): keys `[1,1,2]`, `[2,2,3]`; after `Advance(2)` and `Next()`
the cursor is on row 0 of batch 1. -/
theorem position_invariant_witness :
    ((0 : Int) ≤ 0 ∧ (0 : Int) < lenOf [[1, 1, 2], [2, 2, 3]] 1) ∨
    ((1 : Int) = 0 ∧ (0 : Int) = 0 ∧ lenOf [[1, 1, 2], [2, 2, 3]] 0 ≤ 0) :=
  position_invariant (lenOf [[1, 1, 2], [2, 2, 3]]) [keyColumnOf [[1, 1, 2], [2, 2, 3]]]
    { SortRelation.init with offset_ := 1, requested_batches := 1, released := [0] }
    (GuardedReach.step
      (GuardedReach.step GuardedReach.start
        (@GuardedStep.advance _ _ SortRelation.init
          { SortRelation.init with offset_in_current_batch_ := 2 } 2 5
          (by decide) (by decide) (by decide)))
      (@GuardedStep.next _ _ { SortRelation.init with offset_in_current_batch_ := 2 }
        { SortRelation.init with offset_ := 1, requested_batches := 1, released := [0] }
        true 5 (by decide)))

/-- C12.  In every state `s` reached from the initial state by `Next()`, `NextNewKey()`
and `Advance(shift ≥ 0)` calls made within `CheckRangeBound`: every batch id passed to
`ReleaseArray` so far is strictly less than `requested_batches`; in every state reached
later the pair `(requested_batches, offset_in_current_batch_)` is not smaller in
lexicographic order; every position `GetItemIndexWithShift` returns has a batch id
`≥ requested_batches`; and so have both positions of every `IsEqualTo` call that
`GetSameKeyRange()` makes.  Hence no released batch is read. -/
theorem never_revisits (len : Int → Int) (keys : List KeyColumn) (s : SortRelation)
    (h : GuardedReach len keys SortRelation.init s) :
    (∀ id ∈ s.released, id < s.requested_batches) ∧
    (∀ s1, GuardedReach len keys s s1 →
      s.requested_batches < s1.requested_batches ∨
      (s.requested_batches = s1.requested_batches ∧
        s.offset_in_current_batch_ ≤ s1.offset_in_current_batch_)) ∧
    (∀ fuel shift p, GetItemIndexWithShift len fuel s shift = some p →
      s.requested_batches ≤ p.array_id ∧ ∀ id ∈ s.released, id ≠ p.array_id) ∧
    (∀ fuel r s1 calls, GetSameKeyRangeCalls len keys fuel s = some (r, s1, calls) →
      GetSameKeyRange len keys fuel s = some (r, s1) ∧
      ∀ c ∈ calls, s.requested_batches ≤ c.left.array_id ∧
        s.requested_batches ≤ c.right.array_id ∧
        ∀ id ∈ s.released, id ≠ c.left.array_id ∧ id ≠ c.right.array_id) := by
  obtain ⟨hok, _⟩ := GuardedReach_CursorOk (CursorOk_init len) h
  have hrel := hok.2.2.2
  refine ⟨hrel, fun s1 h1 => (GuardedReach_CursorOk hok h1).2, ?_, ?_⟩
  · intro fuel shift p hp
    have hge := GetItemIndexWithShift_batch_ge hp
    refine ⟨hge, fun id hid => ?_⟩
    have := hrel id hid
    omega
  · intro fuel r s1 calls hg
    refine ⟨?_, ?_⟩
    · rw [← GetSameKeyRangeCalls_fst, hg]; rfl
    · intro c hc
      have hpos : s.requested_batches ≤ c.left.array_id ∧
          s.requested_batches ≤ c.right.array_id := by
        unfold GetSameKeyRangeCalls at hg
        split_ifs at hg with hcache
        · obtain ⟨_, e2⟩ := Prod.mk.inj (Option.some.inj hg)
          rw [← (Prod.mk.inj e2).2] at hc
          simp at hc
        · rcases hb : CheckRangeBound len fuel s 0 with _ | _ | _
          · simp [hb] at hg
          · simp only [hb] at hg
            obtain ⟨_, e2⟩ := Prod.mk.inj (Option.some.inj hg)
            rw [← (Prod.mk.inj e2).2] at hc
            simp at hc
          · simp only [hb] at hg
            rcases hl : SameKeyCalls len keys fuel s fuel 0 with _ | ⟨range, calls1⟩
            · simp [hl] at hg
            · simp only [hl] at hg
              obtain ⟨_, e2⟩ := Prod.mk.inj (Option.some.inj hg)
              rw [← (Prod.mk.inj e2).2] at hc
              obtain ⟨i, h1, h2, _⟩ := SameKeyCalls_positions hl c hc
              exact ⟨GetItemIndexWithShift_batch_ge h1, GetItemIndexWithShift_batch_ge h2⟩
      refine ⟨hpos.1, hpos.2, fun id hid => ?_⟩
      have := hrel id hid
      constructor <;> omega

/-- Witness of C12: keys `[1,1,2]`, `[2,2,3]`; after `Advance(2)` and `Next()` batch 0 has
been released and the cursor is on row 0 of batch 1; the released id 0 is below the
current batch 1, and the lookahead of one row lands in batch 1. -/
theorem never_revisits_witness :
    (0 : Int) < 1 ∧
    ({ SortRelation.init with offset_ := 1, requested_batches := 1, released := [0] } :
      SortRelation).requested_batches ≤ (⟨1, 1⟩ : ArrayItemIndexS).array_id :=
  ⟨(never_revisits (lenOf [[1, 1, 2], [2, 2, 3]]) [keyColumnOf [[1, 1, 2], [2, 2, 3]]]
      { SortRelation.init with offset_ := 1, requested_batches := 1, released := [0] }
      (GuardedReach.step
        (GuardedReach.step GuardedReach.start
          (@GuardedStep.advance _ _ SortRelation.init
            { SortRelation.init with offset_in_current_batch_ := 2 } 2 5
            (by decide) (by decide) (by decide)))
        (@GuardedStep.next _ _ { SortRelation.init with offset_in_current_batch_ := 2 }
          { SortRelation.init with offset_ := 1, requested_batches := 1, released := [0] }
          true 5 (by decide)))).1 0 (by decide),
    ((never_revisits (lenOf [[1, 1, 2], [2, 2, 3]]) [keyColumnOf [[1, 1, 2], [2, 2, 3]]]
      { SortRelation.init with offset_ := 1, requested_batches := 1, released := [0] }
      (GuardedReach.step
        (GuardedReach.step GuardedReach.start
          (@GuardedStep.advance _ _ SortRelation.init
            { SortRelation.init with offset_in_current_batch_ := 2 } 2 5
            (by decide) (by decide) (by decide)))
        (@GuardedStep.next _ _ { SortRelation.init with offset_in_current_batch_ := 2 }
          { SortRelation.init with offset_ := 1, requested_batches := 1, released := [0] }
          true 5 (by decide)))).2.2.1 5 1 ⟨1, 1⟩ (by decide)).1⟩

/-- C15.  For every cursor state with the range cache at `-1` and `CheckRangeBound(0)`
true, the value `r` that `GetSameKeyRange()` returns satisfies: `r ≥ 1`; for every
`1 ≤ i < r`, `CheckRangeBound(i)` is true and the rows at shifts `i - 1` and `i` are equal
on every key column; when equality is transitive on every key column, every row at a
shift `1 ≤ i < r` equals the current row on every key column; and `CheckRangeBound(r)`
is false or the rows at shifts `r - 1` and `r` differ on some key column.  The
`IsEqualTo` calls are made pair of rows by pair of rows, in the order of the shifts,
and for one pair the columns are consulted in list order, up to and including the
first column that differs and no further. -/
theorem GetSameKeyRange_scan_structure (len : Int → Int) (keys : List KeyColumn) (fuel : Nat)
    (s s1 : SortRelation) (r : Int) (calls : List IsEqualToCall)
    (hcache : s.range_cache_ = -1) (h0 : CheckRangeBound len fuel s 0 = some true)
    (h : GetSameKeyRangeCalls len keys fuel s = some (r, s1, calls)) :
    GetSameKeyRange len keys fuel s = some (r, s1) ∧
    1 ≤ r ∧
    (∀ i, 1 ≤ i → i < r → CheckRangeBound len fuel s i = some true ∧
      ∃ p q, GetItemIndexWithShift len fuel s (i - 1) = some p ∧
        GetItemIndexWithShift len fuel s i = some q ∧
        ∀ col ∈ keys, col p.array_id p.id q.array_id q.id = true) ∧
    ((∀ col ∈ keys, ∀ a b c : ArrayItemIndexS,
        col a.array_id a.id b.array_id b.id = true →
        col b.array_id b.id c.array_id c.id = true →
        col a.array_id a.id c.array_id c.id = true) →
      ∀ i, 1 ≤ i → i < r →
        ∃ p q, GetItemIndexWithShift len fuel s 0 = some p ∧
          GetItemIndexWithShift len fuel s i = some q ∧
          ∀ col ∈ keys, col p.array_id p.id q.array_id q.id = true) ∧
    (CheckRangeBound len fuel s r = some false ∨
      ∃ p q, GetItemIndexWithShift len fuel s (r - 1) = some p ∧
        GetItemIndexWithShift len fuel s r = some q ∧
        ∃ col ∈ keys, col p.array_id p.id q.array_id q.id = false) ∧
    (∃ pairs : List (ArrayItemIndexS × ArrayItemIndexS),
      calls = pairs.flatMap (fun pq => (keyColumnsCalls pq.1 pq.2 0 keys).2) ∧
      ∀ (i : Nat) (pq : ArrayItemIndexS × ArrayItemIndexS), pairs.get? i = some pq →
        GetItemIndexWithShift len fuel s i = some pq.1 ∧
        GetItemIndexWithShift len fuel s (i + 1) = some pq.2) ∧
    (∀ p q : ArrayItemIndexS, ∃ k, k ≤ keys.length ∧
      (keyColumnsCalls p q 0 keys).2
        = (List.range k).map (fun j => (⟨j, p, q⟩ : IsEqualToCall)) ∧
      (∀ j col, j + 1 < k → keys.get? j = some col →
        col p.array_id p.id q.array_id q.id = true) ∧
      (keyColumnsLoop p q keys = false →
        1 ≤ k ∧ ∃ col, keys.get? (k - 1) = some col ∧
          col p.array_id p.id q.array_id q.id = false) ∧
      (keyColumnsLoop p q keys = true → k = keys.length)) := by
  have hret : GetSameKeyRange len keys fuel s = some (r, s1) := by
    rw [← GetSameKeyRangeCalls_fst, h]; rfl
  unfold GetSameKeyRangeCalls at h
  rw [if_neg (by simp [hcache])] at h
  simp only [h0] at h
  rcases hl : SameKeyCalls len keys fuel s fuel 0 with _ | ⟨range, calls1⟩
  · simp [hl] at h
  simp only [hl] at h
  obtain ⟨e1, e2⟩ := Prod.mk.inj (Option.some.inj h)
  have e3 : calls1 = calls := (Prod.mk.inj e2).2
  subst e3
  have hloop : SameKeyLoop len keys fuel s fuel 0 = some range := by
    rw [← SameKeyCalls_fst, hl]; rfl
  have hge := SameKeyLoop_ge hloop
  obtain ⟨hrows, hexit⟩ := SameKeyLoop_spec hloop
  obtain ⟨pairs, hp1, hp2, _⟩ := SameKeyCalls_spec hl
  have hr : r = range + 1 := e1.symm
  have adj : ∀ i, 1 ≤ i → i < r → CheckRangeBound len fuel s i = some true ∧
      ∃ p q, GetItemIndexWithShift len fuel s (i - 1) = some p ∧
        GetItemIndexWithShift len fuel s i = some q ∧
        ∀ col ∈ keys, col p.array_id p.id q.array_id q.id = true := by
    intro i hi1 hi2
    obtain ⟨hc, p, q, hp, hq, hk⟩ := hrows (i - 1) (by omega) (by omega)
    rw [show i - 1 + 1 = i by ring] at hc hq
    exact ⟨hc, p, q, hp, hq, (keyColumnsLoop_true p q keys).1 hk⟩
  refine ⟨hret, by omega, adj, ?_, ?_, ⟨pairs, hp1, ?_⟩, ?_⟩
  · intro htrans
    have step : ∀ n : Nat, ((n : Int) + 1 < r) →
        ∃ p q, GetItemIndexWithShift len fuel s 0 = some p ∧
          GetItemIndexWithShift len fuel s ((n : Int) + 1) = some q ∧
          ∀ col ∈ keys, col p.array_id p.id q.array_id q.id = true := by
      intro n
      induction n with
      | zero =>
        intro hn
        obtain ⟨_, p, q, hp, hq, hk⟩ := adj 1 (le_refl _) (by simpa using hn)
        refine ⟨p, q, by simpa using hp, by simpa using hq, hk⟩
      | succ m ih =>
        intro hn
        obtain ⟨p, q, hp, hq, hk⟩ := ih (by push_cast at hn ⊢; omega)
        obtain ⟨_, q1, q2, hq1, hq2, hk2⟩ := adj ((m : Int) + 1 + 1) (by omega)
          (by push_cast at hn ⊢; omega)
        rw [show (m : Int) + 1 + 1 - 1 = (m : Int) + 1 by ring] at hq1
        have e : q = q1 := GetItemIndexWithShift_det hq hq1
        subst e
        refine ⟨p, q2, hp, by push_cast; exact hq2, ?_⟩
        intro col hcol
        exact htrans col hcol p q q2 (hk col hcol) (hk2 col hcol)
    intro i hi1 hi2
    obtain ⟨p, q, hp, hq, hk⟩ := step (i - 1).toNat (by omega)
    have e : (((i - 1).toNat : Nat) : Int) + 1 = i := by omega
    rw [e] at hq
    exact ⟨p, q, hp, hq, hk⟩
  · rw [hr]
    rcases hexit with hf | ⟨_, p, q, hp, hq, hk⟩
    · exact Or.inl hf
    · right
      rw [show range + 1 - 1 = range by ring]
      exact ⟨p, q, hp, hq, (keyColumnsLoop_false p q keys).1 hk⟩
  · intro i pq hi
    have := hp2 i pq hi
    simpa using this
  · intro p q
    simpa using keyColumnsCalls_spec p q 0 keys

/-- Witness of C15: two key columns, the first always equal, the second comparing the
keys of `[1,1,2]`, `[2,2,3]`; at the start the scan returns 2 after four calls:
columns 0 and 1 for the rows at shifts 0 and 1, then columns 0 and 1 for the rows at
shifts 1 and 2. -/
theorem GetSameKeyRange_scan_structure_witness :
    GetSameKeyRangeCalls (lenOf [[1, 1, 2], [2, 2, 3]])
        [fun _ _ _ _ => true, keyColumnOf [[1, 1, 2], [2, 2, 3]]] 5 SortRelation.init
      = some (2, { SortRelation.init with range_cache_ := 2 },
          [⟨0, ⟨0, 0⟩, ⟨0, 1⟩⟩, ⟨1, ⟨0, 0⟩, ⟨0, 1⟩⟩, ⟨0, ⟨0, 1⟩, ⟨0, 2⟩⟩, ⟨1, ⟨0, 1⟩, ⟨0, 2⟩⟩]) ∧
    GetSameKeyRange (lenOf [[1, 1, 2], [2, 2, 3]])
        [fun _ _ _ _ => true, keyColumnOf [[1, 1, 2], [2, 2, 3]]] 5 SortRelation.init
      = some (2, { SortRelation.init with range_cache_ := 2 }) ∧
    (1 : Int) ≤ 2 :=
  ⟨by decide,
    (GetSameKeyRange_scan_structure (lenOf [[1, 1, 2], [2, 2, 3]])
      [fun _ _ _ _ => true, keyColumnOf [[1, 1, 2], [2, 2, 3]]] 5 SortRelation.init
      { SortRelation.init with range_cache_ := 2 } 2
      [⟨0, ⟨0, 0⟩, ⟨0, 1⟩⟩, ⟨1, ⟨0, 0⟩, ⟨0, 1⟩⟩, ⟨0, ⟨0, 1⟩, ⟨0, 2⟩⟩, ⟨1, ⟨0, 1⟩, ⟨0, 2⟩⟩]
      (by decide) (by decide) (by decide)).1,
    (GetSameKeyRange_scan_structure (lenOf [[1, 1, 2], [2, 2, 3]])
      [fun _ _ _ _ => true, keyColumnOf [[1, 1, 2], [2, 2, 3]]] 5 SortRelation.init
      { SortRelation.init with range_cache_ := 2 } 2
      [⟨0, ⟨0, 0⟩, ⟨0, 1⟩⟩, ⟨1, ⟨0, 0⟩, ⟨0, 1⟩⟩, ⟨0, ⟨0, 1⟩, ⟨0, 2⟩⟩, ⟨1, ⟨0, 1⟩, ⟨0, 2⟩⟩]
      (by decide) (by decide) (by decide)).2.1⟩

end SortRel

namespace UnsafeRow

/-! ### The row layout -/

theorem wordBytes_length (v : Nat) : (wordBytes v).length = 8 := rfl

theorem bytesWord_wordBytes (v : Nat) (h : v < 2 ^ 64) : bytesWord (wordBytes v) = v := by
  simp only [bytesWord, wordBytes, List.getD_cons_zero, List.getD_cons_succ]
  omega

theorem flatMap_wordBytes_length (ws : List Nat) :
    (ws.flatMap wordBytes).length = 8 * ws.length := by
  induction ws with
  | nil => rfl
  | cons w rest ih =>
    simp only [List.flatMap_cons, List.length_append, wordBytes_length, ih, List.length_cons]
    omega

theorem readWord_words (ws rest : List Nat) (k : Nat) (hk : k < ws.length)
    (hw : ∀ w ∈ ws, w < 2 ^ 64) :
    readWord (ws.flatMap wordBytes ++ rest) k = ws.getD k 0 := by
  induction ws generalizing k with
  | nil => simp at hk
  | cons w tl ih =>
    cases k with
    | zero =>
      simp only [readWord, List.flatMap_cons, List.append_assoc, Nat.mul_zero, List.drop_zero,
        List.getD_cons_zero]
      rw [List.take_append_of_le_length (by simp [wordBytes_length]),
        List.take_of_length_le (by simp [wordBytes_length])]
      exact bytesWord_wordBytes w (hw w (List.mem_cons_self _ _))
    | succ k =>
      have hk' : k < tl.length := by simpa using hk
      have := ih k hk' (fun x hx => hw x (List.mem_cons_of_mem _ hx))
      simp only [readWord, List.flatMap_cons, List.append_assoc, List.getD_cons_succ] at this ⊢
      rw [← this]
      have e : 8 * (k + 1) = (wordBytes w).length + 8 * k := by
        rw [wordBytes_length]; omega
      rw [e, List.drop_append]

theorem drop_words (ws rest : List Nat) (a : Nat) :
    (ws.flatMap wordBytes ++ rest).drop (8 * ws.length + a) = rest.drop a := by
  rw [← flatMap_wordBytes_length, List.drop_append]

theorem setNullAt_testBit (bitmap : List Nat) (j0 j : Nat) (h0 : j0 / 64 < bitmap.length) :
    ((setNullAt bitmap j0).getD (j / 64) 0).testBit (j % 64)
      = ((bitmap.getD (j / 64) 0).testBit (j % 64) || decide (j = j0)) := by
  unfold setNullAt
  by_cases hq : j / 64 = j0 / 64
  · rw [hq]
    simp only [List.getD_eq_getElem?_getD, List.getElem?_set_self h0, Option.getD_some,
      Nat.testBit_or, Nat.one_shiftLeft, Nat.testBit_two_pow]
    congr 1
    have : (j0 % 64 = j % 64) ↔ (j = j0) := by omega
    simp only [this]
  · have hne : j ≠ j0 := fun h => hq (by rw [h])
    simp only [List.getD_eq_getElem?_getD, List.getElem?_set_ne (Ne.symm hq), hne, decide_False,
      Bool.or_false]

theorem setNullAt_length (bitmap : List Nat) (j : Nat) :
    (setNullAt bitmap j).length = bitmap.length := by
  simp [setNullAt]

theorem setNullAt_lt (bitmap : List Nat) (j : Nat) (h : ∀ w ∈ bitmap, w < 2 ^ 64) :
    ∀ w ∈ setNullAt bitmap j, w < 2 ^ 64 := by
  intro w hw
  unfold setNullAt at hw
  rcases List.mem_or_eq_of_mem_set hw with h1 | h1
  · exact h w h1
  · rw [h1]
    apply Nat.or_lt_two_pow
    · by_cases hj : j / 64 < bitmap.length
      · rw [List.getD_eq_getElem?_getD, List.getElem?_eq_getElem hj]
        exact h _ (List.getElem_mem _)
      · rw [List.getD_eq_getElem?_getD, List.getElem?_eq_none (by omega)]
        exact Nat.two_pow_pos 64
    · rw [Nat.one_shiftLeft]
      exact Nat.pow_lt_pow_right (by omega) (Nat.mod_lt _ (by omega))

theorem slotOk_append (F : Nat) (var x : List Nat) (ty : ColumnType) (c : Cell) (slot : Nat)
    (h : slotOk F var ty c slot) : slotOk F (var ++ x) ty c slot := by
  unfold slotOk at h ⊢
  split
  · simpa using h
  · simp only at h
    obtain ⟨h1, h2, h3⟩ := h
    refine ⟨h1, by simp; omega, ?_⟩
    rw [List.drop_append_of_le_length (by omega),
      List.take_append_of_le_length (by simp; omega)]
    exact h3
  · trivial

theorem writeCell_cursor_le (st : RowBuffer) (j : Nat) (ty : ColumnType) (c : Cell) :
    st.cursor ≤ (writeCell st j ty c).cursor := by
  unfold writeCell
  split <;> simp

theorem writeCells_cursor_le (st : RowBuffer) (j : Nat) (cells : List (ColumnType × Cell)) :
    st.cursor ≤ (writeCells st j cells).cursor := by
  induction cells generalizing st j with
  | nil => exact le_refl _
  | cons x rest ih =>
    obtain ⟨ty, c⟩ := x
    simp only [writeCells]
    exact le_trans (writeCell_cursor_le st j ty c) (ih _ _)

theorem le_roundUp8 (n : Nat) : n ≤ roundUp8 n := by
  unfold roundUp8; omega

theorem roundUp8_mod (n : Nat) : roundUp8 n % 8 = 0 := by
  unfold roundUp8; omega

/-- Writing one more column keeps the row buffer right for the decoder. -/
theorem writeCell_inv (F W : Nat) (done : List (ColumnType × Cell)) (st : RowBuffer)
    (ty : ColumnType) (c : Cell) (hinv : RowInv F W done st) (hfit : cellFits ty c)
    (hlen : done.length < 64 * W) (hsize : (writeCell st done.length ty c).cursor < 2 ^ 32) :
    RowInv F W (done ++ [(ty, c)]) (writeCell st done.length ty c) := by
  obtain ⟨i1, i2, i3, i4, i5, i6, i7, i8⟩ := hinv
  -- the bit of a column that is not written yet is clear
  have clear : ∀ j, j < 64 * W → done.length ≤ j →
      (st.bitmap.getD (j / 64) 0).testBit (j % 64) = false := by
    intro j hj hle
    have := (i7 j hj).not
    simp only [List.getElem?_eq_none hle, exists_false, not_false_eq_true, iff_true,
      Bool.not_eq_true, reduceCtorEq] at this
    exact this
  -- the slots of the columns written before
  have old : ∀ (x : List Nat) (s : Nat) j ty1 c1, (done ++ [(ty, c)])[j]? = some (ty1, c1) →
      j < done.length → slotOk F (st.varRegion ++ x) ty1 c1 ((st.slots ++ [s]).getD j 0) := by
    intro x s j ty1 c1 hget hj
    rw [List.getElem?_append_left hj] at hget
    have := i8 j ty1 c1 hget
    rw [List.getD_eq_getElem?_getD, List.getElem?_append_left (by omega),
      ← List.getD_eq_getElem?_getD]
    exact slotOk_append F _ x ty1 c1 _ this
  have last : ∀ j ty1 c1, (done ++ [(ty, c)])[j]? = some (ty1, c1) → ¬ j < done.length →
      j = done.length ∧ ty1 = ty ∧ c1 = c := by
    intro j ty1 c1 hget hj
    have hj2 : j < (done ++ [(ty, c)]).length := by
      by_contra hge
      rw [List.getElem?_eq_none (by omega)] at hget
      exact Option.noConfusion hget
    have hj3 : j = done.length := by simp at hj2; omega
    subst hj3
    rw [List.getElem?_append_right (le_refl _)] at hget
    simp at hget
    exact ⟨rfl, hget.1.symm, hget.2.symm⟩
  have newSlot : ∀ s : Nat, (st.slots ++ [s]).getD done.length 0 = s := by
    intro s
    rw [List.getD_eq_getElem?_getD, List.getElem?_append_right (by omega)]
    simp [i2]
  -- the bits when the new column is not null
  have bitsKeep : c ≠ Cell.null → ∀ j, j < 64 * W →
      ((st.bitmap.getD (j / 64) 0).testBit (j % 64) = true ↔
        ∃ ty1, (done ++ [(ty, c)])[j]? = some (ty1, Cell.null)) := by
    intro hc j hj
    by_cases hjd : j < done.length
    · rw [List.getElem?_append_left hjd]; exact i7 j hj
    · rw [clear j hj (by omega)]
      constructor
      · intro h; exact absurd h (by simp)
      · rintro ⟨ty1, hget⟩
        obtain ⟨_, _, h3⟩ := last j ty1 Cell.null hget hjd
        exact absurd h3.symm hc
  -- the null case
  have nullInv : c = Cell.null → RowInv F W (done ++ [(ty, c)])
      { st with bitmap := setNullAt st.bitmap done.length, slots := st.slots ++ [0] } := by
    intro hc
    refine ⟨by simp [setNullAt_length, i1], by simp [i2], i3, i4,
      setNullAt_lt _ _ i5, ?_, ?_, ?_⟩
    · intro w hw
      rcases List.mem_append.1 hw with h | h
      · exact i6 w h
      · simp at h; rw [h]; exact Nat.two_pow_pos 64
    · intro j hj
      show ((setNullAt st.bitmap done.length).getD (j / 64) 0).testBit (j % 64) = true ↔ _
      rw [setNullAt_testBit _ _ _ (by rw [i1]; omega)]
      by_cases hjd : j < done.length
      · rw [List.getElem?_append_left hjd]
        have hne : j ≠ done.length := by omega
        simp only [hne, decide_False, Bool.or_false]
        exact i7 j hj
      · by_cases hje : j = done.length
        · subst hje
          simp only [decide_True, Bool.or_true, true_iff]
          exact ⟨ty, by rw [List.getElem?_append_right (le_refl _)]; simp [hc]⟩
        · simp only [hje, decide_False, Bool.or_false]
          rw [clear j hj (by omega)]
          constructor
          · intro h; exact absurd h (by simp)
          · rintro ⟨ty1, hget⟩
            exact absurd (last j ty1 Cell.null hget hjd).1 hje
    · intro j ty1 c1 hget
      by_cases hjd : j < done.length
      · have := old [] 0 j ty1 c1 hget hjd
        simpa using this
      · obtain ⟨_, _, h3⟩ := last j ty1 c1 hget hjd
        rw [h3, hc]
        unfold slotOk
        split <;> trivial
  cases ty with
  | unsupported => exact absurd hfit (by simp [cellFits])
  | fixed w =>
    cases c with
    | null => rw [show writeCell st done.length (ColumnType.fixed w) Cell.null
        = { st with bitmap := setNullAt st.bitmap done.length, slots := st.slots ++ [0] }
        from rfl]; exact nullInv rfl
    | bytes b => exact absurd hfit (by simp [cellFits])
    | fixed v =>
      simp only [cellFits] at hfit
      obtain ⟨hw1, hw2, hv⟩ := hfit
      have hpow : 2 ^ (8 * w) ≤ 2 ^ 64 := Nat.pow_le_pow_right (by omega) (by omega)
      show RowInv F W _ { st with slots := st.slots ++ [v % 2 ^ (8 * w)] }
      refine ⟨i1, by simp [i2], i3, i4, i5, ?_, bitsKeep (by simp), ?_⟩
      · intro x hx
        rcases List.mem_append.1 hx with h | h
        · exact i6 x h
        · simp at h; rw [h, Nat.mod_eq_of_lt hv]; omega
      · intro j ty1 c1 hget
        by_cases hjd : j < done.length
        · have := old [] (v % 2 ^ (8 * w)) j ty1 c1 hget hjd
          simpa using this
        · obtain ⟨h1, h2, h3⟩ := last j ty1 c1 hget hjd
          subst h1 h2 h3
          show slotOk F st.varRegion (ColumnType.fixed w) (Cell.fixed v)
            ((st.slots ++ [v % 2 ^ (8 * w)]).getD done.length 0)
          rw [newSlot]
          simp only [slotOk, Nat.mod_mod, Nat.mod_eq_of_lt hv]
  | varlen =>
    cases c with
    | null => rw [show writeCell st done.length ColumnType.varlen Cell.null
        = { st with bitmap := setNullAt st.bitmap done.length, slots := st.slots ++ [0] }
        from rfl]; exact nullInv rfl
    | fixed v => exact absurd hfit (by simp [cellFits])
    | bytes b =>
      have hsz : st.cursor + roundUp8 b.length < 2 ^ 32 := hsize
      have hle := le_roundUp8 b.length
      have hc32 : st.cursor % 2 ^ 32 = st.cursor := Nat.mod_eq_of_lt (by omega)
      have hb32 : b.length % 2 ^ 32 = b.length := Nat.mod_eq_of_lt (by omega)
      show RowInv F W _
        { st with
          slots := st.slots ++ [(st.cursor % 2 ^ 32) * 2 ^ 32 + b.length % 2 ^ 32],
          varRegion := st.varRegion ++ b ++ List.replicate (roundUp8 b.length - b.length) 0,
          cursor := st.cursor + roundUp8 b.length }
      rw [hc32, hb32]
      have hdiv : (st.cursor * 2 ^ 32 + b.length) / 2 ^ 32 = st.cursor := by omega
      have hmod : (st.cursor * 2 ^ 32 + b.length) % 2 ^ 32 = b.length := by omega
      refine ⟨i1, by simp [i2], ?_, ?_, i5, ?_, bitsKeep (by simp), ?_⟩
      · simp only [List.length_append, List.length_replicate]; omega
      · have := roundUp8_mod b.length
        simp only [List.length_append, List.length_replicate]; omega
      · intro x hx
        rcases List.mem_append.1 hx with h | h
        · exact i6 x h
        · simp at h; rw [h]; omega
      · intro j ty1 c1 hget
        by_cases hjd : j < done.length
        · have := old (b ++ List.replicate (roundUp8 b.length - b.length) 0)
            (st.cursor * 2 ^ 32 + b.length) j ty1 c1 hget hjd
          simpa [List.append_assoc] using this
        · obtain ⟨h1, h2, h3⟩ := last j ty1 c1 hget hjd
          subst h1 h2 h3
          show slotOk F _ ColumnType.varlen (Cell.bytes b)
            ((st.slots ++ [st.cursor * 2 ^ 32 + b.length]).getD done.length 0)
          rw [newSlot]
          simp only [slotOk, hdiv, hmod]
          refine ⟨by omega, by simp; omega, ?_⟩
          have e : st.cursor - F = st.varRegion.length := by omega
          rw [e, List.append_assoc, List.drop_append_of_le_length (le_refl _), List.drop_length,
            List.nil_append, List.take_append_of_le_length (le_refl _), List.take_length]

/-- Writing the remaining columns keeps the row buffer right for the decoder. -/
theorem writeCells_inv (F W : Nat) :
    ∀ (rest done : List (ColumnType × Cell)) (st : RowBuffer), RowInv F W done st →
      (∀ x ∈ rest, cellFits x.1 x.2) → done.length + rest.length ≤ 64 * W →
      (writeCells st done.length rest).cursor < 2 ^ 32 →
      RowInv F W (done ++ rest) (writeCells st done.length rest) := by
  intro rest
  induction rest with
  | nil =>
    intro done st hinv _ _ _
    simpa [writeCells] using hinv
  | cons x rest ih =>
    intro done st hinv hfit hlen hsize
    obtain ⟨ty, c⟩ := x
    simp only [writeCells] at hsize ⊢
    simp only [List.length_cons] at hlen
    have h1 := writeCell_inv F W done st ty c hinv (hfit (ty, c) (List.mem_cons_self _ _))
      (by omega) (lt_of_le_of_lt (writeCells_cursor_le _ _ _) hsize)
    have h2 := ih (done ++ [(ty, c)]) (writeCell st done.length ty c) h1
      (fun y hy => hfit y (List.mem_cons_of_mem _ hy)) (by simp; omega)
      (by simpa using hsize)
    simpa using h2

theorem RowInv_start (F W : Nat) :
    RowInv F W [] { bitmap := List.replicate W 0, slots := [], varRegion := [], cursor := F } := by
  refine ⟨by simp, rfl, rfl, rfl, ?_, ?_, ?_, ?_⟩
  · intro w hw
    rw [(List.mem_replicate.1 hw).2]; exact Nat.two_pow_pos 64
  · intro w hw; simp at hw
  · intro j hj
    have hq : j / 64 < W := by omega
    simp [List.getD_eq_getElem?_getD, List.getElem?_replicate, hq]
  · intro j ty c hget; simp at hget

theorem rowBytes_length (F W : Nat) (cells : List (ColumnType × Cell)) (st : RowBuffer)
    (hF : F = 8 * W + 8 * cells.length) (hinv : RowInv F W cells st) :
    (rowBytes st).length = st.cursor ∧ st.cursor % 8 = 0 := by
  obtain ⟨i1, i2, i3, i4, _⟩ := hinv
  unfold rowBytes
  rw [List.length_append, flatMap_wordBytes_length, List.length_append, i1, i2, i3, hF]
  omega

/-- Decoding a column of a written row gives back its value. -/
theorem decodeCell_rowBytes (F W : Nat) (cells : List (ColumnType × Cell)) (st : RowBuffer)
    (hW : nullBitsetWidth cells.length = 8 * W) (hF : F = 8 * W + 8 * cells.length)
    (hinv : RowInv F W cells st) (j : Nat) (ty : ColumnType) (c : Cell)
    (hget : cells[j]? = some (ty, c)) (hfit : cellFits ty c) :
    decodeCell cells.length ty (rowBytes st) j = c := by
  obtain ⟨i1, i2, i3, _, i5, i6, i7, i8⟩ := hinv
  have hj : j < cells.length := by
    by_contra hge
    rw [List.getElem?_eq_none (by omega)] at hget
    exact Option.noConfusion hget
  have hjW : j < 64 * W := by unfold nullBitsetWidth at hW; omega
  have hwords : ∀ w ∈ st.bitmap ++ st.slots, w < 2 ^ 64 := by
    intro w hw
    rcases List.mem_append.1 hw with h | h
    · exact i5 w h
    · exact i6 w h
  have hbit : readWord (rowBytes st) (j / 64) = st.bitmap.getD (j / 64) 0 := by
    unfold rowBytes
    rw [readWord_words _ _ _ (by simp [i1]; omega) hwords, List.getD_eq_getElem?_getD,
      List.getElem?_append_left (by omega), ← List.getD_eq_getElem?_getD]
  have hslot : readWord (rowBytes st) (nullBitsetWidth cells.length / 8 + j)
      = st.slots.getD j 0 := by
    have e : nullBitsetWidth cells.length / 8 = W := by omega
    unfold rowBytes
    rw [e, readWord_words _ _ _ (by simp [i1, i2]; omega) hwords, List.getD_eq_getElem?_getD,
      List.getElem?_append_right (by omega), i1, Nat.add_sub_cancel_left,
      ← List.getD_eq_getElem?_getD]
  have hnull := i7 j hjW
  have hok := i8 j ty c hget
  unfold decodeCell
  rw [hbit, hslot]
  by_cases hc : c = Cell.null
  · subst hc
    rw [if_pos (hnull.2 ⟨ty, hget⟩)]
  · have hb : ¬ (st.bitmap.getD (j / 64) 0).testBit (j % 64) = true := by
      intro h
      obtain ⟨ty1, h1⟩ := hnull.1 h
      rw [hget] at h1
      exact hc (Prod.mk.inj (Option.some.inj h1)).2
    rw [if_neg hb]
    cases ty with
    | unsupported => exact absurd hfit (by simp [cellFits])
    | fixed w =>
      cases c with
      | null => exact absurd rfl hc
      | bytes b => exact absurd hfit (by simp [cellFits])
      | fixed v =>
        simp only [slotOk] at hok
        simp only [hok]
    | varlen =>
      cases c with
      | null => exact absurd rfl hc
      | fixed v => exact absurd hfit (by simp [cellFits])
      | bytes b =>
        simp only [slotOk] at hok
        obtain ⟨h1, h2, h3⟩ := hok
        have hdrop : (rowBytes st).drop (st.slots.getD j 0 / 2 ^ 32)
            = st.varRegion.drop (st.slots.getD j 0 / 2 ^ 32 - F) := by
          generalize st.slots.getD j 0 / 2 ^ 32 = off at h1
          have e : off = 8 * (st.bitmap ++ st.slots).length + (off - F) := by
            rw [List.length_append, i1, i2]; omega
          unfold rowBytes
          conv_lhs => rw [e]
          exact drop_words _ _ _
        simp only
        rw [hdrop, h3]

theorem pullRows_eq (fuel : Nat) (c : UnsafeRowWriterAndReader)
    (h : c.num_rows_ - c.row_cursor_ ≤ fuel) :
    pullRows fuel c
      = (List.range' c.row_cursor_ (c.num_rows_ - c.row_cursor_)).map
          (fun i => (c.buffer_cursor_.getD i 0, c.buffers_.getD i [])) := by
  induction fuel generalizing c with
  | zero =>
    have : c.num_rows_ - c.row_cursor_ = 0 := by omega
    simp [pullRows, this]
  | succ k ih =>
    simp only [pullRows, HasNext]
    by_cases hc : c.row_cursor_ < c.num_rows_
    · simp only [hc, decide_True, if_true]
      have e : c.num_rows_ - c.row_cursor_ = (c.num_rows_ - (c.row_cursor_ + 1)) + 1 := by omega
      rw [e, List.range'_succ, List.map_cons]
      have := ih (Next c).2 (by simp only [Next]; omega)
      rw [this]
      rfl
    · have : c.num_rows_ - c.row_cursor_ = 0 := by omega
      simp [hc, this]

theorem rowCells_length (rb : RecordBatch) (i : Nat) :
    (rowCells rb i).length = rb.schema.length := by
  simp [rowCells]

theorem rowCells_get (rb : RecordBatch) (i j : Nat) (hj : j < rb.schema.length) :
    (rowCells rb i)[j]? = some (rb.schema.getD j ColumnType.unsupported, rb.cell i j) := by
  simp [rowCells, List.getElem?_map, List.getElem?_range hj]

/-- The row buffer `Write()` builds for a row of a supported batch is right for the
decoder. -/
theorem writeRow_inv (rb : RecordBatch) (h : Supported rb) (i : Nat) (hi : i < rb.num_rows) :
    RowInv (nullBitsetWidth rb.schema.length + 8 * rb.schema.length)
      (nullBitsetWidth rb.schema.length / 8) (rowCells rb i) (writeRow rb i) := by
  obtain ⟨_, _, _, hfit, hsize⟩ := h
  have hlen := rowCells_length rb i
  have hW : rb.schema.length ≤ 64 * (nullBitsetWidth rb.schema.length / 8) := by
    unfold nullBitsetWidth; omega
  have := writeCells_inv (nullBitsetWidth rb.schema.length + 8 * rb.schema.length)
    (nullBitsetWidth rb.schema.length / 8) (rowCells rb i) [] _ (RowInv_start _ _)
    (by
      intro x hx
      obtain ⟨j, hj⟩ := List.getElem?_of_mem hx
      have hjl : j < rb.schema.length := by
        by_contra hge
        rw [List.getElem?_eq_none (by rw [hlen]; omega)] at hj
        exact Option.noConfusion hj
      rw [rowCells_get rb i j hjl] at hj
      rw [← Option.some.inj hj]
      exact hfit i hi j hjl)
    (by simp [hlen]; exact hW)
    (hsize i hi)
  simpa using this

/-- C13.  For every record batch of supported column types (rows shorter than `2 ^ 32`
bytes): `Init()` succeeds; after `Write()`, pulling rows with `HasNext()`/`Next()` yields
exactly `num_rows` rows and then stops; and the `i`-th row pulled is the encoding of the
`i`-th input row: its reported length is the length of its buffer, a multiple of 8, and
decoding column `j` against the documented layout (null bitmap of
`ceil(num_cols / 64) * 8` bytes, one 8-byte slot per column, variable-length region)
gives back the value or the null of column `j` in row `i`. -/
theorem codec_round_trip (rb : RecordBatch) (h : Supported rb) :
    ∃ c, Init (UnsafeRowWriterAndReader.create rb) = some c ∧
      (pullRows rb.num_rows (Write c)).length = rb.num_rows ∧
      (∀ fuel, rb.num_rows ≤ fuel →
        pullRows fuel (Write c) = pullRows rb.num_rows (Write c)) ∧
      ∀ i, i < rb.num_rows →
        ∃ length buffer, (pullRows rb.num_rows (Write c))[i]? = some (length, buffer) ∧
          length = buffer.length ∧ length % 8 = 0 ∧
          ∀ j, j < rb.schema.length →
            decodeCell rb.schema.length (rb.schema.getD j ColumnType.unsupported) buffer j
              = rb.cell i j := by
  have hsupp : rb.schema.any (fun ty => ty == ColumnType.unsupported) = false := by
    rw [List.any_eq_false]
    intro ty hty
    simpa using h.1 ty hty
  have hinit : Init (UnsafeRowWriterAndReader.create rb)
      = some { UnsafeRowWriterAndReader.create rb with
          num_cols_ := rb.schema.length, num_rows_ := rb.num_rows,
          nullBitsetWidthInBytes_ := nullBitsetWidth rb.schema.length, row_cursor_ := 0,
          buffers_ := List.replicate rb.num_rows
            (List.replicate (nullBitsetWidth rb.schema.length + 8 * rb.schema.length) 0),
          buffer_cursor_ := List.replicate rb.num_rows
            (nullBitsetWidth rb.schema.length + 8 * rb.schema.length) } := by
    simp only [Init, UnsafeRowWriterAndReader.create, hsupp]
    rfl
  refine ⟨_, hinit, ?_⟩
  have hpull : ∀ fuel, rb.num_rows ≤ fuel →
      pullRows fuel (Write { UnsafeRowWriterAndReader.create rb with
          num_cols_ := rb.schema.length, num_rows_ := rb.num_rows,
          nullBitsetWidthInBytes_ := nullBitsetWidth rb.schema.length, row_cursor_ := 0,
          buffers_ := List.replicate rb.num_rows
            (List.replicate (nullBitsetWidth rb.schema.length + 8 * rb.schema.length) 0),
          buffer_cursor_ := List.replicate rb.num_rows
            (nullBitsetWidth rb.schema.length + 8 * rb.schema.length) })
        = (List.range rb.num_rows).map
            (fun i => ((writeRow rb i).cursor, rowBytes (writeRow rb i))) := by
    intro fuel hf
    rw [pullRows_eq fuel _ (by simp only [Write]; omega)]
    simp only [Write, UnsafeRowWriterAndReader.create, Nat.sub_zero, List.range_eq_range']
    apply List.map_congr_left
    intro i hi
    have hi2 : i < rb.num_rows := by
      have := List.mem_range'_1.1 hi
      omega
    simp [List.getD_eq_getElem?_getD, List.getElem?_map, List.getElem?_range' , hi2]
  refine ⟨by rw [hpull _ (le_refl _)]; simp, ?_, ?_⟩
  · intro fuel hf
    rw [hpull fuel hf, hpull _ (le_refl _)]
  · intro i hi
    have hinv := writeRow_inv rb h i hi
    have hlen := rowCells_length rb i
    have hW : nullBitsetWidth rb.schema.length = 8 * (nullBitsetWidth rb.schema.length / 8) := by
      unfold nullBitsetWidth; omega
    obtain ⟨hl1, hl2⟩ := rowBytes_length _ _ (rowCells rb i) (writeRow rb i)
      (by rw [hlen]; omega) hinv
    refine ⟨(writeRow rb i).cursor, rowBytes (writeRow rb i), ?_, hl1.symm, hl2, ?_⟩
    · rw [hpull _ (le_refl _)]
      simp [List.getElem?_map, List.getElem?_range hi]
    · intro j hj
      have := decodeCell_rowBytes _ _ (rowCells rb i) (writeRow rb i)
        (by rw [hlen]; exact hW) (by rw [hlen]; omega) hinv j _ _ (rowCells_get rb i j hj)
        (h.2.2.2.1 i hi j hj)
      rw [hlen] at this
      exact this

/-- Witness of C13: a batch with a 4-byte column, a string column and a 1-byte column and
three rows, with a null in each column. -/
theorem codec_round_trip_witness :
    ∃ c, Init (UnsafeRowWriterAndReader.create sampleBatch) = some c ∧
      (pullRows sampleBatch.num_rows (Write c)).length = sampleBatch.num_rows ∧
      (∀ fuel, sampleBatch.num_rows ≤ fuel →
        pullRows fuel (Write c) = pullRows sampleBatch.num_rows (Write c)) ∧
      ∀ i, i < sampleBatch.num_rows →
        ∃ length buffer,
          (pullRows sampleBatch.num_rows (Write c))[i]? = some (length, buffer) ∧
          length = buffer.length ∧ length % 8 = 0 ∧
          ∀ j, j < sampleBatch.schema.length →
            decodeCell sampleBatch.schema.length
              (sampleBatch.schema.getD j ColumnType.unsupported) buffer j
              = sampleBatch.cell i j :=
  codec_round_trip sampleBatch (by decide)

end UnsafeRow
